import Mathlib

/-!
# bootxnu: Mach-O loader, AFDT walker and XNU boot-argument assembly

A shallow embedding of `cmd/bootxnu.c` and `include/xnu.h`.

Modelling conventions.
* Memory is a total map from byte addresses to byte values.
* `u16`, `u32`, `u64` and `uintptr_t` arithmetic wraps at its width; `uintptr_t`
  is 64 bits wide (LP64), multi-byte fields are little-endian and structure
  members sit at their natural LP64 offsets.
* A pointer obtained by pointer arithmetic is reduced modulo `2 ^ 64`; the bytes
  of one object (a structure member, the `k`-th byte of a `memcpy`) are addressed
  from the object's start without reduction.
* A loop that stores nothing is a recursion on its trip count; the second loop of
  the loader reads its bound again at each test; the recursive `afdt_length`
  carries a fuel bound on its nesting depth.
-/

namespace BootXnu

/-! ## Memory -/

/-- Byte-addressed memory. -/
abbrev Mem := Nat → Nat

/-- Read one byte. -/
def rd8 (m : Mem) (a : Nat) : Nat := m a % 256

/-- Read an `n`-byte little-endian unsigned integer at address `a`. -/
def rdLE (m : Mem) (a : Nat) : Nat → Nat
  | 0 => 0
  | n + 1 => rd8 m a + 256 * rdLE m (a + 1) n

/-- Read a `u16`. -/
def rd16 (m : Mem) (a : Nat) : Nat := rdLE m a 2

/-- Read a `u32`. -/
def rd32 (m : Mem) (a : Nat) : Nat := rdLE m a 4

/-- Read a `u64` (also `uintptr_t`). -/
def rd64 (m : Mem) (a : Nat) : Nat := rdLE m a 8

/-- Store the low `n` bytes of `v`, little-endian, at address `a`. -/
def wrLE (m : Mem) (a n v : Nat) : Mem :=
  fun x => if a ≤ x ∧ x < a + n then v / 256 ^ (x - a) % 256 else m x

/-- Store a `u16`. -/
def wr16 (m : Mem) (a v : Nat) : Mem := wrLE m a 2 v

/-- Store a `u32`. -/
def wr32 (m : Mem) (a v : Nat) : Mem := wrLE m a 4 v

/-- Store a `u64` (also `uintptr_t`). -/
def wr64 (m : Mem) (a v : Nat) : Mem := wrLE m a 8 v

/-- Modelled from the spec: library `memcpy(dst, src, n)`, which copies `n` bytes
verbatim: the `n` bytes at `dst` become the bytes that were at `src` (C defines the
result only when the two ranges are disjoint). -/
def memcpy (m : Mem) (dst src n : Nat) : Mem :=
  fun x => if dst ≤ x ∧ x < dst + n then m (src + (x - dst)) else m x

/-- Modelled from the spec: library `memset(dst, c, n)`, which fills the `n` bytes
at `dst` with the byte `c` (the zero-fill of a segment, the zeroing of the block). -/
def memset (m : Mem) (dst c n : Nat) : Mem :=
  fun x => if dst ≤ x ∧ x < dst + n then c % 256 else m x

/-- Modelled from the spec: the `roundup(x, y)` helper of the common headers,
which rounds `x` up to the next multiple of `y`; it is evaluated in the unsigned
type of `x`, `w` bits wide, as `((x + (y - 1)) / y) * y`. -/
def roundup (w x y : Nat) : Nat := (x + (y - 1)) % 2 ^ w / y * y % 2 ^ w

/-- The number of bytes `strlcpy` copies: the length of the string, or
`size - 1` when the string does not fit. -/
def strlcpy_len (src : List Nat) (size : Nat) : Nat :=
  if src.length ≥ size then size - 1 else src.length

/-- Modelled from the spec: library `strlcpy(dest, src, size)`, which copies at
most `size - 1` bytes of the string and always terminates the copy; `src` is
the list of the string's bytes before its terminator. -/
def strlcpy (m : Mem) (dest : Nat) (src : List Nat) (size : Nat) : Mem :=
  if size = 0 then m
  else
    fun x =>
      if dest ≤ x ∧ x < dest + strlcpy_len src size then src.getD (x - dest) 0
      else if x = dest + strlcpy_len src size then 0
      else m x

/-- Addition in `uintptr_t` (and of an integer to a pointer). -/
def uptr_add (a b : Nat) : Nat := (a + b) % 2 ^ 64

/-- Subtraction in `uintptr_t`. -/
def uptr_sub (a b : Nat) : Nat := (a + (2 ^ 64 - b % 2 ^ 64)) % 2 ^ 64

/-! ## Configuration and constants -/

/-- Build-time configuration taken from the board headers. The last member is the
width in bits of the C type of the constant `CONFIG_SYS_LOAD_ADDR`, an unsigned type:
32 for a constant such as `0x80000000`, 64 for one written with an `UL` suffix. -/
structure Config where
  CONFIG_PHYS_64BIT : Bool
  CONFIG_ARM64 : Bool
  CONFIG_SYS_LOAD_ADDR : Nat
  CONFIG_SYS_SDRAM_SIZE : Nat
  CONFIG_SYS_LOAD_ADDR_width : Nat

def XNU_LOAD_OFFSET : Nat := 0x4000

/-- The unparenthesised sum `CONFIG_SYS_LOAD_ADDR + XNU_LOAD_OFFSET` as lines 81, 123
and 124 use it: there the macro continues a `uintptr_t` or pointer expression, so both
constants are added in pointer width, by `uptr_add`. -/
def XNU_LOAD_ADDR (cfg : Config) : Nat := cfg.CONFIG_SYS_LOAD_ADDR + XNU_LOAD_OFFSET

/-- The macro `XNU_LOAD_ADDR` standing alone, as line 132 uses it: the sum
`CONFIG_SYS_LOAD_ADDR + XNU_LOAD_OFFSET` is evaluated in the C type of the board
constant (the `int` constant `XNU_LOAD_OFFSET` is converted to it), so it wraps at
`CONFIG_SYS_LOAD_ADDR_width` bits before it is widened to the member it is stored
in. For a constant of a signed type C defines the sum only while it does not
overflow, and it is then this value as well. -/
def XNU_LOAD_ADDR_alone (cfg : Config) : Nat :=
  (cfg.CONFIG_SYS_LOAD_ADDR + XNU_LOAD_OFFSET) % 2 ^ cfg.CONFIG_SYS_LOAD_ADDR_width

def MACH_O_MAGIC (cfg : Config) : Nat :=
  if cfg.CONFIG_PHYS_64BIT then 0xfeedfacf else 0xfeedface

def LOAD_COMMAND_SEGMENT (cfg : Config) : Nat :=
  if cfg.CONFIG_PHYS_64BIT then 0x19 else 0x1

def LOAD_COMMAND_UNIXTHREAD : Nat := 0x5

def MACH_O_EXEC : Nat := 0x2

def XNU_CMDLINE_LEN : Nat := 608

/-! ## Structure layouts -/

/-- The value of `sizeof(struct mach_o_header)`. -/
def sizeof_mach_o_header (cfg : Config) : Nat :=
  if cfg.CONFIG_PHYS_64BIT then 32 else 28

/-- Field `header->magic`. -/
def header_magic (m : Mem) (h : Nat) : Nat := rd32 m h

/-- Field `header->file_type`. -/
def header_file_type (m : Mem) (h : Nat) : Nat := rd32 m (h + 12)

/-- Field `header->commands_nb`. -/
def header_commands_nb (m : Mem) (h : Nat) : Nat := rd32 m (h + 16)

/-- Field `lc->command`. -/
def lc_command (m : Mem) (lc : Nat) : Nat := rd32 m lc

/-- Field `lc->command_size`. -/
def lc_command_size (m : Mem) (lc : Nat) : Nat := rd32 m (lc + 4)

/-- Field `sc->dst`. -/
def sc_dst (m : Mem) (sc : Nat) : Nat := rd64 m (sc + 24)

/-- Field `sc->dst_len`. -/
def sc_dst_len (m : Mem) (sc : Nat) : Nat := rd64 m (sc + 32)

/-- Field `sc->src_offset`. -/
def sc_src_offset (m : Mem) (sc : Nat) : Nat := rd64 m (sc + 40)

/-- Field `sc->src_len`. -/
def sc_src_len (m : Mem) (sc : Nat) : Nat := rd64 m (sc + 48)

/-- Offset of `state.pc` inside `struct thread_command`. -/
def thread_pc_offset (cfg : Config) : Nat :=
  if cfg.CONFIG_ARM64 then 8 + 4 + 4 + 29 * 8 + 8 + 8 + 8 else 8 + 4 + 4

/-- Field `((struct thread_command *)lc)->state.pc`. -/
def thread_pc (cfg : Config) (m : Mem) (lc : Nat) : Nat := rd64 m (lc + thread_pc_offset cfg)

/-- The value of `sizeof(struct afdt_node)`. -/
def sizeof_afdt_node : Nat := 8

/-- The value of `sizeof(struct afdt_property)`. -/
def sizeof_afdt_property : Nat := 36

/-- Field `node->properties_nb`. -/
def node_properties_nb (m : Mem) (node : Nat) : Nat := rd32 m node

/-- Field `node->children_nb`. -/
def node_children_nb (m : Mem) (node : Nat) : Nat := rd32 m (node + 4)

/-- Field `property->length`. -/
def property_length (m : Mem) (p : Nat) : Nat := rd32 m (p + 32)

/-! Offsets of the members of `struct xnu_boot_arguments`. -/

def off_revision : Nat := 0
def off_version : Nat := 2
def off_virt_base : Nat := 8
def off_phys_base : Nat := 16
def off_mem_size : Nat := 24
def off_phys_end : Nat := 32
def off_video_information : Nat := 40
def off_machine_type : Nat := 88
def off_afdt : Nat := 96
def off_afdt_length : Nat := 104
def off_command_line : Nat := 108
def off_boot_flags : Nat := 720
def off_mem_size_actual : Nat := 728

/-- The value of `sizeof(struct xnu_boot_arguments)`. -/
def sizeof_xnu_boot_arguments : Nat := 736

/-! ## `afdt_length` -/

/-- The first loop of `afdt_length`: advance `offset` over `i` properties. -/
def afdt_properties (m : Mem) (afdt : Nat) : Nat → Nat → Nat
  | 0, offset => offset
  | i + 1, offset =>
    let property := uptr_add afdt offset
    afdt_properties m afdt i
      ((offset + (sizeof_afdt_property + roundup 32 (property_length m property) 4)) % 2 ^ 32)

/-- The second loop of `afdt_length`: advance `offset` over `i` children, the
length of each child being given by `child`. -/
def afdt_children (child : Nat → Option Nat) (afdt : Nat) : Nat → Nat → Option Nat
  | 0, offset => some offset
  | i + 1, offset =>
    match child (uptr_add afdt offset) with
    | none => none
    | some len => afdt_children child afdt i ((offset + len) % 2 ^ 32)

/-- The function `afdt_length`, with `fuel` bounding the depth of its recursion;
`none` when the bound is reached. -/
def afdt_length (m : Mem) : Nat → Nat → Option Nat
  | 0, _ => none
  | fuel + 1, afdt =>
    afdt_children (afdt_length m fuel) afdt (node_children_nb m afdt)
      (afdt_properties m afdt (node_properties_nb m afdt) sizeof_afdt_node)

/-! ## `load_mach_o_image` -/

/-- The record `struct mach_o_load_info`. -/
structure mach_o_load_info where
  base : Nat
  entry : Nat
  end_ : Nat
  deriving DecidableEq

/-- First loop of `load_mach_o_image` (lines 63-73): `i` iterations from `lc`.
Nothing is stored in this loop, so its bound `header->commands_nb` is the same at
every test and is passed as the number of iterations. -/
def find_range (cfg : Config) (m : Mem) : Nat → Nat → mach_o_load_info → mach_o_load_info
  | 0, _, ret => ret
  | i + 1, lc, ret =>
    let ret1 :=
      if lc_command m lc = LOAD_COMMAND_SEGMENT cfg then
        let ret0 := { ret with end_ := max (uptr_add (sc_dst m lc) (sc_dst_len m lc)) ret.end_ }
        { ret0 with base := min (sc_dst m lc) ret0.base }
      else ret
    find_range cfg m i (uptr_add lc (lc_command_size m lc)) ret1

/-- Body of the segment branch of the second loop (lines 79-88). -/
def load_segment (cfg : Config) (mach_o_image : Nat) (base : Nat) (m : Mem) (sc : Nat) : Mem :=
  let dst := uptr_add (uptr_sub (sc_dst m sc) base) (XNU_LOAD_ADDR cfg)
  let src := uptr_add mach_o_image (sc_src_offset m sc)
  let m1 := if sc_src_len m sc ≠ 0 ∧ sc_dst_len m sc ≠ 0 then memcpy m dst src (sc_src_len m sc) else m
  if sc_src_len m1 sc ≠ sc_dst_len m1 sc ∧ sc_dst_len m1 sc ≠ 0 then
    memset m1 (uptr_add dst (sc_src_len m1 sc)) 0 (uptr_sub (sc_dst_len m1 sc) (sc_src_len m1 sc))
  else m1

/-- Second loop of `load_mach_o_image` (lines 76-93), from iteration `i` with `lc`,
threading the memory and `ret.entry`. The bound `header->commands_nb` is read
again from the memory of each iteration; it is below `2 ^ 32`, so the loop ends
within the `2 ^ 32` steps the first argument allows. -/
def load_commands (cfg : Config) (mach_o_image : Nat) (base : Nat) :
    Nat → Nat → Nat → Mem → Nat → Mem × Nat
  | 0, _, _, m, entry => (m, entry)
  | steps + 1, i, lc, m, entry =>
    if i < header_commands_nb m mach_o_image then
      let st : Mem × Nat :=
        if lc_command m lc = LOAD_COMMAND_SEGMENT cfg then
          (load_segment cfg mach_o_image base m lc, entry)
        else if lc_command m lc = LOAD_COMMAND_UNIXTHREAD then
          (m, thread_pc cfg m lc)
        else (m, entry)
      load_commands cfg mach_o_image base steps (i + 1) (uptr_add lc (lc_command_size st.1 lc))
        st.1 st.2
    else (m, entry)

/-- The function `load_mach_o_image`; `entry_uninit` is the indeterminate value
the uninitialised `ret.entry` holds on entry. -/
def load_mach_o_image (cfg : Config) (m : Mem) (entry_uninit : Nat) (mach_o_image : Nat) :
    Mem × mach_o_load_info :=
  let ret : mach_o_load_info := { base := 2 ^ 64 - 1, entry := entry_uninit, end_ := 0 }
  let header := mach_o_image
  if header_magic m header ≠ MACH_O_MAGIC cfg ∨ header_file_type m header ≠ MACH_O_EXEC then
    (m, ret)
  else
    let lc := uptr_add header (sizeof_mach_o_header cfg)
    let ret1 := find_range cfg m (header_commands_nb m header) lc ret
    let st := load_commands cfg mach_o_image ret1.base (2 ^ 32) 0 lc m ret1.entry
    (st.1, { ret1 with entry := st.2 })

/-! ## `do_bootxnu` -/

/-- Lines 127-137 of `do_bootxnu`: zero the block at `boot_args`, set its static
members and copy the command line `env_get("bootargs")` when there is one. -/
def boot_args_init (cfg : Config) (m : Mem) (boot_args base : Nat)
    (command_line : Option (List Nat)) : Mem :=
  let m := memset m boot_args 0 sizeof_xnu_boot_arguments
  let m := wr16 m (boot_args + off_revision) 2
  let m := wr16 m (boot_args + off_version) 2
  let m := wr64 m (boot_args + off_virt_base) base
  let m := wr64 m (boot_args + off_phys_base) (XNU_LOAD_ADDR_alone cfg)
  let m := wr64 m (boot_args + off_mem_size) cfg.CONFIG_SYS_SDRAM_SIZE
  let m := wr64 m (boot_args + off_phys_end) (uptr_add boot_args sizeof_xnu_boot_arguments)
  match command_line with
  | some s => strlcpy m (boot_args + off_command_line) s XNU_CMDLINE_LEN
  | none => m

/-- Line 140 of `do_bootxnu`: `boot_args->afdt = boot_args->phys_end`. -/
def set_afdt (m : Mem) (boot_args : Nat) : Mem :=
  wr64 m (boot_args + off_afdt) (rd64 m (boot_args + off_phys_end))

/-- Lines 140-144 of `do_bootxnu`: append the flattened device tree; `none` when
`afdt_length` does not return within `fuel`. -/
def append_afdt (m : Mem) (fuel boot_args fdt_image_addr : Nat) : Option Mem :=
  let m := set_afdt m boot_args
  match afdt_length m fuel fdt_image_addr with
  | none => none
  | some len =>
    let m := wr32 m (boot_args + off_afdt_length) len
    let m := memcpy m (rd64 m (boot_args + off_afdt)) fdt_image_addr
      (rd32 m (boot_args + off_afdt_length))
    let m := wr64 m (boot_args + off_phys_end)
      (rd64 m (boot_args + off_phys_end) + rd32 m (boot_args + off_afdt_length))
    let m := wr64 m (boot_args + off_phys_end) (roundup 64 (rd64 m (boot_args + off_phys_end)) 0x10000)
    some m

/-- The collaborators `do_bootxnu` calls: the hexadecimal `simple_strtoul`, the
environment lookup `env_get("bootargs")`, and the cache-disable-and-jump that ends
the command (`none`: control never comes back, otherwise the memory at return). -/
structure Platform where
  simple_strtoul : String → Nat
  bootargs : Option (List Nat)
  entry_transfer : Mem → Nat → Nat → Option Mem

/-- What the entry transfer receives. -/
structure Handoff where
  mem : Mem
  boot_args : Nat
  xnu_entry : Nat

/-- One run of the command: the memory it leaves, what it handed to the entry
transfer when it got that far, and its exit code when it returns. -/
structure Run where
  mem : Mem
  handoff : Option Handoff
  ret : Option Int

/-- Line 114: `kernel_image_addr`, parsed from `argv[1]`. -/
def kernel_image_addr (pf : Platform) (argv : List String) : Nat :=
  pf.simple_strtoul (argv.getD 1 "") % 2 ^ 64

/-- Line 115: `fdt_image_addr`, parsed from `argv[2]`. -/
def fdt_image_addr (pf : Platform) (argv : List String) : Nat :=
  pf.simple_strtoul (argv.getD 2 "") % 2 ^ 64

/-- Line 124: `xnu_end`, where the boot block goes. -/
def xnu_end (cfg : Config) (load_info : mach_o_load_info) : Nat :=
  uptr_add (uptr_sub load_info.end_ load_info.base) (XNU_LOAD_ADDR cfg)

/-- The function `do_bootxnu`; `none` when `afdt_length` does not return within
`fuel`. -/
def do_bootxnu (cfg : Config) (pf : Platform) (fuel : Nat) (m : Mem) (entry_uninit : Nat)
    (argc : Int) (argv : List String) : Option Run :=
  if argc < 3 then some { mem := m, handoff := none, ret := some 1 }
  else
    let loaded := load_mach_o_image cfg m entry_uninit (kernel_image_addr pf argv)
    let load_info := loaded.2
    if load_info.base > load_info.end_ then
      some { mem := loaded.1, handoff := none, ret := some 2 }
    else
      let xnu_entry := uptr_add (uptr_sub load_info.entry load_info.base) (XNU_LOAD_ADDR cfg)
      let boot_args := xnu_end cfg load_info
      let m1 := boot_args_init cfg loaded.1 boot_args load_info.base pf.bootargs
      match append_afdt m1 fuel boot_args (fdt_image_addr pf argv) with
      | none => none
      | some m2 =>
        let handoff : Handoff := { mem := m2, boot_args := boot_args, xnu_entry := xnu_entry }
        match pf.entry_transfer m2 boot_args xnu_entry with
        | none => some { mem := m2, handoff := some handoff, ret := none }
        | some m3 => some { mem := m3, handoff := some handoff, ret := some 3 }

/-- The memory in which `do_bootxnu` calls `afdt_length` (line 141): the image is
loaded, the boot block initialised and its `afdt` member set. -/
def memory_at_walk (cfg : Config) (pf : Platform) (m : Mem) (entry_uninit : Nat)
    (argv : List String) : Mem :=
  let loaded := load_mach_o_image cfg m entry_uninit (kernel_image_addr pf argv)
  set_afdt (boot_args_init cfg loaded.1 (xnu_end cfg loaded.2) loaded.2.base pf.bootargs)
    (xnu_end cfg loaded.2)

/-! ## The load-command list of an image -/

/-- The addresses of the `n` load commands reached from `lc` by adding each
command's own `command_size`. -/
def command_addrs (m : Mem) : Nat → Nat → List Nat
  | 0, _ => []
  | n + 1, lc => lc :: command_addrs m n (uptr_add lc (lc_command_size m lc))

/-- The addresses of all load commands of the image at `mach_o_image`. -/
def image_commands (cfg : Config) (m : Mem) (mach_o_image : Nat) : List Nat :=
  command_addrs m (header_commands_nb m mach_o_image)
    (uptr_add mach_o_image (sizeof_mach_o_header cfg))

/-- The addresses of the segment commands of the image, in list order. -/
def segment_commands (cfg : Config) (m : Mem) (mach_o_image : Nat) : List Nat :=
  (image_commands cfg m mach_o_image).filter
    (fun lc => decide (lc_command m lc = LOAD_COMMAND_SEGMENT cfg))

/-- The four members of a segment command the loader consumes. -/
structure Segment where
  dst : Nat
  dst_len : Nat
  src_offset : Nat
  src_len : Nat
  deriving DecidableEq

/-- The segment described by the command at `sc`. -/
def segment_at (m : Mem) (sc : Nat) : Segment :=
  { dst := sc_dst m sc, dst_len := sc_dst_len m sc,
    src_offset := sc_src_offset m sc, src_len := sc_src_len m sc }

/-- A load command as the second loop sees it. -/
inductive Command where
  | segment (s : Segment)
  | unixthread (pc : Nat)
  | other
  deriving DecidableEq

/-- The command stored at `lc`. -/
def command_at (cfg : Config) (m : Mem) (lc : Nat) : Command :=
  if lc_command m lc = LOAD_COMMAND_SEGMENT cfg then Command.segment (segment_at m lc)
  else if lc_command m lc = LOAD_COMMAND_UNIXTHREAD then Command.unixthread (thread_pc cfg m lc)
  else Command.other

/-- The load commands of the image, decoded, in list order. -/
def decoded_commands (cfg : Config) (m : Mem) (mach_o_image : Nat) : List Command :=
  (image_commands cfg m mach_o_image).map (command_at cfg m)

/-- Where a segment is loaded: `dst - base + XNU_LOAD_ADDR`. -/
def segment_target (cfg : Config) (base : Nat) (s : Segment) : Nat :=
  uptr_add (uptr_sub s.dst base) (XNU_LOAD_ADDR cfg)

/-- Where a segment is read from: `mach_o_image + src_offset`. -/
def segment_source (mach_o_image : Nat) (s : Segment) : Nat :=
  uptr_add mach_o_image s.src_offset

/-- The copy and the zero-fill of lines 84-88 for a segment given by value. -/
def store_segment (cfg : Config) (mach_o_image base : Nat) (s : Segment) (m : Mem) : Mem :=
  let dst := segment_target cfg base s
  let src := segment_source mach_o_image s
  let m1 := if s.src_len ≠ 0 ∧ s.dst_len ≠ 0 then memcpy m dst src s.src_len else m
  if s.src_len ≠ s.dst_len ∧ s.dst_len ≠ 0 then
    memset m1 (uptr_add dst s.src_len) 0 (uptr_sub s.dst_len s.src_len)
  else m1

/-- Address `x` is one that the copy or the zero-fill of segment `s` stores to. -/
def segment_writes (cfg : Config) (base : Nat) (s : Segment) (x : Nat) : Prop :=
  (s.src_len ≠ 0 ∧ s.dst_len ≠ 0 ∧
      segment_target cfg base s ≤ x ∧ x < segment_target cfg base s + s.src_len) ∨
    (s.src_len ≠ s.dst_len ∧ s.dst_len ≠ 0 ∧
      uptr_add (segment_target cfg base s) s.src_len ≤ x ∧
      x < uptr_add (segment_target cfg base s) s.src_len + uptr_sub s.dst_len s.src_len)

instance (cfg : Config) (base : Nat) (s : Segment) (x : Nat) :
    Decidable (segment_writes cfg base s x) := by
  unfold segment_writes
  infer_instance

/-- One iteration of the second loop on a decoded command. -/
def run_command (cfg : Config) (mach_o_image base : Nat) (st : Mem × Nat) : Command → Mem × Nat
  | Command.segment s => (store_segment cfg mach_o_image base s st.1, st.2)
  | Command.unixthread pc => (st.1, pc)
  | Command.other => st

/-- The second loop on a decoded command list: each command applied in list order. -/
def run_commands (cfg : Config) (mach_o_image base : Nat) (l : List Command) (st : Mem × Nat) :
    Mem × Nat :=
  l.foldl (run_command cfg mach_o_image base) st

/-- The number of leading bytes of the command at `lc` that the loader reads. -/
def command_extent (cfg : Config) (m : Mem) (lc : Nat) : Nat :=
  if lc_command m lc = LOAD_COMMAND_SEGMENT cfg then 56
  else if lc_command m lc = LOAD_COMMAND_UNIXTHREAD then thread_pc_offset cfg + 8
  else 8

/-- Address `x` lies in the bytes the loader reads of one of the commands `lcs`. -/
def command_bytes (cfg : Config) (m : Mem) (lcs : List Nat) (x : Nat) : Prop :=
  ∃ lc ∈ lcs, lc ≤ x ∧ x < lc + command_extent cfg m lc

/-- Address `x` is one the second loop reads to find its way: a byte of
`header->commands_nb` or of a load command. -/
def loader_reads (cfg : Config) (m : Mem) (mach_o_image : Nat) (x : Nat) : Prop :=
  (mach_o_image + 16 ≤ x ∧ x < mach_o_image + 20) ∨
    command_bytes cfg m (image_commands cfg m mach_o_image) x

/-- No segment of the image is loaded over the command count or the command list. -/
def commands_preserved (cfg : Config) (m : Mem) (mach_o_image base : Nat) : Prop :=
  ∀ sc ∈ segment_commands cfg m mach_o_image, ∀ x,
    segment_writes cfg base (segment_at m sc) x → ¬ loader_reads cfg m mach_o_image x

/-! ## Concrete inputs -/

/-- A 64-bit ARM64 board whose load address `0x80000000` is an `unsigned int`. -/
def board : Config :=
  { CONFIG_PHYS_64BIT := true, CONFIG_ARM64 := true,
    CONFIG_SYS_LOAD_ADDR := 0x80000000, CONFIG_SYS_SDRAM_SIZE := 0x40000000,
    CONFIG_SYS_LOAD_ADDR_width := 32 }

/-- Memory holding zero everywhere. -/
def zero_mem : Mem := fun _ => 0

/-- An image at `0x1000000`: a valid 64-bit header announcing one command, the
segment command `{dst = 0x1000, dst_len = 0x20, src_offset = 0x40, src_len = 0x10}`. -/
def one_segment_image : Mem :=
  let m := wr32 zero_mem 0x1000000 0xfeedfacf
  let m := wr32 m (0x1000000 + 12) 2
  let m := wr32 m (0x1000000 + 16) 1
  let m := wr32 m 0x1000020 0x19
  let m := wr32 m (0x1000020 + 4) 72
  let m := wr64 m (0x1000020 + 24) 0x1000
  let m := wr64 m (0x1000020 + 32) 0x20
  let m := wr64 m (0x1000020 + 40) 0x40
  wr64 m (0x1000020 + 48) 0x10

/-- The image `one_segment_image` with the first byte of its magic number changed. -/
def bad_magic_image : Mem := wr32 one_segment_image 0x1000000 0xfeedfa00

/-! ## The tree blob, as the specification describes it -/

/-- A property of a tree node: its name, stored in a 32-byte field, and its value. -/
structure TreeProperty where
  name : List Nat
  value : List Nat

/-- A finite tree: a node with its properties and its child trees. -/
inductive TreeNode where
  | node (properties : List TreeProperty) (children : List TreeNode)

/-- The four little-endian bytes of a `u32`. -/
def u32_bytes (v : Nat) : List Nat :=
  [v % 256, v / 256 % 256, v / 65536 % 256, v / 16777216 % 256]

/-- A value length rounded up to a multiple of 4. -/
def padded (n : Nat) : Nat := (n + 3) / 4 * 4

/-- A serialized property: the 32-byte name field, the `u32` value length, the
value, and padding up to a multiple of four bytes. -/
def TreeProperty.serialize (p : TreeProperty) : List Nat :=
  (p.name ++ List.replicate 32 0).take 32 ++ u32_bytes p.value.length ++ p.value ++
    List.replicate (padded p.value.length - p.value.length) 0

/-- The properties of a node, serialized back to back. -/
def serialize_properties : List TreeProperty → List Nat
  | [] => []
  | p :: ps => p.serialize ++ serialize_properties ps

mutual
/-- A serialized tree: the two counts, then the properties, then the children. -/
def TreeNode.serialize : TreeNode → List Nat
  | TreeNode.node ps cs =>
    u32_bytes ps.length ++ u32_bytes cs.length ++ serialize_properties ps ++ serialize_children cs
/-- The children of a node, serialized back to back. -/
def serialize_children : List TreeNode → List Nat
  | [] => []
  | c :: cs => c.serialize ++ serialize_children cs
end

/-- The bytes the properties of a node take: 36 plus the padded value length each. -/
def properties_length : List TreeProperty → Nat
  | [] => 0
  | p :: ps => 36 + padded p.value.length + properties_length ps

mutual
/-- The byte length of a tree by the formula: 8, plus the properties, plus the
lengths of the children. -/
def TreeNode.byte_length : TreeNode → Nat
  | TreeNode.node ps cs => 8 + properties_length ps + children_length cs
/-- The sum of the byte lengths of a list of trees. -/
def children_length : List TreeNode → Nat
  | [] => 0
  | c :: cs => c.byte_length + children_length cs
end

mutual
/-- The nesting depth of a tree: 1 for a node without children. -/
def TreeNode.depth : TreeNode → Nat
  | TreeNode.node _ cs => children_depth cs + 1
/-- The greatest depth in a list of trees. -/
def children_depth : List TreeNode → Nat
  | [] => 0
  | c :: cs => max c.depth (children_depth cs)
end

/-- Memory holds the bytes `l` from address `a` on. -/
def mem_holds (m : Mem) (a : Nat) (l : List Nat) : Prop :=
  ∀ i, i < l.length → m (a + i) = l.getD i 0

/-- Memory that holds the bytes `l` from address `a` on and zero elsewhere. -/
def mem_of_bytes (a : Nat) (l : List Nat) : Mem :=
  fun x => if a ≤ x then l.getD (x - a) 0 else 0

/-- A node without properties and children. -/
def empty_tree : TreeNode := TreeNode.node [] []

/-- A node with one property whose value is five bytes long. -/
def one_property_tree : TreeNode :=
  TreeNode.node [{ name := [0x6e, 0x61, 0x6d, 0x65], value := [1, 2, 3, 4, 5] }] []

/-- A tree three levels deep. -/
def nested_tree : TreeNode :=
  TreeNode.node [{ name := [0x61], value := [1, 2, 3] }]
    [TreeNode.node [] [TreeNode.node [{ name := [0x62], value := [] }] []],
      TreeNode.node [{ name := [0x63], value := [9, 9, 9, 9, 9, 9] }] []]

/-- The value of a hexadecimal digit. -/
def hex_digit (c : Char) : Nat :=
  if 48 ≤ c.toNat ∧ c.toNat ≤ 57 then c.toNat - 48
  else if 97 ≤ c.toNat ∧ c.toNat ≤ 102 then c.toNat - 87
  else if 65 ≤ c.toNat ∧ c.toNat ≤ 70 then c.toNat - 55
  else 0

/-- The number a string of hexadecimal digits denotes. -/
def hex_value (s : String) : Nat := s.data.foldl (fun acc c => 16 * acc + hex_digit c) 0

/-- Collaborators for the concrete runs: a hexadecimal parser, an optional command
line, and an entry transfer that never returns. -/
def demo_platform (bootargs : Option (List Nat)) : Platform :=
  { simple_strtoul := hex_value, bootargs := bootargs, entry_transfer := fun _ _ _ => none }

/-- The image of the end-to-end scenario at `0x1000000`: a valid 64-bit header
announcing two commands, the segment `{dst = 0x1000, dst_len = 0x20,
src_offset = 0x40, src_len = 0x10}` and a unix-thread command with `pc = 0x1008`;
and, at `0x2000000`, the serialization of `one_property_tree`. -/
def scenario_memory : Mem :=
  let m := mem_of_bytes 0x2000000 one_property_tree.serialize
  let m := wr32 m 0x1000000 0xfeedfacf
  let m := wr32 m (0x1000000 + 12) 2
  let m := wr32 m (0x1000000 + 16) 2
  let m := wr32 m 0x1000020 0x19
  let m := wr32 m (0x1000020 + 4) 72
  let m := wr64 m (0x1000020 + 24) 0x1000
  let m := wr64 m (0x1000020 + 32) 0x20
  let m := wr64 m (0x1000020 + 40) 0x40
  let m := wr64 m (0x1000020 + 48) 0x10
  let m := wr32 m 0x1000068 0x5
  let m := wr32 m (0x1000068 + 4) 288
  wr64 m (0x1000068 + 272) 0x1008

/-- The arguments `bootxnu 1000000 2000000`. -/
def scenario_argv : List String := ["bootxnu", "1000000", "2000000"]

/-- The run of `bootxnu 1000000 2000000` on `scenario_memory`, with `bootargs`. -/
def scenario_run (bootargs : Option (List Nat)) : Option Run :=
  do_bootxnu board (demo_platform bootargs) 1 scenario_memory 0 3 scenario_argv

/-- What the scenario run hands to the entry transfer. -/
def scenario_handoff (bootargs : Option (List Nat)) : Handoff :=
  match scenario_run bootargs with
  | some r =>
    match r.handoff with
    | some h => h
    | none => { mem := zero_mem, boot_args := 0, xnu_entry := 0 }
  | none => { mem := zero_mem, boot_args := 0, xnu_entry := 0 }

/-- A command line of 700 bytes, longer than the field. -/
def long_command_line : List Nat := List.replicate 700 0x61

/-- An image at `0x1000000` with a valid 64-bit header and no load command. -/
def no_segment_image : Mem :=
  let m := wr32 zero_mem 0x1000000 0xfeedfacf
  wr32 m (0x1000000 + 12) 2

/-- An image at `0x1000000` with a valid 64-bit header and one segment command
`{dst = 2 ^ 64 - 0x1000, dst_len = 0x1000, src_len = 0}`, whose `dst + dst_len`
wraps to zero. -/
def wrapping_segment_image : Mem :=
  let m := wr32 zero_mem 0x1000000 0xfeedfacf
  let m := wr32 m (0x1000000 + 12) 2
  let m := wr32 m (0x1000000 + 16) 1
  let m := wr32 m 0x1000020 0x19
  let m := wr32 m (0x1000020 + 4) 72
  let m := wr64 m (0x1000020 + 24) 0xfffffffffffff000
  wr64 m (0x1000020 + 32) 0x1000

/-- A blob at `0x2000000`: a node announcing one property and one child, whose
property declares the value length `0xffffffd4`, so that the 32-bit running offset
`8 + 36 + 0xffffffd4` wraps to zero. -/
def cyclic_blob : Mem :=
  let m := wr32 zero_mem 0x2000000 1
  let m := wr32 m (0x2000000 + 4) 1
  wr32 m (0x2000000 + 8 + 32) 0xffffffd4

/-- Collaborators whose entry transfer comes back, leaving memory as it was. -/
def returning_platform : Platform :=
  { simple_strtoul := hex_value, bootargs := none, entry_transfer := fun m _ _ => some m }

/-- An image at `0x1000000` with a valid 64-bit header and the one segment command
`{dst = 0x1000, dst_len = 0x10, src_offset = 0x40, src_len = 0x20}`, whose source
is longer than its destination; the byte at `0x80004030` holds `0xff`. -/
def short_dst_image : Mem :=
  let m := wr32 zero_mem 0x1000000 0xfeedfacf
  let m := wr32 m (0x1000000 + 12) 2
  let m := wr32 m (0x1000000 + 16) 1
  let m := wr32 m 0x1000020 0x19
  let m := wr32 m (0x1000020 + 4) 72
  let m := wr64 m (0x1000020 + 24) 0x1000
  let m := wr64 m (0x1000020 + 32) 0x10
  let m := wr64 m (0x1000020 + 40) 0x40
  let m := wr64 m (0x1000020 + 48) 0x20
  wrLE m 0x80004030 1 0xff

/-- An image at `0x1000000` with a valid 64-bit header and the one segment command
`{dst = 0x1000, dst_len = 0, src_offset = 0x40, src_len = 0x10}`, whose destination
is empty. -/
def empty_dst_image : Mem :=
  let m := wr32 zero_mem 0x1000000 0xfeedfacf
  let m := wr32 m (0x1000000 + 12) 2
  let m := wr32 m (0x1000000 + 16) 1
  let m := wr32 m 0x1000020 0x19
  let m := wr32 m (0x1000020 + 4) 72
  let m := wr64 m (0x1000020 + 24) 0x1000
  let m := wr64 m (0x1000020 + 40) 0x40
  wr64 m (0x1000020 + 48) 0x10

/-- Every command of the image lies, with the bytes the loader reads of it, inside
the first `n` bytes of the image. -/
def commands_within (cfg : Config) (m : Mem) (mach_o_image n : Nat) : Bool :=
  (image_commands cfg m mach_o_image).all (fun lc =>
    decide (mach_o_image ≤ lc ∧ lc + command_extent cfg m lc ≤ mach_o_image + n))

/-- Every segment of the image has `src_len ≤ dst_len` and its target region inside
`[lo, hi)`. -/
def targets_within (cfg : Config) (m : Mem) (mach_o_image base lo hi : Nat) : Bool :=
  (segment_commands cfg m mach_o_image).all (fun sc =>
    decide (sc_src_len m sc ≤ sc_dst_len m sc ∧
      lo ≤ segment_target cfg base (segment_at m sc) ∧
      segment_target cfg base (segment_at m sc) + sc_dst_len m sc ≤ hi))

/-- An image at `0x1000000` with a valid 64-bit header and two segment commands, at
`0x1000020` and `0x1000068`, describing the segments `a` and `b`; the bytes from
`0x1000200` on are `1, 2, 3, ...` (modulo 256). -/
def two_segment_image (a b : Segment) : Mem :=
  let m : Mem := fun x => if 0x1000200 ≤ x ∧ x < 0x1000300 then (x - 0x1000200 + 1) % 256 else 0
  let m := wr32 m 0x1000000 0xfeedfacf
  let m := wr32 m (0x1000000 + 12) 2
  let m := wr32 m (0x1000000 + 16) 2
  let m := wr32 m 0x1000020 0x19
  let m := wr32 m (0x1000020 + 4) 72
  let m := wr64 m (0x1000020 + 24) a.dst
  let m := wr64 m (0x1000020 + 32) a.dst_len
  let m := wr64 m (0x1000020 + 40) a.src_offset
  let m := wr64 m (0x1000020 + 48) a.src_len
  let m := wr32 m 0x1000068 0x19
  let m := wr32 m (0x1000068 + 4) 72
  let m := wr64 m (0x1000068 + 24) b.dst
  let m := wr64 m (0x1000068 + 32) b.dst_len
  let m := wr64 m (0x1000068 + 40) b.src_offset
  wr64 m (0x1000068 + 48) b.src_len

/-- The segment `{dst = 0x1000, dst_len = 0x20, src_offset = 0x200, src_len = 0x10}`. -/
def segment_low : Segment :=
  { dst := 0x1000, dst_len := 0x20, src_offset := 0x200, src_len := 0x10 }

/-- The segment `{dst = 0x1010, dst_len = 0x20, src_offset = 0x280, src_len = 0x8}`,
whose destination overlaps the one of `segment_low` in `[0x1010, 0x1020)`. -/
def segment_overlapping : Segment :=
  { dst := 0x1010, dst_len := 0x20, src_offset := 0x280, src_len := 0x8 }

/-- The segment `{dst = 0x1040, dst_len = 0x20, src_offset = 0x280, src_len = 0x8}`,
whose destination is apart from the one of `segment_low`. -/
def segment_apart : Segment :=
  { dst := 0x1040, dst_len := 0x20, src_offset := 0x280, src_len := 0x8 }

/-- The first loop of `afdt_length` in unbounded integers: offsets and pointers
that do not wrap. -/
def afdt_properties_exact (m : Mem) (afdt : Nat) : Nat → Nat → Nat
  | 0, offset => offset
  | i + 1, offset =>
    afdt_properties_exact m afdt i
      (offset + (sizeof_afdt_property + padded (property_length m (afdt + offset))))

/-- The second loop of `afdt_length` in unbounded integers. -/
def afdt_children_exact (child : Nat → Option Nat) (afdt : Nat) : Nat → Nat → Option Nat
  | 0, offset => some offset
  | i + 1, offset =>
    match child (afdt + offset) with
    | none => none
    | some len => afdt_children_exact child afdt i (offset + len)

/-- The walk of `afdt_length` in unbounded integers: the length the walk reports
when no 32-bit offset and no pointer wraps on the way. -/
def afdt_length_exact (m : Mem) : Nat → Nat → Option Nat
  | 0, _ => none
  | fuel + 1, afdt =>
    afdt_children_exact (afdt_length_exact m fuel) afdt (node_children_nb m afdt)
      (afdt_properties_exact m afdt (node_properties_nb m afdt) sizeof_afdt_node)

/-- One iteration of the first loop on a decoded command (lines 64-71). -/
def range_command (ret : mach_o_load_info) : Command → mach_o_load_info
  | Command.segment s =>
    let ret0 := { ret with end_ := max (uptr_add s.dst s.dst_len) ret.end_ }
    { ret0 with base := min s.dst ret0.base }
  | Command.unixthread _ => ret
  | Command.other => ret

/-- The first loop on a decoded command list. -/
def range_commands (l : List Command) (ret : mach_o_load_info) : mach_o_load_info :=
  l.foldl range_command ret

/-- The memory `scenario_memory` with a third command in the list of its image: a
command with the tag `0x2` and the size 24 at `0x1000068`, between the segment
command and the thread command, which now stands at `0x1000080`. -/
def scenario_memory_inserted : Mem :=
  let m := mem_of_bytes 0x2000000 one_property_tree.serialize
  let m := wr32 m 0x1000000 0xfeedfacf
  let m := wr32 m (0x1000000 + 12) 2
  let m := wr32 m (0x1000000 + 16) 3
  let m := wr32 m 0x1000020 0x19
  let m := wr32 m (0x1000020 + 4) 72
  let m := wr64 m (0x1000020 + 24) 0x1000
  let m := wr64 m (0x1000020 + 32) 0x20
  let m := wr64 m (0x1000020 + 40) 0x40
  let m := wr64 m (0x1000020 + 48) 0x10
  let m := wr32 m 0x1000068 0x2
  let m := wr32 m (0x1000068 + 4) 24
  let m := wr32 m 0x1000080 0x5
  let m := wr32 m (0x1000080 + 4) 288
  wr64 m (0x1000080 + 272) 0x1008

/-- Address `x` is one the load-and-assemble sequence reads as input: a byte of the
header members `magic`, `file_type` and `commands_nb` of the image, a byte the loader
reads of a load command, a source byte of a segment, or one of the first `len` bytes
of the tree blob at `fdt`. -/
def sequence_reads (cfg : Config) (m : Mem) (mach_o_image fdt len : Nat) (x : Nat) : Prop :=
  (mach_o_image ≤ x ∧ x < mach_o_image + 4) ∨
    (mach_o_image + 12 ≤ x ∧ x < mach_o_image + 20) ∨
    command_bytes cfg m (image_commands cfg m mach_o_image) x ∨
    (∃ s, Command.segment s ∈ decoded_commands cfg m mach_o_image ∧
      segment_source mach_o_image s ≤ x ∧ x < segment_source mach_o_image s + s.src_len) ∨
    (fdt ≤ x ∧ x < fdt + len)

/-- Address `x` is one the load-and-assemble sequence stores to: a byte a segment is
loaded to, a byte of the boot block at `boot_args`, or one of the `len` bytes of the
tree copy behind the block. -/
def sequence_writes (cfg : Config) (m : Mem) (mach_o_image base boot_args len : Nat)
    (x : Nat) : Prop :=
  (∃ s, Command.segment s ∈ decoded_commands cfg m mach_o_image ∧
      segment_writes cfg base s x) ∨
    (boot_args ≤ x ∧ x < boot_args + sizeof_xnu_boot_arguments) ∨
    (uptr_add boot_args sizeof_xnu_boot_arguments ≤ x ∧
      x < uptr_add boot_args sizeof_xnu_boot_arguments + len)

/-- The board `board` with the load address `0xffffd000`, an `unsigned int` constant
for which `CONFIG_SYS_LOAD_ADDR + XNU_LOAD_OFFSET` exceeds 32 bits. -/
def high_board : Config :=
  { CONFIG_PHYS_64BIT := true, CONFIG_ARM64 := true,
    CONFIG_SYS_LOAD_ADDR := 0xffffd000, CONFIG_SYS_SDRAM_SIZE := 0x40000000,
    CONFIG_SYS_LOAD_ADDR_width := 32 }

/-- What the run of `bootxnu 1000000 2000000` on `scenario_memory` hands to the
entry transfer on `high_board`. -/
def high_handoff : Handoff :=
  match do_bootxnu high_board (demo_platform none) 1 scenario_memory 0 3 scenario_argv with
  | some r =>
    match r.handoff with
    | some h => h
    | none => { mem := zero_mem, boot_args := 0, xnu_entry := 0 }
  | none => { mem := zero_mem, boot_args := 0, xnu_entry := 0 }

/-- The segment `{dst = 0x1040, dst_len = 0x10, src_offset = 0x7f004000,
src_len = 0x10}`: for an image at `0x1000000` its source bytes are those at
`0x80004000`, where `segment_low` is loaded. -/
def segment_fed : Segment :=
  { dst := 0x1040, dst_len := 0x10, src_offset := 0x7f004000, src_len := 0x10 }

/-! ## Memory lemmas -/

theorem rdLE_lt (m : Mem) (a n : Nat) : rdLE m a n < 256 ^ n := by
  induction n generalizing a with
  | zero => simp [rdLE]
  | succ n ih =>
    have h := ih (a + 1)
    have h8 : rd8 m a < 256 := Nat.mod_lt _ (by decide)
    simp only [rdLE, pow_succ]
    omega

theorem rd16_lt (m : Mem) (a : Nat) : rd16 m a < 2 ^ 16 := rdLE_lt m a 2

theorem rd32_lt (m : Mem) (a : Nat) : rd32 m a < 2 ^ 32 := rdLE_lt m a 4

theorem rd64_lt (m : Mem) (a : Nat) : rd64 m a < 2 ^ 64 := rdLE_lt m a 8

theorem rdLE_congr (m1 m2 : Mem) (a n : Nat) (h : ∀ k, k < n → m1 (a + k) = m2 (a + k)) :
    rdLE m1 a n = rdLE m2 a n := by
  induction n generalizing a with
  | zero => rfl
  | succ n ih =>
    have h0 : m1 a = m2 a := by simpa using h 0 (Nat.succ_pos n)
    have hs : rdLE m1 (a + 1) n = rdLE m2 (a + 1) n :=
      ih (a + 1) (fun k hk => by
        have := h (k + 1) (by omega)
        rwa [show a + 1 + k = a + (k + 1) by omega])
    simp only [rdLE, rd8, h0, hs]

theorem wrLE_outside (m : Mem) (a n v x : Nat) (h : x < a ∨ a + n ≤ x) :
    wrLE m a n v x = m x := by
  unfold wrLE
  rw [if_neg]
  omega

theorem rdLE_wrLE_same (m : Mem) (a n v : Nat) : rdLE (wrLE m a n v) a n = v % 256 ^ n := by
  induction n generalizing a v with
  | zero => simp [rdLE, Nat.mod_one]
  | succ n ih =>
    have hs : rdLE (wrLE m a (n + 1) v) (a + 1) n = rdLE (wrLE m (a + 1) n (v / 256)) (a + 1) n := by
      apply rdLE_congr
      intro k hk
      unfold wrLE
      rw [if_pos (by omega), if_pos (by omega)]
      rw [show a + 1 + k - a = k + 1 by omega, show a + 1 + k - (a + 1) = k by omega]
      rw [pow_succ, Nat.mul_comm, Nat.div_div_eq_div_mul]
    have h0 : rd8 (wrLE m a (n + 1) v) a = v % 256 := by
      unfold rd8 wrLE
      rw [if_pos (by omega)]
      simp
    simp only [rdLE, hs, h0, ih]
    rw [pow_succ, Nat.mul_comm (256 ^ n) 256, Nat.mod_mul]

theorem rdLE_wrLE_disjoint (m : Mem) (a n v b k : Nat) (h : b + k ≤ a ∨ a + n ≤ b) :
    rdLE (wrLE m a n v) b k = rdLE m b k := by
  apply rdLE_congr
  intro j hj
  apply wrLE_outside
  omega

/-! ## The first pass: the address range of the segments -/

theorem find_range_entry (cfg : Config) (m : Mem) (n lc : Nat) (ret : mach_o_load_info) :
    (find_range cfg m n lc ret).entry = ret.entry := by
  induction n generalizing lc ret with
  | zero => rfl
  | succ n ih =>
    simp only [find_range]
    rw [ih]
    split <;> rfl

/-- What the first loop leaves in `ret.base`: a lower bound of the old value and
of every segment destination, attained by one of them. -/
theorem find_range_base (cfg : Config) (m : Mem) (n lc : Nat) (ret : mach_o_load_info) :
    ((find_range cfg m n lc ret).base = ret.base ∨
      ∃ sc ∈ (command_addrs m n lc).filter
          (fun lc => decide (lc_command m lc = LOAD_COMMAND_SEGMENT cfg)),
        (find_range cfg m n lc ret).base = sc_dst m sc) ∧
    (find_range cfg m n lc ret).base ≤ ret.base ∧
    ∀ sc ∈ (command_addrs m n lc).filter
        (fun lc => decide (lc_command m lc = LOAD_COMMAND_SEGMENT cfg)),
      (find_range cfg m n lc ret).base ≤ sc_dst m sc := by
  induction n generalizing lc ret with
  | zero => simp [find_range, command_addrs]
  | succ n ih =>
    simp only [find_range, command_addrs]
    by_cases hc : lc_command m lc = LOAD_COMMAND_SEGMENT cfg
    · rw [if_pos hc, List.filter_cons_of_pos (by simpa using hc)]
      obtain ⟨h1, h2, h3⟩ := ih (uptr_add lc (lc_command_size m lc))
        { base := min (sc_dst m lc) ret.base, entry := ret.entry,
          end_ := max (uptr_add (sc_dst m lc) (sc_dst_len m lc)) ret.end_ }
      simp only at h1 h2 h3
      refine ⟨?_, ?_, ?_⟩
      · rcases h1 with h1 | ⟨sc, hsc, h1⟩
        · rcases Nat.le_total (sc_dst m lc) ret.base with hle | hle
          · right
            exact ⟨lc, List.mem_cons_self _ _, by rw [h1, Nat.min_eq_left hle]⟩
          · left
            rw [h1, Nat.min_eq_right hle]
        · right
          exact ⟨sc, List.mem_cons_of_mem _ hsc, h1⟩
      · exact le_trans h2 (Nat.min_le_right _ _)
      · intro sc hsc
        rcases List.mem_cons.mp hsc with rfl | hsc
        · exact le_trans h2 (Nat.min_le_left _ _)
        · exact h3 sc hsc
    · rw [if_neg hc, List.filter_cons_of_neg (by simpa using hc)]
      exact ih _ _

/-- What the first loop leaves in `ret.end`: an upper bound of the old value and
of every segment end, attained by one of them. -/
theorem find_range_end (cfg : Config) (m : Mem) (n lc : Nat) (ret : mach_o_load_info) :
    ((find_range cfg m n lc ret).end_ = ret.end_ ∨
      ∃ sc ∈ (command_addrs m n lc).filter
          (fun lc => decide (lc_command m lc = LOAD_COMMAND_SEGMENT cfg)),
        (find_range cfg m n lc ret).end_ = uptr_add (sc_dst m sc) (sc_dst_len m sc)) ∧
    ret.end_ ≤ (find_range cfg m n lc ret).end_ ∧
    ∀ sc ∈ (command_addrs m n lc).filter
        (fun lc => decide (lc_command m lc = LOAD_COMMAND_SEGMENT cfg)),
      uptr_add (sc_dst m sc) (sc_dst_len m sc) ≤ (find_range cfg m n lc ret).end_ := by
  induction n generalizing lc ret with
  | zero => simp [find_range, command_addrs]
  | succ n ih =>
    simp only [find_range, command_addrs]
    by_cases hc : lc_command m lc = LOAD_COMMAND_SEGMENT cfg
    · rw [if_pos hc, List.filter_cons_of_pos (by simpa using hc)]
      obtain ⟨h1, h2, h3⟩ := ih (uptr_add lc (lc_command_size m lc))
        { base := min (sc_dst m lc) ret.base, entry := ret.entry,
          end_ := max (uptr_add (sc_dst m lc) (sc_dst_len m lc)) ret.end_ }
      simp only at h1 h2 h3
      refine ⟨?_, ?_, ?_⟩
      · rcases h1 with h1 | ⟨sc, hsc, h1⟩
        · rcases Nat.le_total ret.end_ (uptr_add (sc_dst m lc) (sc_dst_len m lc)) with hle | hle
          · right
            exact ⟨lc, List.mem_cons_self _ _, by rw [h1, Nat.max_eq_left hle]⟩
          · left
            rw [h1, Nat.max_eq_right hle]
        · right
          exact ⟨sc, List.mem_cons_of_mem _ hsc, h1⟩
      · exact le_trans (Nat.le_max_right _ _) h2
      · intro sc hsc
        rcases List.mem_cons.mp hsc with rfl | hsc
        · exact le_trans (Nat.le_max_left _ _) h2
        · exact h3 sc hsc
    · rw [if_neg hc, List.filter_cons_of_neg (by simpa using hc)]
      exact ih _ _

/-- With a matching header, the returned `base` and `end` are those of the first
loop run on the initial memory. -/
theorem load_mach_o_image_info (cfg : Config) (m : Mem) (e image : Nat)
    (hmagic : header_magic m image = MACH_O_MAGIC cfg)
    (htype : header_file_type m image = MACH_O_EXEC) :
    (load_mach_o_image cfg m e image).2.base =
        (find_range cfg m (header_commands_nb m image)
          (uptr_add image (sizeof_mach_o_header cfg))
          { base := 2 ^ 64 - 1, entry := e, end_ := 0 }).base ∧
      (load_mach_o_image cfg m e image).2.end_ =
        (find_range cfg m (header_commands_nb m image)
          (uptr_add image (sizeof_mach_o_header cfg))
          { base := 2 ^ 64 - 1, entry := e, end_ := 0 }).end_ := by
  unfold load_mach_o_image
  simp [hmagic, htype]

/-- C1: for an image with a matching header whose command list holds at least one
segment command, none with `dst + dst_len` overflowing the pointer width,
`load_mach_o_image` returns as `base` the least `dst` and as `end` the greatest
`dst + dst_len` over the segment commands, and `base ≤ end`. -/
theorem load_mach_o_image_range (cfg : Config) (m : Mem) (e image : Nat)
    (hmagic : header_magic m image = MACH_O_MAGIC cfg)
    (htype : header_file_type m image = MACH_O_EXEC)
    (hseg : segment_commands cfg m image ≠ [])
    (hov : ∀ sc ∈ segment_commands cfg m image, sc_dst m sc + sc_dst_len m sc < 2 ^ 64) :
    (∃ sc ∈ segment_commands cfg m image,
        (load_mach_o_image cfg m e image).2.base = sc_dst m sc) ∧
      (∀ sc ∈ segment_commands cfg m image,
        (load_mach_o_image cfg m e image).2.base ≤ sc_dst m sc) ∧
      (∃ sc ∈ segment_commands cfg m image,
        (load_mach_o_image cfg m e image).2.end_ = sc_dst m sc + sc_dst_len m sc) ∧
      (∀ sc ∈ segment_commands cfg m image,
        sc_dst m sc + sc_dst_len m sc ≤ (load_mach_o_image cfg m e image).2.end_) ∧
      (load_mach_o_image cfg m e image).2.base ≤ (load_mach_o_image cfg m e image).2.end_ := by
  obtain ⟨hb, he⟩ := load_mach_o_image_info cfg m e image hmagic htype
  obtain ⟨b1, _, b3⟩ := find_range_base cfg m (header_commands_nb m image)
    (uptr_add image (sizeof_mach_o_header cfg)) { base := 2 ^ 64 - 1, entry := e, end_ := 0 }
  obtain ⟨e1, _, e3⟩ := find_range_end cfg m (header_commands_nb m image)
    (uptr_add image (sizeof_mach_o_header cfg)) { base := 2 ^ 64 - 1, entry := e, end_ := 0 }
  rw [← hb] at b1 b3
  rw [← he] at e1 e3
  have hadd : ∀ sc ∈ segment_commands cfg m image,
      uptr_add (sc_dst m sc) (sc_dst_len m sc) = sc_dst m sc + sc_dst_len m sc := by
    intro sc hsc
    exact Nat.mod_eq_of_lt (hov sc hsc)
  obtain ⟨s0, hs0⟩ := List.exists_mem_of_ne_nil _ hseg
  have b3s : ∀ sc ∈ segment_commands cfg m image,
      (load_mach_o_image cfg m e image).2.base ≤ sc_dst m sc := b3
  have e3s : ∀ sc ∈ segment_commands cfg m image,
      sc_dst m sc + sc_dst_len m sc ≤ (load_mach_o_image cfg m e image).2.end_ := by
    intro sc hsc
    rw [← hadd sc hsc]
    exact e3 sc hsc
  refine ⟨?_, b3s, ?_, e3s, ?_⟩
  · rcases b1 with b1 | ⟨sc, hsc, b1⟩
    · refine ⟨s0, hs0, ?_⟩
      have h1 := b3s s0 hs0
      have h2 := rd64_lt m (s0 + 24)
      simp only at b1
      unfold sc_dst at h1 ⊢
      omega
    · exact ⟨sc, hsc, b1⟩
  · rcases e1 with e1 | ⟨sc, hsc, e1⟩
    · refine ⟨s0, hs0, ?_⟩
      have h1 := e3s s0 hs0
      simp only at e1
      omega
    · exact ⟨sc, hsc, by rw [e1, hadd sc hsc]⟩
  · have h1 := b3s s0 hs0
    have h2 := e3s s0 hs0
    omega

/-- C1, witness: the single segment `{dst = 0x1000, dst_len = 0x20}` gives
`base = 0x1000` and `end = 0x1020`. -/
theorem load_mach_o_image_range_witness :
    (load_mach_o_image board one_segment_image 0 0x1000000).2.base = 0x1000 ∧
      (load_mach_o_image board one_segment_image 0 0x1000000).2.end_ = 0x1020 ∧
      segment_commands board one_segment_image 0x1000000 = [0x1000020] ∧
      ((∃ sc ∈ segment_commands board one_segment_image 0x1000000,
          (load_mach_o_image board one_segment_image 0 0x1000000).2.base =
            sc_dst one_segment_image sc) ∧
        (∀ sc ∈ segment_commands board one_segment_image 0x1000000,
          (load_mach_o_image board one_segment_image 0 0x1000000).2.base ≤
            sc_dst one_segment_image sc) ∧
        (∃ sc ∈ segment_commands board one_segment_image 0x1000000,
          (load_mach_o_image board one_segment_image 0 0x1000000).2.end_ =
            sc_dst one_segment_image sc + sc_dst_len one_segment_image sc) ∧
        (∀ sc ∈ segment_commands board one_segment_image 0x1000000,
          sc_dst one_segment_image sc + sc_dst_len one_segment_image sc ≤
            (load_mach_o_image board one_segment_image 0 0x1000000).2.end_) ∧
        (load_mach_o_image board one_segment_image 0 0x1000000).2.base ≤
          (load_mach_o_image board one_segment_image 0 0x1000000).2.end_) :=
  ⟨by decide, by decide, by decide,
    load_mach_o_image_range board one_segment_image 0 0x1000000 (by decide) (by decide)
      (by decide) (by decide)⟩

/-! ## Header mismatch -/

/-- C2: when the header magic differs from `MACH_O_MAGIC` or the file type from
`MACH_O_EXEC`, `load_mach_o_image` returns `base` all-ones and `end` zero, hence
`base > end`, leaves memory exactly as it was, and returns the same record for
every memory that agrees with this one on the bytes of the header. -/
theorem load_mach_o_image_header_mismatch (cfg : Config) (m : Mem) (e image : Nat)
    (h : header_magic m image ≠ MACH_O_MAGIC cfg ∨ header_file_type m image ≠ MACH_O_EXEC) :
    (load_mach_o_image cfg m e image).2.base = 2 ^ 64 - 1 ∧
      (load_mach_o_image cfg m e image).2.end_ = 0 ∧
      (load_mach_o_image cfg m e image).2.base > (load_mach_o_image cfg m e image).2.end_ ∧
      (load_mach_o_image cfg m e image).1 = m ∧
      ∀ m2 : Mem, (∀ a, image ≤ a → a < image + sizeof_mach_o_header cfg → m2 a = m a) →
        (load_mach_o_image cfg m2 e image).2 = (load_mach_o_image cfg m e image).2 ∧
        (load_mach_o_image cfg m2 e image).1 = m2 := by
  have hsz : 28 ≤ sizeof_mach_o_header cfg := by
    unfold sizeof_mach_o_header
    split <;> omega
  have hres : ∀ m1 : Mem,
      (header_magic m1 image ≠ MACH_O_MAGIC cfg ∨ header_file_type m1 image ≠ MACH_O_EXEC) →
      load_mach_o_image cfg m1 e image = (m1, { base := 2 ^ 64 - 1, entry := e, end_ := 0 }) := by
    intro m1 h1
    unfold load_mach_o_image
    simp only [if_pos h1]
  rw [hres m h]
  refine ⟨rfl, rfl, by show (0 : Nat) < 2 ^ 64 - 1; norm_num, rfl, ?_⟩
  intro m2 hagree
  have hm : header_magic m2 image = header_magic m image := by
    unfold header_magic rd32
    apply rdLE_congr
    intro k hk
    exact hagree _ (by omega) (by omega)
  have ht : header_file_type m2 image = header_file_type m image := by
    unfold header_file_type rd32
    apply rdLE_congr
    intro k hk
    exact hagree _ (by omega) (by omega)
  rw [hres m2 (by rw [hm, ht]; exact h)]
  exact ⟨rfl, rfl⟩

/-- C2, witness: an image whose magic number is wrong. -/
theorem load_mach_o_image_header_mismatch_witness :
    (header_magic bad_magic_image 0x1000000 ≠ MACH_O_MAGIC board ∨
        header_file_type bad_magic_image 0x1000000 ≠ MACH_O_EXEC) ∧
      (load_mach_o_image board bad_magic_image 0 0x1000000).2.base = 2 ^ 64 - 1 ∧
      (load_mach_o_image board bad_magic_image 0 0x1000000).2.end_ = 0 ∧
      (load_mach_o_image board bad_magic_image 0 0x1000000).1 = bad_magic_image :=
  ⟨by decide,
    (load_mach_o_image_header_mismatch board bad_magic_image 0 0x1000000 (by decide)).1,
    (load_mach_o_image_header_mismatch board bad_magic_image 0 0x1000000 (by decide)).2.1,
    (load_mach_o_image_header_mismatch board bad_magic_image 0 0x1000000 (by decide)).2.2.2.1⟩

/-! ## The second pass: loading the segments -/

theorem memcpy_outside (m : Mem) (dst src n x : Nat) (h : x < dst ∨ dst + n ≤ x) :
    memcpy m dst src n x = m x := by
  unfold memcpy
  rw [if_neg]
  omega

theorem memcpy_inside (m : Mem) (dst src n k : Nat) (h : k < n) :
    memcpy m dst src n (dst + k) = m (src + k) := by
  unfold memcpy
  rw [if_pos (by omega), Nat.add_sub_cancel_left]

theorem memset_outside (m : Mem) (dst c n x : Nat) (h : x < dst ∨ dst + n ≤ x) :
    memset m dst c n x = m x := by
  unfold memset
  rw [if_neg]
  omega

theorem memset_inside (m : Mem) (dst c n k : Nat) (h : k < n) :
    memset m dst c n (dst + k) = c % 256 := by
  unfold memset
  rw [if_pos (by omega)]

theorem store_segment_outside (cfg : Config) (image base : Nat) (s : Segment) (m : Mem) (x : Nat)
    (h : ¬ segment_writes cfg base s x) : store_segment cfg image base s m x = m x := by
  unfold segment_writes at h
  unfold store_segment
  have h1 : (if s.src_len ≠ 0 ∧ s.dst_len ≠ 0 then
      memcpy m (segment_target cfg base s) (segment_source image s) s.src_len else m) x = m x := by
    split
    · rename_i hc
      apply memcpy_outside
      by_contra hx
      exact h (Or.inl ⟨hc.1, hc.2, by omega, by omega⟩)
    · rfl
  split
  · rename_i hc
    rw [memset_outside, h1]
    by_contra hx
    exact h (Or.inr ⟨hc.1, hc.2, by omega, by omega⟩)
  · exact h1

theorem load_segment_eq (cfg : Config) (image base : Nat) (m0 m : Mem) (sc : Nat)
    (hagree : ∀ x, sc ≤ x → x < sc + 56 → m x = m0 x)
    (hw : ∀ x, segment_writes cfg base (segment_at m0 sc) x → ¬ (sc ≤ x ∧ x < sc + 56)) :
    load_segment cfg image base m sc = store_segment cfg image base (segment_at m0 sc) m := by
  have hf : ∀ (m1 : Mem) (off : Nat), off + 8 ≤ 56 →
      (∀ x, sc ≤ x → x < sc + 56 → m1 x = m0 x) → rd64 m1 (sc + off) = rd64 m0 (sc + off) := by
    intro m1 off hoff h1
    unfold rd64
    apply rdLE_congr
    intro k hk
    exact h1 _ (by omega) (by omega)
  have e1 : sc_dst m sc = sc_dst m0 sc := hf m 24 (by omega) hagree
  have e2 : sc_dst_len m sc = sc_dst_len m0 sc := hf m 32 (by omega) hagree
  have e3 : sc_src_offset m sc = sc_src_offset m0 sc := hf m 40 (by omega) hagree
  have e4 : sc_src_len m sc = sc_src_len m0 sc := hf m 48 (by omega) hagree
  unfold load_segment store_segment
  simp only [e1, e2, e3, e4]
  have hm1 : ∀ x, sc ≤ x → x < sc + 56 →
      (if sc_src_len m0 sc ≠ 0 ∧ sc_dst_len m0 sc ≠ 0 then
        memcpy m (uptr_add (uptr_sub (sc_dst m0 sc) base) (XNU_LOAD_ADDR cfg))
          (uptr_add image (sc_src_offset m0 sc)) (sc_src_len m0 sc) else m) x = m0 x := by
    intro x hx1 hx2
    split
    · rename_i hc
      rw [memcpy_outside, hagree x hx1 hx2]
      by_contra hx
      exact hw x (Or.inl ⟨hc.1, hc.2, by simp only [segment_target, segment_at]; omega,
        by simp only [segment_target, segment_at]; omega⟩) ⟨hx1, hx2⟩
    · exact hagree x hx1 hx2
  generalize hg : (if sc_src_len m0 sc ≠ 0 ∧ sc_dst_len m0 sc ≠ 0 then
      memcpy m (uptr_add (uptr_sub (sc_dst m0 sc) base) (XNU_LOAD_ADDR cfg))
        (uptr_add image (sc_src_offset m0 sc)) (sc_src_len m0 sc) else m) = m1 at hm1 ⊢
  have e5 : sc_dst_len m1 sc = sc_dst_len m0 sc := hf m1 32 (by omega) hm1
  have e6 : sc_src_len m1 sc = sc_src_len m0 sc := hf m1 48 (by omega) hm1
  rw [e5, e6]
  subst hg
  rfl

theorem command_extent_ge (cfg : Config) (m : Mem) (lc : Nat) : 8 ≤ command_extent cfg m lc := by
  unfold command_extent
  split
  · omega
  · split <;> omega

theorem command_bytes_cons (cfg : Config) (m : Mem) (lc : Nat) (l : List Nat) (x : Nat)
    (h : command_bytes cfg m l x) : command_bytes cfg m (lc :: l) x := by
  obtain ⟨c, hc, h1, h2⟩ := h
  exact ⟨c, List.mem_cons_of_mem _ hc, h1, h2⟩

/-- The second loop agrees with the decoded command list applied in order, as long
as no segment is loaded over the command count or over the bytes of a command
still to be read. -/
theorem load_commands_eq (cfg : Config) (image base : Nat) (m0 : Mem) (k steps i lc : Nat)
    (mc : Mem) (entry : Nat)
    (hnb : header_commands_nb m0 image = i + k) (hsteps : k ≤ steps)
    (hhdr : ∀ x, image + 16 ≤ x → x < image + 20 → mc x = m0 x)
    (hagree : ∀ x, command_bytes cfg m0 (command_addrs m0 k lc) x → mc x = m0 x)
    (hpres : ∀ sc ∈ command_addrs m0 k lc, lc_command m0 sc = LOAD_COMMAND_SEGMENT cfg →
      ∀ x, segment_writes cfg base (segment_at m0 sc) x →
        ¬ (image + 16 ≤ x ∧ x < image + 20) ∧
          ¬ command_bytes cfg m0 (command_addrs m0 k lc) x) :
    load_commands cfg image base steps i lc mc entry =
      run_commands cfg image base ((command_addrs m0 k lc).map (command_at cfg m0)) (mc, entry) := by
  have hcount : ∀ m1 : Mem, (∀ x, image + 16 ≤ x → x < image + 20 → m1 x = m0 x) →
      header_commands_nb m1 image = header_commands_nb m0 image := by
    intro m1 h1
    unfold header_commands_nb rd32
    apply rdLE_congr
    intro j hj
    exact h1 _ (by omega) (by omega)
  induction k generalizing steps i lc mc entry with
  | zero =>
    cases steps with
    | zero => rfl
    | succ steps =>
      rw [load_commands, hcount mc hhdr, if_neg (by omega)]
      rfl
  | succ n ih =>
    obtain ⟨steps1, rfl⟩ : ∃ s1, steps = s1 + 1 := ⟨steps - 1, by omega⟩
    have hext := command_extent_ge cfg m0 lc
    have hhead : ∀ x, lc ≤ x → x < lc + command_extent cfg m0 lc → mc x = m0 x :=
      fun x h1 h2 => hagree x ⟨lc, List.mem_cons_self _ _, h1, h2⟩
    have hcmd : lc_command mc lc = lc_command m0 lc := by
      unfold lc_command rd32
      apply rdLE_congr
      intro j hj
      exact hhead _ (by omega) (by omega)
    have hsize : ∀ m1 : Mem, (∀ x, command_bytes cfg m0 (command_addrs m0 (n + 1) lc) x →
        m1 x = m0 x) → lc_command_size m1 lc = lc_command_size m0 lc := by
      intro m1 h1
      unfold lc_command_size rd32
      apply rdLE_congr
      intro j hj
      exact h1 _ ⟨lc, List.mem_cons_self _ _, by omega, by omega⟩
    have htail : ∀ m1 : Mem, ∀ e1 : Nat,
        (∀ x, image + 16 ≤ x → x < image + 20 → m1 x = m0 x) →
        (∀ x, command_bytes cfg m0 (command_addrs m0 (n + 1) lc) x → m1 x = m0 x) →
        load_commands cfg image base steps1 (i + 1) (uptr_add lc (lc_command_size m0 lc)) m1 e1 =
          run_commands cfg image base
            ((command_addrs m0 n (uptr_add lc (lc_command_size m0 lc))).map (command_at cfg m0))
            (m1, e1) := by
      intro m1 e1 h0 h1
      apply ih
      · omega
      · omega
      · exact h0
      · intro x hx
        exact h1 x (command_bytes_cons cfg m0 lc _ x hx)
      · intro sc hsc hs x hw
        obtain ⟨p1, p2⟩ := hpres sc (List.mem_cons_of_mem _ hsc) hs x hw
        exact ⟨p1, fun hx => p2 (command_bytes_cons cfg m0 lc _ x hx)⟩
    rw [load_commands, hcount mc hhdr, if_pos (by omega)]
    simp only [command_addrs, List.map_cons, run_commands, List.foldl_cons]
    by_cases hseg : lc_command m0 lc = LOAD_COMMAND_SEGMENT cfg
    · have hext56 : command_extent cfg m0 lc = 56 := by
        unfold command_extent
        rw [if_pos hseg]
      have hls : load_segment cfg image base mc lc =
          store_segment cfg image base (segment_at m0 lc) mc := by
        apply load_segment_eq
        · intro x h1 h2
          exact hhead x h1 (by omega)
        · intro x hw hx
          exact (hpres lc (List.mem_cons_self _ _) hseg x hw).2
            ⟨lc, List.mem_cons_self _ _, hx.1, by omega⟩
      have hm0 : ∀ x, image + 16 ≤ x → x < image + 20 →
          store_segment cfg image base (segment_at m0 lc) mc x = m0 x := by
        intro x hx1 hx2
        rw [store_segment_outside, hhdr x hx1 hx2]
        intro hw
        exact (hpres lc (List.mem_cons_self _ _) hseg x hw).1 ⟨hx1, hx2⟩
      have hm1 : ∀ x, command_bytes cfg m0 (command_addrs m0 (n + 1) lc) x →
          store_segment cfg image base (segment_at m0 lc) mc x = m0 x := by
        intro x hx
        rw [store_segment_outside, hagree x hx]
        intro hw
        exact (hpres lc (List.mem_cons_self _ _) hseg x hw).2 hx
      rw [hcmd, if_pos hseg]
      simp only [hls]
      rw [hsize _ hm1, htail _ _ hm0 hm1]
      simp only [command_at, if_pos hseg, run_command, run_commands]
    · by_cases hthr : lc_command m0 lc = LOAD_COMMAND_UNIXTHREAD
      · have hextt : command_extent cfg m0 lc = thread_pc_offset cfg + 8 := by
          unfold command_extent
          rw [if_neg hseg, if_pos hthr]
        have hpc : thread_pc cfg mc lc = thread_pc cfg m0 lc := by
          unfold thread_pc rd64
          apply rdLE_congr
          intro j hj
          exact hhead _ (by omega) (by omega)
        rw [hcmd, if_neg hseg, if_pos hthr]
        simp only
        rw [hsize _ hagree, htail _ _ hhdr hagree, hpc]
        simp only [command_at, if_neg hseg, if_pos hthr, run_command, run_commands]
      · rw [hcmd, if_neg hseg, if_neg hthr]
        simp only
        rw [hsize _ hagree, htail _ _ hhdr hagree]
        simp only [command_at, if_neg hseg, if_neg hthr, run_command, run_commands]

theorem mem_segment_commands (cfg : Config) (m : Mem) (image sc : Nat) :
    sc ∈ segment_commands cfg m image ↔
      sc ∈ image_commands cfg m image ∧ lc_command m sc = LOAD_COMMAND_SEGMENT cfg := by
  unfold segment_commands
  rw [List.mem_filter]
  simp

theorem mem_decoded_commands (cfg : Config) (m : Mem) (image : Nat) (s : Segment) :
    Command.segment s ∈ decoded_commands cfg m image ↔
      ∃ sc ∈ segment_commands cfg m image, segment_at m sc = s := by
  unfold decoded_commands
  rw [List.mem_map]
  constructor
  · rintro ⟨lc, hlc, h⟩
    unfold command_at at h
    by_cases hseg : lc_command m lc = LOAD_COMMAND_SEGMENT cfg
    · rw [if_pos hseg] at h
      exact ⟨lc, (mem_segment_commands cfg m image lc).mpr ⟨hlc, hseg⟩, Command.segment.inj h⟩
    · rw [if_neg hseg] at h
      split at h <;> cases h
  · rintro ⟨sc, hsc, h⟩
    obtain ⟨h1, h2⟩ := (mem_segment_commands cfg m image sc).mp hsc
    refine ⟨sc, h1, ?_⟩
    unfold command_at
    rw [if_pos h2, h]

/-- With a matching header and a command count and list that no segment is loaded
over, `load_mach_o_image` leaves the memory and the entry that the decoded commands,
applied in list order, produce. -/
theorem load_mach_o_image_eq (cfg : Config) (m : Mem) (e image : Nat)
    (hmagic : header_magic m image = MACH_O_MAGIC cfg)
    (htype : header_file_type m image = MACH_O_EXEC)
    (hpres : commands_preserved cfg m image (load_mach_o_image cfg m e image).2.base) :
    (load_mach_o_image cfg m e image).1 =
        (run_commands cfg image (load_mach_o_image cfg m e image).2.base
          (decoded_commands cfg m image) (m, e)).1 ∧
      (load_mach_o_image cfg m e image).2.entry =
        (run_commands cfg image (load_mach_o_image cfg m e image).2.base
          (decoded_commands cfg m image) (m, e)).2 := by
  have hb := (load_mach_o_image_info cfg m e image hmagic htype).1
  have hsim := load_commands_eq cfg image (load_mach_o_image cfg m e image).2.base m
    (header_commands_nb m image) (2 ^ 32) 0 (uptr_add image (sizeof_mach_o_header cfg)) m e
    (by omega) (Nat.le_of_lt (rd32_lt m (image + 16)))
    (fun _ _ _ => rfl) (fun _ _ => rfl)
    (fun sc hsc hs x hw =>
      ⟨fun hx => hpres sc ((mem_segment_commands cfg m image sc).mpr ⟨hsc, hs⟩) x hw (Or.inl hx),
        fun hx => hpres sc ((mem_segment_commands cfg m image sc).mpr ⟨hsc, hs⟩) x hw
          (Or.inr hx)⟩)
  have hl : load_mach_o_image cfg m e image =
      ((load_commands cfg image (load_mach_o_image cfg m e image).2.base
          (2 ^ 32) 0 (uptr_add image (sizeof_mach_o_header cfg)) m e).1,
        { base := (load_mach_o_image cfg m e image).2.base,
          entry := (load_commands cfg image (load_mach_o_image cfg m e image).2.base
            (2 ^ 32) 0 (uptr_add image (sizeof_mach_o_header cfg)) m e).2,
          end_ := (load_mach_o_image cfg m e image).2.end_ }) := by
    rw [hb, (load_mach_o_image_info cfg m e image hmagic htype).2]
    unfold load_mach_o_image
    simp [hmagic, htype, find_range_entry]
  rw [hsim] at hl
  constructor
  · conv_lhs => rw [hl]
    rfl
  · conv_lhs => rw [hl]
    rfl

/-- The bytes a segment leaves at its target after a decoded command list has run:
the source bytes followed by zeros, when no different segment stores into the
target range and no segment stores into the source range. -/
theorem run_commands_segment_bytes (cfg : Config) (image base : Nat) (s : Segment) (m0 : Mem)
    (l : List Command) (m : Mem) (e : Nat)
    (hlen : s.src_len ≤ s.dst_len) (hlt : s.dst_len < 2 ^ 64)
    (hfit : segment_target cfg base s + s.dst_len ≤ 2 ^ 64)
    (hother : ∀ s2, Command.segment s2 ∈ l → s2 ≠ s → ∀ x, segment_writes cfg base s2 x →
      ¬ (segment_target cfg base s ≤ x ∧ x < segment_target cfg base s + s.dst_len))
    (hsrc : ∀ s2, Command.segment s2 ∈ l → ∀ x, segment_writes cfg base s2 x →
      ¬ (segment_source image s ≤ x ∧ x < segment_source image s + s.src_len))
    (hm : ∀ j, j < s.src_len → m (segment_source image s + j) = m0 (segment_source image s + j))
    (hin : Command.segment s ∈ l ∨ ∀ k, k < s.dst_len →
      m (segment_target cfg base s + k) =
        if k < s.src_len then m0 (segment_source image s + k) else 0) :
    ∀ k, k < s.dst_len →
      (run_commands cfg image base l (m, e)).1 (segment_target cfg base s + k) =
        if k < s.src_len then m0 (segment_source image s + k) else 0 := by
  induction l generalizing m e with
  | nil =>
    rcases hin with hin | hin
    · cases hin
    · exact hin
  | cons c l ih =>
    have hother2 : ∀ s2, Command.segment s2 ∈ l → s2 ≠ s → ∀ x, segment_writes cfg base s2 x →
        ¬ (segment_target cfg base s ≤ x ∧ x < segment_target cfg base s + s.dst_len) :=
      fun s2 h2 => hother s2 (List.mem_cons_of_mem _ h2)
    have hsrc2 : ∀ s2, Command.segment s2 ∈ l → ∀ x, segment_writes cfg base s2 x →
        ¬ (segment_source image s ≤ x ∧ x < segment_source image s + s.src_len) :=
      fun s2 h2 => hsrc s2 (List.mem_cons_of_mem _ h2)
    simp only [run_commands, List.foldl_cons]
    cases c with
    | segment s2 =>
      simp only [run_command]
      have hsrcm : ∀ j, j < s.src_len →
          store_segment cfg image base s2 m (segment_source image s + j) =
            m0 (segment_source image s + j) := by
        intro j hj
        rw [store_segment_outside, hm j hj]
        intro hw
        exact hsrc s2 (List.mem_cons_self _ _) _ hw ⟨by omega, by omega⟩
      by_cases heq : s2 = s
      · subst heq
        apply ih _ _ hother2 hsrc2 hsrcm
        right
        intro k hk
        unfold store_segment
        have hd0 : s2.dst_len ≠ 0 := by omega
        by_cases hks : k < s2.src_len
        · have hs0 : s2.src_len ≠ 0 := by omega
          rw [if_pos hks]
          have hcp : (if s2.src_len ≠ 0 ∧ s2.dst_len ≠ 0 then
              memcpy m (segment_target cfg base s2) (segment_source image s2) s2.src_len else m)
              (segment_target cfg base s2 + k) = m0 (segment_source image s2 + k) := by
            rw [if_pos ⟨hs0, hd0⟩, memcpy_inside _ _ _ _ _ hks, hm k hks]
          by_cases hc : s2.src_len ≠ s2.dst_len ∧ s2.dst_len ≠ 0
          · have hadd : uptr_add (segment_target cfg base s2) s2.src_len =
                segment_target cfg base s2 + s2.src_len := by
              unfold uptr_add
              apply Nat.mod_eq_of_lt
              have := hc.1
              omega
            rw [if_pos hc, memset_outside, hcp]
            rw [hadd]
            omega
          · rw [if_neg hc]
            exact hcp
        · rw [if_neg hks]
          have hne : s2.src_len ≠ s2.dst_len := by omega
          rw [if_pos ⟨hne, hd0⟩]
          have hadd : uptr_add (segment_target cfg base s2) s2.src_len =
              segment_target cfg base s2 + s2.src_len := by
            unfold uptr_add
            apply Nat.mod_eq_of_lt
            omega
          have hsub : uptr_sub s2.dst_len s2.src_len = s2.dst_len - s2.src_len := by
            unfold uptr_sub
            rw [Nat.mod_eq_of_lt (show s2.src_len < 2 ^ 64 by omega)]
            rw [show s2.dst_len + (2 ^ 64 - s2.src_len) = (s2.dst_len - s2.src_len) + 2 ^ 64 by omega]
            rw [Nat.add_mod_right]
            apply Nat.mod_eq_of_lt
            omega
          rw [hadd, hsub]
          rw [show segment_target cfg base s2 + k =
            segment_target cfg base s2 + s2.src_len + (k - s2.src_len) by omega]
          rw [memset_inside]
          omega
      · apply ih _ _ hother2 hsrc2 hsrcm
        rcases hin with hin | hin
        · left
          rcases List.mem_cons.mp hin with h | h
          · exact absurd (Command.segment.inj h).symm heq
          · exact h
        · right
          intro k hk
          rw [store_segment_outside, hin k hk]
          intro hw
          exact hother s2 (List.mem_cons_self _ _) heq _ hw ⟨by omega, by omega⟩
    | unixthread pc =>
      simp only [run_command]
      apply ih _ _ hother2 hsrc2 hm
      rcases hin with hin | hin
      · left
        rcases List.mem_cons.mp hin with h | h
        · cases h
        · exact h
      · right
        exact hin
    | other =>
      simp only [run_command]
      apply ih _ _ hother2 hsrc2 hm
      rcases hin with hin | hin
      · left
        rcases List.mem_cons.mp hin with h | h
        · cases h
        · exact h
      · right
        exact hin

theorem uptr_add_lt (a b : Nat) : uptr_add a b < 2 ^ 64 := Nat.mod_lt _ (by norm_num)

theorem uptr_sub_lt (a b : Nat) : uptr_sub a b < 2 ^ 64 := Nat.mod_lt _ (by norm_num)

/-- C3: for an image with a matching header and a segment command `sc` with
`src_len < dst_len` whose target region lies in the address space, when no segment
is loaded over the command count or the command list, no different segment stores
into the target region of `sc` and no segment stores into the source bytes of `sc`: after
`load_mach_o_image`, byte `k` of the region at `dst - base + XNU_LOAD_ADDR` is
image byte `src_offset + k` for `k < src_len` and zero for `src_len ≤ k < dst_len`. -/
theorem load_mach_o_image_segment_bytes (cfg : Config) (m : Mem) (e image sc : Nat)
    (hmagic : header_magic m image = MACH_O_MAGIC cfg)
    (htype : header_file_type m image = MACH_O_EXEC)
    (hsc : sc ∈ segment_commands cfg m image)
    (hlen : sc_src_len m sc < sc_dst_len m sc)
    (hfit : uptr_add (uptr_sub (sc_dst m sc) (load_mach_o_image cfg m e image).2.base)
      (XNU_LOAD_ADDR cfg) + sc_dst_len m sc ≤ 2 ^ 64)
    (hpres : commands_preserved cfg m image (load_mach_o_image cfg m e image).2.base)
    (hother : ∀ sc2 ∈ segment_commands cfg m image, segment_at m sc2 ≠ segment_at m sc →
      ∀ x, segment_writes cfg (load_mach_o_image cfg m e image).2.base (segment_at m sc2) x →
        ¬ (uptr_add (uptr_sub (sc_dst m sc) (load_mach_o_image cfg m e image).2.base)
              (XNU_LOAD_ADDR cfg) ≤ x ∧
            x < uptr_add (uptr_sub (sc_dst m sc) (load_mach_o_image cfg m e image).2.base)
              (XNU_LOAD_ADDR cfg) + sc_dst_len m sc))
    (hsrc : ∀ sc2 ∈ segment_commands cfg m image,
      ∀ x, segment_writes cfg (load_mach_o_image cfg m e image).2.base (segment_at m sc2) x →
        ¬ (uptr_add image (sc_src_offset m sc) ≤ x ∧
            x < uptr_add image (sc_src_offset m sc) + sc_src_len m sc)) :
    ∀ k, k < sc_dst_len m sc →
      (load_mach_o_image cfg m e image).1
          (uptr_add (uptr_sub (sc_dst m sc) (load_mach_o_image cfg m e image).2.base)
            (XNU_LOAD_ADDR cfg) + k) =
        if k < sc_src_len m sc then m (uptr_add image (sc_src_offset m sc) + k) else 0 := by
  intro k hk
  rw [(load_mach_o_image_eq cfg m e image hmagic htype hpres).1]
  refine run_commands_segment_bytes cfg image (load_mach_o_image cfg m e image).2.base
    (segment_at m sc) m (decoded_commands cfg m image) m e (Nat.le_of_lt hlen)
    (rd64_lt m (sc + 32)) hfit ?_ ?_ (fun _ _ => rfl)
    (Or.inl ((mem_decoded_commands cfg m image _).mpr ⟨sc, hsc, rfl⟩)) k hk
  · intro s2 hs2 hne x hw
    obtain ⟨sc2, hsc2, rfl⟩ := (mem_decoded_commands cfg m image s2).mp hs2
    exact hother sc2 hsc2 hne x hw
  · intro s2 hs2 x hw
    obtain ⟨sc2, hsc2, rfl⟩ := (mem_decoded_commands cfg m image s2).mp hs2
    exact hsrc sc2 hsc2 x hw

/-- Where the loader stores for the segment of `one_segment_image`. -/
theorem one_segment_image_writes (x : Nat)
    (h : segment_writes board (load_mach_o_image board one_segment_image 0 0x1000000).2.base
      (segment_at one_segment_image 0x1000020) x) : 0x80004000 ≤ x ∧ x < 0x80004020 := by
  have hb : (load_mach_o_image board one_segment_image 0 0x1000000).2.base = 0x1000 := by decide
  have hs : segment_at one_segment_image 0x1000020 =
      { dst := 0x1000, dst_len := 0x20, src_offset := 0x40, src_len := 0x10 } := by decide
  rw [hb, hs] at h
  have ht : segment_target board 0x1000
      { dst := 0x1000, dst_len := 0x20, src_offset := 0x40, src_len := 0x10 } = 0x80004000 := by
    decide
  have ha : uptr_add 0x80004000 0x10 = 0x80004010 := by decide
  have hu : uptr_sub 0x20 0x10 = 0x10 := by decide
  unfold segment_writes at h
  simp only [ht, ha, hu] at h
  omega

/-- C3, witness: the segment `{dst = 0x1000, dst_len = 0x20, src_offset = 0x40,
src_len = 0x10}` leaves image bytes `[0x40, 0x50)` in target bytes `[0, 0x10)` and
zeros in target bytes `[0x10, 0x20)`. -/
theorem load_mach_o_image_segment_bytes_witness :
    (List.range 0x20).all (fun k => decide
      ((load_mach_o_image board one_segment_image 0 0x1000000).1 (0x80004000 + k) =
        if k < 0x10 then one_segment_image (0x1000040 + k) else 0)) = true := by
  have hcs : segment_commands board one_segment_image 0x1000000 = [0x1000020] := by decide
  have hic : image_commands board one_segment_image 0x1000000 = [0x1000020] := by decide
  have hex : command_extent board one_segment_image 0x1000020 = 56 := by decide
  have h := load_mach_o_image_segment_bytes board one_segment_image 0 0x1000000 0x1000020
    (by decide) (by decide) (by decide) (by decide) (by decide)
    (by
      intro sc hsc x hw hx
      rw [hcs, List.mem_singleton] at hsc
      subst hsc
      have h1 := one_segment_image_writes x hw
      rcases hx with hx | hx
      · omega
      · rw [hic] at hx
        obtain ⟨lc, hlc, h2, h3⟩ := hx
        rw [List.mem_singleton] at hlc
        subst hlc
        rw [hex] at h3
        omega)
    (by
      intro sc hsc hne
      rw [hcs, List.mem_singleton] at hsc
      subst hsc
      exact absurd rfl hne)
    (by
      intro sc hsc x hw
      rw [hcs, List.mem_singleton] at hsc
      subst hsc
      have h1 := one_segment_image_writes x hw
      have h2 : uptr_add 0x1000000 (sc_src_offset one_segment_image 0x1000020) = 0x1000040 := by
        decide
      have h3 : sc_src_len one_segment_image 0x1000020 = 0x10 := by decide
      rw [h2, h3]
      omega)
  have e1 : uptr_add (uptr_sub (sc_dst one_segment_image 0x1000020)
      (load_mach_o_image board one_segment_image 0 0x1000000).2.base) (XNU_LOAD_ADDR board) =
      0x80004000 := by decide
  have e2 : sc_dst_len one_segment_image 0x1000020 = 0x20 := by decide
  have e3 : sc_src_len one_segment_image 0x1000020 = 0x10 := by decide
  have e4 : uptr_add 0x1000000 (sc_src_offset one_segment_image 0x1000020) = 0x1000040 := by
    decide
  rw [e1, e2, e3, e4] at h
  rw [List.all_eq_true]
  intro k hk
  exact decide_eq_true (h k (List.mem_range.mp hk))

/-! ## `afdt_length` on a serialized tree -/

theorem mem_holds_append (m : Mem) (a : Nat) (l1 l2 : List Nat) :
    mem_holds m a (l1 ++ l2) ↔ mem_holds m a l1 ∧ mem_holds m (a + l1.length) l2 := by
  unfold mem_holds
  constructor
  · intro h
    constructor
    · intro i hi
      rw [h i (by rw [List.length_append]; omega)]
      simp [List.getD_eq_getElem?_getD, List.getElem?_append_left hi]
    · intro i hi
      rw [Nat.add_assoc, h (l1.length + i) (by rw [List.length_append]; omega)]
      simp [List.getD_eq_getElem?_getD, List.getElem?_append_right]
  · rintro ⟨h1, h2⟩ i hi
    rw [List.length_append] at hi
    by_cases hlt : i < l1.length
    · rw [h1 i hlt]
      simp [List.getD_eq_getElem?_getD, List.getElem?_append_left hlt]
    · have := h2 (i - l1.length) (by omega)
      rw [show a + l1.length + (i - l1.length) = a + i by omega] at this
      rw [this]
      simp [List.getD_eq_getElem?_getD, List.getElem?_append_right (Nat.le_of_not_lt hlt)]

theorem rd32_of_bytes (m : Mem) (a v : Nat) (hv : v < 2 ^ 32) (h : mem_holds m a (u32_bytes v)) :
    rd32 m a = v := by
  have h0 := h 0 (by simp [u32_bytes])
  have h1 := h 1 (by simp [u32_bytes])
  have h2 := h 2 (by simp [u32_bytes])
  have h3 := h 3 (by simp [u32_bytes])
  simp only [u32_bytes, List.getD_cons_zero, List.getD_cons_succ] at h0 h1 h2 h3
  simp only [rd32, rdLE, rd8]
  rw [show a + 1 + 1 = a + 2 by omega, show a + 2 + 1 = a + 3 by omega]
  rw [Nat.add_zero] at h0
  rw [h0, h1, h2, h3]
  omega

theorem mem_of_bytes_holds (a : Nat) (l : List Nat) : mem_holds (mem_of_bytes a l) a l := by
  intro i _
  unfold mem_of_bytes
  rw [if_pos (by omega), Nat.add_sub_cancel_left]

theorem u32_bytes_length (v : Nat) : (u32_bytes v).length = 4 := rfl

theorem padded_ge (n : Nat) : n ≤ padded n := by
  unfold padded
  omega

theorem property_serialize_length (p : TreeProperty) :
    p.serialize.length = 36 + padded p.value.length := by
  have h := padded_ge p.value.length
  unfold TreeProperty.serialize
  simp only [List.length_append, List.length_take, List.length_replicate, u32_bytes_length]
  omega

theorem serialize_properties_length (ps : List TreeProperty) :
    (serialize_properties ps).length = properties_length ps := by
  induction ps with
  | nil => rfl
  | cons p ps ih =>
    simp only [serialize_properties, properties_length, List.length_append,
      property_serialize_length, ih]

theorem properties_count_le (ps : List TreeProperty) : ps.length ≤ properties_length ps := by
  induction ps with
  | nil => exact Nat.le_refl _
  | cons p ps ih =>
    simp only [properties_length, List.length_cons]
    omega

theorem node_serialize_length (ps : List TreeProperty) (cs : List TreeNode) :
    (TreeNode.node ps cs).serialize.length =
      8 + properties_length ps + (serialize_children cs).length := by
  rw [TreeNode.serialize]
  simp only [List.length_append, u32_bytes_length, serialize_properties_length]

theorem tree_serialize_length_ge (t : TreeNode) : 8 ≤ t.serialize.length := by
  cases t with
  | node ps cs =>
    rw [node_serialize_length]
    omega

theorem children_count_le (cs : List TreeNode) : cs.length ≤ (serialize_children cs).length := by
  induction cs with
  | nil => exact Nat.le_refl _
  | cons c cs ih =>
    have h := tree_serialize_length_ge c
    rw [serialize_children]
    simp only [List.length_append, List.length_cons]
    omega

/-- The serialized length is the length the formula gives. -/
theorem serialize_length_eq (n : Nat) (t : TreeNode) (hd : t.depth ≤ n) :
    t.serialize.length = t.byte_length := by
  induction n generalizing t with
  | zero =>
    cases t with
    | node ps cs =>
      rw [TreeNode.depth] at hd
      omega
  | succ n ih =>
    cases t with
    | node ps cs =>
      rw [TreeNode.depth] at hd
      have hcs : ∀ l : List TreeNode, children_depth l ≤ n →
          (serialize_children l).length = children_length l := by
        intro l
        induction l with
        | nil =>
          intro _
          rw [serialize_children, children_length]
          rfl
        | cons c l ihl =>
          intro hl
          rw [children_depth] at hl
          rw [serialize_children, children_length, List.length_append,
            ih c (le_trans (Nat.le_max_left _ _) hl),
            ihl (le_trans (Nat.le_max_right _ _) hl)]
      rw [node_serialize_length, TreeNode.byte_length, hcs cs (by omega)]

theorem roundup_four (n : Nat) (h : n + 3 < 2 ^ 32) : roundup 32 n 4 = padded n := by
  unfold roundup padded
  rw [Nat.mod_eq_of_lt h]
  apply Nat.mod_eq_of_lt
  omega

/-- The first loop of `afdt_length` steps over serialized properties. -/
theorem afdt_properties_serialized (m : Mem) (afdt : Nat) (ps : List TreeProperty) (off : Nat)
    (hm : mem_holds m (afdt + off) (serialize_properties ps))
    (h32 : off + (serialize_properties ps).length < 2 ^ 32)
    (h64 : afdt + off + (serialize_properties ps).length ≤ 2 ^ 64) :
    afdt_properties m afdt ps.length off = off + (serialize_properties ps).length := by
  induction ps generalizing off with
  | nil => simp [afdt_properties, serialize_properties]
  | cons p ps ih =>
    rw [serialize_properties] at hm h32 h64
    rw [List.length_append] at h32 h64
    rw [mem_holds_append] at hm
    obtain ⟨hp, hrest⟩ := hm
    have hpl := property_serialize_length p
    have hpad := padded_ge p.value.length
    have hadd : uptr_add afdt off = afdt + off := by
      unfold uptr_add
      apply Nat.mod_eq_of_lt
      omega
    have hlenfield : property_length m (afdt + off) = p.value.length := by
      unfold property_length
      apply rd32_of_bytes _ _ _ (by omega)
      unfold TreeProperty.serialize at hp
      rw [List.append_assoc, List.append_assoc, mem_holds_append] at hp
      have h2 := hp.2
      rw [mem_holds_append] at h2
      have h3 := h2.1
      simp only [List.length_take, List.length_append, List.length_replicate] at h3
      rw [show min 32 (p.name.length + 32) = 32 by omega] at h3
      exact h3
    simp only [List.length_cons, afdt_properties, serialize_properties, List.length_append]
    rw [hadd, hlenfield, roundup_four _ (by omega)]
    unfold sizeof_afdt_property
    rw [Nat.mod_eq_of_lt (by omega)]
    rw [ih (off + (36 + padded p.value.length))]
    · omega
    · rw [show afdt + (off + (36 + padded p.value.length)) = afdt + off + p.serialize.length by
        omega]
      exact hrest
    · omega
    · omega

/-- The second loop of `afdt_length` steps over serialized children, given that
the recursive call returns the serialized length of each of them. -/
theorem afdt_children_serialized (m : Mem) (child : Nat → Option Nat) (afdt : Nat)
    (cs : List TreeNode) (off : Nat)
    (hchild : ∀ c ∈ cs, ∀ a, a + c.serialize.length ≤ 2 ^ 64 → mem_holds m a c.serialize →
      child a = some c.serialize.length)
    (hm : mem_holds m (afdt + off) (serialize_children cs))
    (h32 : off + (serialize_children cs).length < 2 ^ 32)
    (h64 : afdt + off + (serialize_children cs).length ≤ 2 ^ 64) :
    afdt_children child afdt cs.length off = some (off + (serialize_children cs).length) := by
  induction cs generalizing off with
  | nil => simp [afdt_children, serialize_children]
  | cons c cs ih =>
    rw [serialize_children] at hm h32 h64
    rw [List.length_append] at h32 h64
    rw [mem_holds_append] at hm
    obtain ⟨hc, hrest⟩ := hm
    have hge := tree_serialize_length_ge c
    have hadd : uptr_add afdt off = afdt + off := by
      unfold uptr_add
      apply Nat.mod_eq_of_lt
      omega
    simp only [List.length_cons, afdt_children, serialize_children, List.length_append]
    rw [hadd, hchild c (List.mem_cons_self _ _) (afdt + off) (by omega) hc]
    simp only
    rw [Nat.mod_eq_of_lt (by omega)]
    rw [ih (off + c.serialize.length) (fun c2 h2 => hchild c2 (List.mem_cons_of_mem _ h2))]
    · rw [Nat.add_assoc]
    · rw [← Nat.add_assoc]
      exact hrest
    · omega
    · omega

theorem afdt_length_serialized (m : Mem) (fuel : Nat) (t : TreeNode) (afdt : Nat)
    (hd : t.depth ≤ fuel) (h32 : t.serialize.length < 2 ^ 32)
    (h64 : afdt + t.serialize.length ≤ 2 ^ 64) (hm : mem_holds m afdt t.serialize) :
    afdt_length m fuel afdt = some t.serialize.length := by
  induction fuel generalizing t afdt with
  | zero =>
    cases t with
    | node ps cs =>
      rw [TreeNode.depth] at hd
      omega
  | succ fuel ih =>
    cases t with
    | node ps cs =>
      rw [TreeNode.depth] at hd
      have hlen := node_serialize_length ps cs
      rw [TreeNode.serialize, List.append_assoc, List.append_assoc, mem_holds_append] at hm
      obtain ⟨hnp, hm⟩ := hm
      rw [mem_holds_append] at hm
      obtain ⟨hnc, hm⟩ := hm
      rw [mem_holds_append] at hm
      obtain ⟨hps, hcs⟩ := hm
      simp only [u32_bytes_length] at hnc hps hcs
      have hpc := properties_count_le ps
      have hcc := children_count_le cs
      have hpl := serialize_properties_length ps
      have e1 : node_properties_nb m afdt = ps.length :=
        rd32_of_bytes _ _ _ (by omega) hnp
      have e2 : node_children_nb m afdt = cs.length :=
        rd32_of_bytes _ _ _ (by omega) hnc
      have e3 : afdt_properties m afdt ps.length 8 = 8 + (serialize_properties ps).length := by
        apply afdt_properties_serialized
        · rw [show afdt + 8 = afdt + 4 + 4 by omega]
          exact hps
        · omega
        · omega
      have hdepth : ∀ c ∈ cs, c.depth ≤ fuel := by
        have hall : ∀ l : List TreeNode, ∀ c ∈ l, c.depth ≤ children_depth l := by
          intro l
          induction l with
          | nil =>
            intro c hc
            cases hc
          | cons x l ihl =>
            intro c hc
            rw [children_depth]
            rcases List.mem_cons.mp hc with rfl | hc
            · exact Nat.le_max_left _ _
            · exact le_trans (ihl c hc) (Nat.le_max_right _ _)
        intro c hc
        have := hall cs c hc
        omega
      have hcl : ∀ c ∈ cs, c.serialize.length ≤ (serialize_children cs).length := by
        have hall : ∀ l : List TreeNode, ∀ c ∈ l,
            c.serialize.length ≤ (serialize_children l).length := by
          intro l
          induction l with
          | nil =>
            intro c hc
            cases hc
          | cons x l ihl =>
            intro c hc
            rw [serialize_children, List.length_append]
            rcases List.mem_cons.mp hc with rfl | hc
            · omega
            · have := ihl c hc
              omega
        exact hall cs
      rw [afdt_length, e1, e2, show sizeof_afdt_node = 8 from rfl, e3,
        afdt_children_serialized m (afdt_length m fuel) afdt cs]
      · rw [hlen, hpl]
      · intro c hc a ha hma
        have := hcl c hc
        exact ih c a (hdepth c hc) (by omega) ha hma
      · rw [show afdt + (8 + (serialize_properties ps).length) =
          afdt + 4 + 4 + (serialize_properties ps).length by omega]
        exact hcs
      · omega
      · omega

/-- C4: for every finite tree whose serialization is shorter than `2 ^ 32` bytes
and every buffer inside the address space that begins with that serialization,
`afdt_length` returns, as soon as its depth bound is at least the depth of the
tree, exactly the length of the serialization, which is 8 plus 36 and the padded
value length for each property plus the lengths of the children. -/
theorem afdt_length_serialize (t : TreeNode) (m : Mem) (afdt fuel : Nat)
    (hlen : t.serialize.length < 2 ^ 32)
    (hfit : afdt + t.serialize.length ≤ 2 ^ 64)
    (hbuf : mem_holds m afdt t.serialize)
    (hfuel : t.depth ≤ fuel) :
    afdt_length m fuel afdt = some t.serialize.length ∧
      t.serialize.length = t.byte_length :=
  ⟨afdt_length_serialized m fuel t afdt hfuel hlen hfit hbuf,
    serialize_length_eq t.depth t (Nat.le_refl _)⟩

set_option maxRecDepth 8192 in
/-- C4, witness: a node without properties and children gives 8, a node with one
property of value length 5 gives 52, and a three-level tree gives its sum. -/
theorem afdt_length_serialize_witness :
    (afdt_length (mem_of_bytes 0x2000000 empty_tree.serialize) 1 0x2000000 = some 8 ∧
        empty_tree.serialize.length = 8) ∧
      (afdt_length (mem_of_bytes 0x2000000 one_property_tree.serialize) 1 0x2000000 = some 52 ∧
        one_property_tree.byte_length = 52) ∧
      (afdt_length (mem_of_bytes 0x2000000 nested_tree.serialize) 3 0x2000000 = some 152 ∧
        nested_tree.byte_length = 152) := by
  have h1 := afdt_length_serialize empty_tree (mem_of_bytes 0x2000000 empty_tree.serialize)
    0x2000000 1 (by decide) (by decide) (mem_of_bytes_holds _ _) (by decide)
  have h2 := afdt_length_serialize one_property_tree
    (mem_of_bytes 0x2000000 one_property_tree.serialize) 0x2000000 1 (by decide) (by decide)
    (mem_of_bytes_holds _ _) (by decide)
  have h3 := afdt_length_serialize nested_tree
    (mem_of_bytes 0x2000000 nested_tree.serialize) 0x2000000 3 (by decide) (by decide)
    (mem_of_bytes_holds _ _) (by decide)
  have e1 : empty_tree.serialize.length = 8 := by decide
  have e2 : one_property_tree.serialize.length = 52 := by decide
  have e3 : nested_tree.serialize.length = 152 := by decide
  rw [e1] at h1
  rw [e2] at h2
  rw [e3] at h3
  exact ⟨⟨h1.1, rfl⟩, ⟨h2.1, h2.2.symm⟩, ⟨h3.1, h3.2.symm⟩⟩

/-! ## Reading and writing the members of the boot block -/

theorem wrLE_inside (m : Mem) (a n v k : Nat) (h : k < n) :
    wrLE m a n v (a + k) = v / 256 ^ k % 256 := by
  unfold wrLE
  rw [if_pos (by omega), Nat.add_sub_cancel_left]

theorem rd16_wr16_same (m : Mem) (a v : Nat) : rd16 (wr16 m a v) a = v % 2 ^ 16 :=
  rdLE_wrLE_same m a 2 v

theorem rd32_wr32_same (m : Mem) (a v : Nat) : rd32 (wr32 m a v) a = v % 2 ^ 32 :=
  rdLE_wrLE_same m a 4 v

theorem rd64_wr64_same (m : Mem) (a v : Nat) : rd64 (wr64 m a v) a = v % 2 ^ 64 :=
  rdLE_wrLE_same m a 8 v

theorem strlcpy_len_eq (s : List Nat) (size : Nat) :
    strlcpy_len s size = min s.length (size - 1) := by
  unfold strlcpy_len
  split <;> omega

theorem strlcpy_outside (m : Mem) (dest : Nat) (s : List Nat) (size x : Nat)
    (h : x < dest ∨ dest + size ≤ x) : strlcpy m dest s size x = m x := by
  have hl := strlcpy_len_eq s size
  unfold strlcpy
  split
  · rfl
  · dsimp only
    rw [if_neg (by omega), if_neg (by omega)]

theorem strlcpy_copied (m : Mem) (dest : Nat) (s : List Nat) (size k : Nat)
    (hk : k < min s.length (size - 1)) : strlcpy m dest s size (dest + k) = s.getD k 0 := by
  have hl := strlcpy_len_eq s size
  unfold strlcpy
  rw [if_neg (by omega), if_pos (by omega), Nat.add_sub_cancel_left]

theorem strlcpy_terminator (m : Mem) (dest : Nat) (s : List Nat) (size : Nat) (hs : 0 < size) :
    strlcpy m dest s size (dest + min s.length (size - 1)) = 0 := by
  have hl := strlcpy_len_eq s size
  unfold strlcpy
  rw [if_neg (by omega), if_neg (by omega), if_pos (by omega)]

theorem afdt_properties_lt (m : Mem) (afdt n off : Nat) (h : off < 2 ^ 32) :
    afdt_properties m afdt n off < 2 ^ 32 := by
  induction n generalizing off with
  | zero => exact h
  | succ n ih =>
    rw [afdt_properties]
    exact ih _ (Nat.mod_lt _ (by norm_num))

theorem afdt_children_lt (child : Nat → Option Nat) (afdt n off len : Nat) (h : off < 2 ^ 32)
    (hr : afdt_children child afdt n off = some len) : len < 2 ^ 32 := by
  induction n generalizing off with
  | zero =>
    rw [afdt_children] at hr
    cases hr
    exact h
  | succ n ih =>
    rw [afdt_children] at hr
    split at hr
    · cases hr
    · exact ih _ (Nat.mod_lt _ (by norm_num)) hr

/-- Whatever `afdt_length` returns fits its `u32` return type. -/
theorem afdt_length_lt (m : Mem) (fuel afdt len : Nat) (h : afdt_length m fuel afdt = some len) :
    len < 2 ^ 32 := by
  cases fuel with
  | zero =>
    rw [afdt_length] at h
    cases h
  | succ fuel =>
    rw [afdt_length] at h
    exact afdt_children_lt _ _ _ _ _
      (afdt_properties_lt _ _ _ _ (by unfold sizeof_afdt_node; norm_num)) h

/-- The bytes of the block and around it once lines 127-137 have run. -/
theorem boot_args_init_apply (cfg : Config) (m : Mem) (ba base : Nat) (cl : Option (List Nat))
    (x : Nat) :
    boot_args_init cfg m ba base cl x =
      if ba + 108 ≤ x ∧ x < ba + 716 ∧ cl.isSome then
        (match cl with
          | some s => strlcpy (fun _ => 0) (ba + 108) s 608 x
          | none => 0)
      else if ba + 32 ≤ x ∧ x < ba + 40 then uptr_add ba 736 / 256 ^ (x - (ba + 32)) % 256
      else if ba + 24 ≤ x ∧ x < ba + 32 then
        cfg.CONFIG_SYS_SDRAM_SIZE / 256 ^ (x - (ba + 24)) % 256
      else if ba + 16 ≤ x ∧ x < ba + 24 then
        XNU_LOAD_ADDR_alone cfg / 256 ^ (x - (ba + 16)) % 256
      else if ba + 8 ≤ x ∧ x < ba + 16 then base / 256 ^ (x - (ba + 8)) % 256
      else if ba + 2 ≤ x ∧ x < ba + 4 then 2 / 256 ^ (x - (ba + 2)) % 256
      else if ba ≤ x ∧ x < ba + 2 then 2 / 256 ^ (x - ba) % 256
      else if ba ≤ x ∧ x < ba + 736 then 0
      else m x := by
  unfold boot_args_init
  simp only [off_revision, off_version, off_virt_base, off_phys_base, off_mem_size, off_phys_end,
    off_command_line, XNU_CMDLINE_LEN, sizeof_xnu_boot_arguments, wr16, wr64, Nat.add_zero]
  cases cl with
  | none =>
    simp only [Option.isSome_none, Bool.false_eq_true, and_false, if_false, Nat.zero_mod,
      wrLE, memset]
  | some s =>
    simp only [Option.isSome_some, and_true]
    have hl := strlcpy_len_eq s 608
    by_cases hx : ba + 108 ≤ x ∧ x < ba + 716
    · rw [if_pos hx]
      unfold strlcpy
      simp only [show ¬ (608 = 0) by omega, if_false]
      split
      · rfl
      · split
        · rfl
        · simp only [wrLE, memset, Nat.zero_mod]
          repeat rw [if_neg (by omega)]
          rw [if_pos (by omega)]
    · rw [if_neg hx, strlcpy_outside _ _ _ _ _ (by omega)]
      simp only [wrLE, memset, Nat.zero_mod]

theorem rdLE_of_bytes (m : Mem) (a n v : Nat) (h : ∀ k, k < n → m (a + k) = v / 256 ^ k % 256) :
    rdLE m a n = v % 256 ^ n := by
  rw [← rdLE_wrLE_same m a n v]
  apply rdLE_congr
  intro k hk
  rw [h k hk, wrLE_inside _ _ _ _ _ hk]

theorem rdLE_memcpy_disjoint (m : Mem) (dst src n b k : Nat) (h : b + k ≤ dst ∨ dst + n ≤ b) :
    rdLE (memcpy m dst src n) b k = rdLE m b k := by
  apply rdLE_congr
  intro j hj
  apply memcpy_outside
  omega

/-- The memory lines 140-144 leave, when the `phys_end` member of the block holds
the address after the block and `afdt_length` returns. -/
theorem append_afdt_eq (m1 : Mem) (fuel ba fdt len : Nat)
    (hP : rd64 m1 (ba + off_phys_end) = uptr_add ba sizeof_xnu_boot_arguments)
    (hL : afdt_length (set_afdt m1 ba) fuel fdt = some len) :
    append_afdt m1 fuel ba fdt =
      some (wr64 (wr64 (memcpy (wr32 (set_afdt m1 ba) (ba + off_afdt_length) len)
          (uptr_add ba sizeof_xnu_boot_arguments) fdt len) (ba + off_phys_end)
          (uptr_add ba sizeof_xnu_boot_arguments + len)) (ba + off_phys_end)
        (roundup 64 ((uptr_add ba sizeof_xnu_boot_arguments + len) % 2 ^ 64) 0x10000)) := by
  have hlen := afdt_length_lt _ _ _ _ hL
  have hPlt := uptr_add_lt ba sizeof_xnu_boot_arguments
  have hPv : uptr_add ba sizeof_xnu_boot_arguments = (ba + 736) % 2 ^ 64 := rfl
  have r1 : rd64 (wr32 (set_afdt m1 ba) (ba + off_afdt_length) len) (ba + off_afdt) =
      uptr_add ba sizeof_xnu_boot_arguments := by
    unfold rd64 wr32
    rw [rdLE_wrLE_disjoint _ _ _ _ _ _ (by unfold off_afdt_length off_afdt; omega)]
    unfold set_afdt
    rw [hP]
    have := rd64_wr64_same m1 (ba + off_afdt) (uptr_add ba sizeof_xnu_boot_arguments)
    unfold rd64 at this
    rw [this, Nat.mod_eq_of_lt hPlt]
  have r2 : rd32 (wr32 (set_afdt m1 ba) (ba + off_afdt_length) len) (ba + off_afdt_length) =
      len := by
    rw [rd32_wr32_same, Nat.mod_eq_of_lt hlen]
  have r3 : rd64 (memcpy (wr32 (set_afdt m1 ba) (ba + off_afdt_length) len)
      (uptr_add ba sizeof_xnu_boot_arguments) fdt len) (ba + off_phys_end) =
      uptr_add ba sizeof_xnu_boot_arguments := by
    unfold rd64
    rw [rdLE_memcpy_disjoint _ _ _ _ _ _ (by unfold off_phys_end; omega)]
    unfold wr32
    rw [rdLE_wrLE_disjoint _ _ _ _ _ _ (by unfold off_afdt_length off_phys_end; omega)]
    unfold set_afdt wr64
    rw [rdLE_wrLE_disjoint _ _ _ _ _ _ (by unfold off_afdt off_phys_end; omega)]
    exact hP
  have r4 : rd32 (memcpy (wr32 (set_afdt m1 ba) (ba + off_afdt_length) len)
      (uptr_add ba sizeof_xnu_boot_arguments) fdt len) (ba + off_afdt_length) = len := by
    unfold rd32
    rw [rdLE_memcpy_disjoint _ _ _ _ _ _ (by unfold off_afdt_length; omega)]
    exact r2
  unfold append_afdt
  simp only [hL, r1, r2, r3, r4, rd64_wr64_same]

/-- The bytes of memory once lines 140-144 have run. -/
theorem append_afdt_apply (m1 : Mem) (fuel ba fdt len : Nat) (m5 : Mem)
    (hP : rd64 m1 (ba + off_phys_end) = uptr_add ba sizeof_xnu_boot_arguments)
    (hL : afdt_length (set_afdt m1 ba) fuel fdt = some len)
    (h5 : append_afdt m1 fuel ba fdt = some m5) (x : Nat) :
    m5 x =
      if ba + 32 ≤ x ∧ x < ba + 40 then
        roundup 64 ((uptr_add ba 736 + len) % 2 ^ 64) 0x10000 / 256 ^ (x - (ba + 32)) % 256
      else if uptr_add ba 736 ≤ x ∧ x < uptr_add ba 736 + len then
        wr32 (set_afdt m1 ba) (ba + 104) len (fdt + (x - uptr_add ba 736))
      else if ba + 104 ≤ x ∧ x < ba + 108 then len / 256 ^ (x - (ba + 104)) % 256
      else if ba + 96 ≤ x ∧ x < ba + 104 then uptr_add ba 736 / 256 ^ (x - (ba + 96)) % 256
      else m1 x := by
  rw [append_afdt_eq m1 fuel ba fdt len hP hL] at h5
  have h := (Option.some.inj h5).symm
  subst h
  have hlen := afdt_length_lt _ _ _ _ hL
  simp only [off_afdt, off_afdt_length, off_phys_end, sizeof_xnu_boot_arguments]
  by_cases h1 : ba + 32 ≤ x ∧ x < ba + 40
  · rw [if_pos h1]
    unfold wr64 wrLE
    rw [if_pos (by omega)]
  · rw [if_neg h1]
    unfold wr64
    rw [wrLE_outside _ _ _ _ _ (by omega), wrLE_outside _ _ _ _ _ (by omega)]
    by_cases h2 : uptr_add ba 736 ≤ x ∧ x < uptr_add ba 736 + len
    · rw [if_pos h2]
      unfold memcpy
      rw [if_pos h2]
    · rw [if_neg h2, memcpy_outside _ _ _ _ _ (by omega)]
      by_cases h3 : ba + 104 ≤ x ∧ x < ba + 108
      · rw [if_pos h3]
        unfold wr32 wrLE
        rw [if_pos (by omega)]
      · rw [if_neg h3]
        unfold wr32
        rw [wrLE_outside _ _ _ _ _ (by omega)]
        unfold set_afdt wr64 wrLE
        simp only [off_afdt, off_phys_end]
        have hP2 : rd64 m1 (ba + 32) = uptr_add ba 736 := hP
        rw [hP2]

theorem load_mach_o_image_base_lt (cfg : Config) (m : Mem) (e image : Nat) :
    (load_mach_o_image cfg m e image).2.base < 2 ^ 64 := by
  by_cases hm : header_magic m image ≠ MACH_O_MAGIC cfg ∨ header_file_type m image ≠ MACH_O_EXEC
  · simp only [load_mach_o_image, if_pos hm]
    norm_num
  · have h := (find_range_base cfg m (header_commands_nb m image)
      (uptr_add image (sizeof_mach_o_header cfg))
      { base := 2 ^ 64 - 1, entry := e, end_ := 0 }).2.1
    simp only [load_mach_o_image, if_neg hm]
    simp only at h
    omega

/-- What a run that reaches the entry transfer has done. -/
theorem do_bootxnu_handoff (cfg : Config) (pf : Platform) (fuel : Nat) (m : Mem) (e : Nat)
    (argc : Int) (argv : List String) (r : Run) (h : Handoff)
    (hrun : do_bootxnu cfg pf fuel m e argc argv = some r) (hh : r.handoff = some h) :
    ¬ argc < 3 ∧
      (load_mach_o_image cfg m e (kernel_image_addr pf argv)).2.base ≤
        (load_mach_o_image cfg m e (kernel_image_addr pf argv)).2.end_ ∧
      h.boot_args = xnu_end cfg (load_mach_o_image cfg m e (kernel_image_addr pf argv)).2 ∧
      h.xnu_entry = uptr_add (uptr_sub
          (load_mach_o_image cfg m e (kernel_image_addr pf argv)).2.entry
          (load_mach_o_image cfg m e (kernel_image_addr pf argv)).2.base) (XNU_LOAD_ADDR cfg) ∧
      append_afdt (boot_args_init cfg (load_mach_o_image cfg m e (kernel_image_addr pf argv)).1
          h.boot_args (load_mach_o_image cfg m e (kernel_image_addr pf argv)).2.base pf.bootargs)
        fuel h.boot_args (fdt_image_addr pf argv) = some h.mem := by
  unfold do_bootxnu at hrun
  by_cases hc : argc < 3
  · rw [if_pos hc] at hrun
    have := Option.some.inj hrun
    subst this
    cases hh
  · rw [if_neg hc] at hrun
    simp only at hrun
    by_cases hv : (load_mach_o_image cfg m e (kernel_image_addr pf argv)).2.base >
        (load_mach_o_image cfg m e (kernel_image_addr pf argv)).2.end_
    · rw [if_pos hv] at hrun
      have := Option.some.inj hrun
      subst this
      cases hh
    · rw [if_neg hv] at hrun
      refine ⟨hc, Nat.le_of_not_lt hv, ?_⟩
      cases ha : append_afdt (boot_args_init cfg
          (load_mach_o_image cfg m e (kernel_image_addr pf argv)).1
          (xnu_end cfg (load_mach_o_image cfg m e (kernel_image_addr pf argv)).2)
          (load_mach_o_image cfg m e (kernel_image_addr pf argv)).2.base pf.bootargs)
          fuel (xnu_end cfg (load_mach_o_image cfg m e (kernel_image_addr pf argv)).2)
          (fdt_image_addr pf argv) with
      | none =>
        rw [ha] at hrun
        cases hrun
      | some m2 =>
        rw [ha] at hrun
        simp only at hrun
        cases ht : pf.entry_transfer m2
            (xnu_end cfg (load_mach_o_image cfg m e (kernel_image_addr pf argv)).2)
            (uptr_add (uptr_sub (load_mach_o_image cfg m e (kernel_image_addr pf argv)).2.entry
              (load_mach_o_image cfg m e (kernel_image_addr pf argv)).2.base)
              (XNU_LOAD_ADDR cfg)) with
        | none =>
          rw [ht] at hrun
          have := Option.some.inj hrun
          subst this
          have := Option.some.inj hh
          subst this
          exact ⟨rfl, rfl, ha⟩
        | some m3 =>
          rw [ht] at hrun
          have := Option.some.inj hrun
          subst this
          have := Option.some.inj hh
          subst this
          exact ⟨rfl, rfl, ha⟩

theorem xnu_end_lt (cfg : Config) (info : mach_o_load_info) : xnu_end cfg info < 2 ^ 64 :=
  uptr_add_lt _ _

theorem boot_args_init_phys_end (cfg : Config) (m : Mem) (ba base : Nat)
    (cl : Option (List Nat)) :
    rd64 (boot_args_init cfg m ba base cl) (ba + off_phys_end) =
      uptr_add ba sizeof_xnu_boot_arguments := by
  have h := rdLE_of_bytes (boot_args_init cfg m ba base cl) (ba + 32) 8 (uptr_add ba 736)
    (fun k hk => by
      rw [boot_args_init_apply, if_neg (by omega), if_pos (by omega),
        Nat.add_sub_cancel_left])
  have hlt := uptr_add_lt ba 736
  unfold rd64 off_phys_end sizeof_xnu_boot_arguments
  rw [h]
  exact Nat.mod_eq_of_lt hlt

/-- A run that reaches the entry transfer has walked the tree in `memory_at_walk`,
got some length, and left the memory `append_afdt_apply` describes. -/
theorem do_bootxnu_assembled (cfg : Config) (pf : Platform) (fuel : Nat) (m : Mem) (e : Nat)
    (argc : Int) (argv : List String) (r : Run) (h : Handoff)
    (hrun : do_bootxnu cfg pf fuel m e argc argv = some r) (hh : r.handoff = some h) :
    ∃ len, afdt_length (memory_at_walk cfg pf m e argv) fuel (fdt_image_addr pf argv) = some len ∧
      len < 2 ^ 32 ∧ h.boot_args < 2 ^ 64 ∧
      ∀ x, h.mem x =
        if h.boot_args + 32 ≤ x ∧ x < h.boot_args + 40 then
          roundup 64 ((uptr_add h.boot_args 736 + len) % 2 ^ 64) 0x10000 /
            256 ^ (x - (h.boot_args + 32)) % 256
        else if uptr_add h.boot_args 736 ≤ x ∧ x < uptr_add h.boot_args 736 + len then
          wr32 (memory_at_walk cfg pf m e argv) (h.boot_args + 104) len
            (fdt_image_addr pf argv + (x - uptr_add h.boot_args 736))
        else if h.boot_args + 104 ≤ x ∧ x < h.boot_args + 108 then
          len / 256 ^ (x - (h.boot_args + 104)) % 256
        else if h.boot_args + 96 ≤ x ∧ x < h.boot_args + 104 then
          uptr_add h.boot_args 736 / 256 ^ (x - (h.boot_args + 96)) % 256
        else
          boot_args_init cfg (load_mach_o_image cfg m e (kernel_image_addr pf argv)).1
            h.boot_args (load_mach_o_image cfg m e (kernel_image_addr pf argv)).2.base
            pf.bootargs x := by
  obtain ⟨_, _, hba, _, happ⟩ := do_bootxnu_handoff cfg pf fuel m e argc argv r h hrun hh
  have hlt : h.boot_args < 2 ^ 64 := by
    rw [hba]
    exact xnu_end_lt _ _
  have hw : memory_at_walk cfg pf m e argv =
      set_afdt (boot_args_init cfg (load_mach_o_image cfg m e (kernel_image_addr pf argv)).1
        h.boot_args (load_mach_o_image cfg m e (kernel_image_addr pf argv)).2.base pf.bootargs)
        h.boot_args := by
    rw [hba]
    rfl
  cases hL : afdt_length (memory_at_walk cfg pf m e argv) fuel (fdt_image_addr pf argv) with
  | none =>
    rw [hw] at hL
    unfold append_afdt at happ
    simp only [hL] at happ
    cases happ
  | some len =>
    refine ⟨len, rfl, afdt_length_lt _ _ _ _ hL, hlt, ?_⟩
    intro x
    rw [hw] at hL ⊢
    exact append_afdt_apply _ fuel h.boot_args _ len h.mem
      (boot_args_init_phys_end _ _ _ _ _) hL happ x

/-- Inside the block, apart from `phys_end`, `afdt` and `afdt_length`, the memory
handed over is the memory lines 127-137 left. -/
theorem do_bootxnu_block_byte (cfg : Config) (pf : Platform) (fuel : Nat) (m : Mem) (e : Nat)
    (argc : Int) (argv : List String) (r : Run) (h : Handoff)
    (hrun : do_bootxnu cfg pf fuel m e argc argv = some r) (hh : r.handoff = some h)
    (x : Nat) (h1 : h.boot_args ≤ x) (h2 : x < h.boot_args + 736)
    (h3 : x < h.boot_args + 32 ∨ h.boot_args + 40 ≤ x)
    (h4 : x < h.boot_args + 96 ∨ h.boot_args + 108 ≤ x) :
    h.mem x =
      boot_args_init cfg (load_mach_o_image cfg m e (kernel_image_addr pf argv)).1
        h.boot_args (load_mach_o_image cfg m e (kernel_image_addr pf argv)).2.base
        pf.bootargs x := by
  obtain ⟨len, _, hlen, hba, hx⟩ := do_bootxnu_assembled cfg pf fuel m e argc argv r h hrun hh
  rw [hx x, if_neg (by omega), if_neg (by unfold uptr_add; omega), if_neg (by omega),
    if_neg (by omega)]

/-- The three members lines 140-144 set, as handed over. -/
theorem do_bootxnu_appended (cfg : Config) (pf : Platform) (fuel : Nat) (m : Mem) (e : Nat)
    (argc : Int) (argv : List String) (r : Run) (h : Handoff)
    (hrun : do_bootxnu cfg pf fuel m e argc argv = some r) (hh : r.handoff = some h) :
    ∃ len, afdt_length (memory_at_walk cfg pf m e argv) fuel (fdt_image_addr pf argv) = some len ∧
      len < 2 ^ 32 ∧ h.boot_args < 2 ^ 64 ∧
      rd64 h.mem (h.boot_args + off_phys_end) =
        roundup 64 ((uptr_add h.boot_args sizeof_xnu_boot_arguments + len) % 2 ^ 64) 0x10000 ∧
      rd64 h.mem (h.boot_args + off_afdt) = uptr_add h.boot_args sizeof_xnu_boot_arguments ∧
      rd32 h.mem (h.boot_args + off_afdt_length) = len ∧
      ∀ k, k < len →
        h.mem (uptr_add h.boot_args sizeof_xnu_boot_arguments + k) =
          wr32 (memory_at_walk cfg pf m e argv) (h.boot_args + off_afdt_length) len
            (fdt_image_addr pf argv + k) := by
  obtain ⟨len, hL, hlen, hba, hx⟩ := do_bootxnu_assembled cfg pf fuel m e argc argv r h hrun hh
  refine ⟨len, hL, hlen, hba, ?_, ?_, ?_, ?_⟩
  · have hb := rdLE_of_bytes h.mem (h.boot_args + 32) 8
      (roundup 64 ((uptr_add h.boot_args 736 + len) % 2 ^ 64) 0x10000)
      (fun k hk => by rw [hx, if_pos (by omega), Nat.add_sub_cancel_left])
    unfold rd64 off_phys_end sizeof_xnu_boot_arguments
    rw [hb]
    apply Nat.mod_eq_of_lt
    unfold roundup
    exact Nat.mod_lt _ (by norm_num)
  · have hb := rdLE_of_bytes h.mem (h.boot_args + 96) 8 (uptr_add h.boot_args 736)
      (fun k hk => by
        rw [hx, if_neg (by omega), if_neg (by unfold uptr_add; omega), if_neg (by omega),
          if_pos (by omega), Nat.add_sub_cancel_left])
    unfold rd64 off_afdt sizeof_xnu_boot_arguments
    rw [hb]
    exact Nat.mod_eq_of_lt (uptr_add_lt _ _)
  · have hb := rdLE_of_bytes h.mem (h.boot_args + 104) 4 len
      (fun k hk => by
        rw [hx, if_neg (by omega), if_neg (by unfold uptr_add; omega), if_pos (by omega),
          Nat.add_sub_cancel_left])
    unfold rd32 off_afdt_length
    rw [hb]
    exact Nat.mod_eq_of_lt hlen
  · intro k hk
    unfold sizeof_xnu_boot_arguments off_afdt_length
    rw [hx, if_neg (by unfold uptr_add; omega), if_pos (by omega), Nat.add_sub_cancel_left]

/-- C5: in every run of `do_bootxnu` that reaches the entry transfer, with `P` the
address just after the block and `L` the length `afdt_length` returns for the tree
blob at line 141, if `P + L + 0xffff` does not overflow 64 bits then the `phys_end`
member handed over is `roundup(P + L, 0x10000)`: a multiple of `0x10000`, the least
one that is at least `P + L`, so `P + L ≤ phys_end < P + L + 0x10000`. -/
theorem do_bootxnu_phys_end (cfg : Config) (pf : Platform) (fuel : Nat) (m : Mem) (e : Nat)
    (argc : Int) (argv : List String) (r : Run) (h : Handoff)
    (hrun : do_bootxnu cfg pf fuel m e argc argv = some r) (hh : r.handoff = some h) :
    ∃ len, afdt_length (memory_at_walk cfg pf m e argv) fuel (fdt_image_addr pf argv) = some len ∧
      (h.boot_args + sizeof_xnu_boot_arguments + len + 0xffff < 2 ^ 64 →
        rd64 h.mem (h.boot_args + off_phys_end) =
            roundup 64 (h.boot_args + sizeof_xnu_boot_arguments + len) 0x10000 ∧
          rd64 h.mem (h.boot_args + off_phys_end) % 0x10000 = 0 ∧
          h.boot_args + sizeof_xnu_boot_arguments + len ≤
            rd64 h.mem (h.boot_args + off_phys_end) ∧
          rd64 h.mem (h.boot_args + off_phys_end) <
            h.boot_args + sizeof_xnu_boot_arguments + len + 0x10000 ∧
          ∀ q, q % 0x10000 = 0 → h.boot_args + sizeof_xnu_boot_arguments + len ≤ q →
            rd64 h.mem (h.boot_args + off_phys_end) ≤ q) := by
  obtain ⟨len, hL, _, _, hpe, _⟩ := do_bootxnu_appended cfg pf fuel m e argc argv r h hrun hh
  refine ⟨len, hL, ?_⟩
  intro hfit
  unfold sizeof_xnu_boot_arguments at hfit hpe ⊢
  have hP : uptr_add h.boot_args 736 = h.boot_args + 736 := by
    unfold uptr_add
    exact Nat.mod_eq_of_lt (by omega)
  rw [hP, Nat.mod_eq_of_lt (by omega)] at hpe
  have hval : roundup 64 (h.boot_args + 736 + len) 0x10000 =
      (h.boot_args + 736 + len + 0xffff) / 0x10000 * 0x10000 := by
    unfold roundup
    rw [show (0x10000 : Nat) - 1 = 0xffff by norm_num, Nat.mod_eq_of_lt hfit]
    apply Nat.mod_eq_of_lt
    omega
  rw [hpe]
  refine ⟨rfl, ?_, ?_, ?_, ?_⟩
  · rw [hval]
    omega
  · rw [hval]
    omega
  · rw [hval]
    omega
  · intro q hq1 hq2
    rw [hval]
    omega

set_option maxRecDepth 100000 in
/-- C5, witness: the scenario run has `P = 0x80004300` and `L = 52`, and hands
over `phys_end = 0x80010000`. -/
theorem do_bootxnu_phys_end_witness :
    rd64 (scenario_handoff none).mem ((scenario_handoff none).boot_args + off_phys_end) =
        0x80010000 ∧
      (scenario_handoff none).boot_args + sizeof_xnu_boot_arguments = 0x80004300 ∧
      ∃ len, afdt_length (memory_at_walk board (demo_platform none) scenario_memory 0
          scenario_argv) 1 (fdt_image_addr (demo_platform none) scenario_argv) = some len ∧
        ((scenario_handoff none).boot_args + sizeof_xnu_boot_arguments + len + 0xffff < 2 ^ 64 →
          rd64 (scenario_handoff none).mem ((scenario_handoff none).boot_args + off_phys_end) =
              roundup 64 ((scenario_handoff none).boot_args + sizeof_xnu_boot_arguments + len)
                0x10000 ∧
            rd64 (scenario_handoff none).mem ((scenario_handoff none).boot_args + off_phys_end) %
                0x10000 = 0 ∧
            (scenario_handoff none).boot_args + sizeof_xnu_boot_arguments + len ≤
              rd64 (scenario_handoff none).mem ((scenario_handoff none).boot_args + off_phys_end) ∧
            rd64 (scenario_handoff none).mem ((scenario_handoff none).boot_args + off_phys_end) <
              (scenario_handoff none).boot_args + sizeof_xnu_boot_arguments + len + 0x10000 ∧
            ∀ q, q % 0x10000 = 0 →
              (scenario_handoff none).boot_args + sizeof_xnu_boot_arguments + len ≤ q →
              rd64 (scenario_handoff none).mem
                ((scenario_handoff none).boot_args + off_phys_end) ≤ q) :=
  ⟨by decide, by decide,
    do_bootxnu_phys_end board (demo_platform none) 1 scenario_memory 0 3 scenario_argv
      { mem := (scenario_handoff none).mem, handoff := some (scenario_handoff none), ret := none }
      (scenario_handoff none) rfl rfl⟩

/-- C6: in every run of `do_bootxnu` that reaches the entry transfer with a command
line `s` supplied, the `command_line` member handed over holds the first
`min (length s) 607` bytes of `s` followed by a zero byte; the copy stores to no
byte outside the 608-byte member; and a string longer than 607 bytes leaves exactly
its first 607 bytes and a terminator at index 607. -/
theorem do_bootxnu_command_line (cfg : Config) (pf : Platform) (fuel : Nat) (m : Mem) (e : Nat)
    (argc : Int) (argv : List String) (r : Run) (h : Handoff) (s : List Nat)
    (hrun : do_bootxnu cfg pf fuel m e argc argv = some r) (hh : r.handoff = some h)
    (hs : pf.bootargs = some s) :
    (∀ k, k < min s.length 607 → h.mem (h.boot_args + off_command_line + k) = s.getD k 0) ∧
      h.mem (h.boot_args + off_command_line + min s.length 607) = 0 ∧
      (∀ (m0 : Mem) (x : Nat),
        x < h.boot_args + off_command_line ∨
            h.boot_args + off_command_line + XNU_CMDLINE_LEN ≤ x →
          strlcpy m0 (h.boot_args + off_command_line) s XNU_CMDLINE_LEN x = m0 x) ∧
      (607 < s.length →
        (∀ k, k < 607 → h.mem (h.boot_args + off_command_line + k) = s.getD k 0) ∧
          h.mem (h.boot_args + off_command_line + 607) = 0) := by
  have hbyte : ∀ k, k < 608 → h.mem (h.boot_args + off_command_line + k) =
      strlcpy (fun _ => 0) (h.boot_args + off_command_line) s 608
        (h.boot_args + off_command_line + k) := by
    intro k hk
    unfold off_command_line
    rw [do_bootxnu_block_byte cfg pf fuel m e argc argv r h hrun hh _ (by omega) (by omega)
      (by omega) (by omega), boot_args_init_apply, hs]
    rw [if_pos ⟨by omega, by omega, rfl⟩]
  have h1 : ∀ k, k < min s.length 607 →
      h.mem (h.boot_args + off_command_line + k) = s.getD k 0 := by
    intro k hk
    rw [hbyte k (by omega), strlcpy_copied _ _ _ _ _ (by omega)]
  have h2 : h.mem (h.boot_args + off_command_line + min s.length 607) = 0 := by
    rw [hbyte _ (by omega)]
    exact strlcpy_terminator _ _ _ 608 (by omega)
  refine ⟨h1, h2, ?_, ?_⟩
  · intro m0 x hx
    exact strlcpy_outside _ _ _ _ _ hx
  · intro hlong
    have hmin : min s.length 607 = 607 := by omega
    rw [hmin] at h1 h2
    exact ⟨h1, h2⟩

set_option maxRecDepth 100000 in
/-- C6, witness: a command line of 700 bytes leaves its first 607 bytes and a
terminator at index 607, and the two members after the field stay zero. -/
theorem do_bootxnu_command_line_witness :
    (List.range 607).all (fun k => decide
        ((scenario_handoff (some long_command_line)).mem
          ((scenario_handoff (some long_command_line)).boot_args + off_command_line + k) =
            0x61)) = true ∧
      (scenario_handoff (some long_command_line)).mem
        ((scenario_handoff (some long_command_line)).boot_args + off_command_line + 607) = 0 ∧
      rd64 (scenario_handoff (some long_command_line)).mem
        ((scenario_handoff (some long_command_line)).boot_args + off_boot_flags) = 0 := by
  have h := do_bootxnu_command_line board (demo_platform (some long_command_line)) 1
    scenario_memory 0 3 scenario_argv
    { mem := (scenario_handoff (some long_command_line)).mem,
      handoff := some (scenario_handoff (some long_command_line)), ret := none }
    (scenario_handoff (some long_command_line)) long_command_line rfl rfl rfl
  have hlen : long_command_line.length = 700 := List.length_replicate _ _
  obtain ⟨h1, h2⟩ := h.2.2.2 (by rw [hlen]; norm_num)
  refine ⟨?_, h2, by decide⟩
  rw [List.all_eq_true]
  intro k hk
  apply decide_eq_true
  have hk2 := List.mem_range.mp hk
  rw [h1 k hk2]
  unfold long_command_line
  rw [List.getD_eq_getElem?_getD, List.getElem?_replicate]
  rw [if_pos (by omega)]
  rfl

theorem boot_args_init_outside (cfg : Config) (m : Mem) (ba base : Nat) (cl : Option (List Nat))
    (x : Nat) (hx : x < ba ∨ ba + 736 ≤ x) : boot_args_init cfg m ba base cl x = m x := by
  rw [boot_args_init_apply]
  repeat rw [if_neg (by omega)]

/-- Outside the boot block, the memory in which the tree is walked is the memory
the loader left. -/
theorem memory_at_walk_outside (cfg : Config) (pf : Platform) (m : Mem) (e : Nat)
    (argv : List String) (x : Nat)
    (hx : x < xnu_end cfg (load_mach_o_image cfg m e (kernel_image_addr pf argv)).2 ∨
      xnu_end cfg (load_mach_o_image cfg m e (kernel_image_addr pf argv)).2 + 736 ≤ x) :
    memory_at_walk cfg pf m e argv x =
      (load_mach_o_image cfg m e (kernel_image_addr pf argv)).1 x := by
  unfold memory_at_walk set_afdt wr64
  rw [wrLE_outside _ _ _ _ _ (by unfold off_afdt; omega), boot_args_init_outside _ _ _ _ _ _ hx]

/-- C9: in every run of `do_bootxnu` that reaches the entry transfer, with `L` the
length `afdt_length` returns for the tree blob at line 141: the `afdt` member
handed over is the address just after the block, which is the `phys_end` the block
held before the blob was appended; the `afdt_length` member is `L`; and, when the
blob lies neither in the block nor in the destination of the copy, the `L` bytes at
`afdt` are the first `L` bytes of the blob. -/
theorem do_bootxnu_afdt (cfg : Config) (pf : Platform) (fuel : Nat) (m : Mem) (e : Nat)
    (argc : Int) (argv : List String) (r : Run) (h : Handoff)
    (hrun : do_bootxnu cfg pf fuel m e argc argv = some r) (hh : r.handoff = some h) :
    ∃ len, afdt_length (memory_at_walk cfg pf m e argv) fuel (fdt_image_addr pf argv) = some len ∧
      rd64 h.mem (h.boot_args + off_afdt) = uptr_add h.boot_args sizeof_xnu_boot_arguments ∧
      (h.boot_args + sizeof_xnu_boot_arguments < 2 ^ 64 →
        rd64 h.mem (h.boot_args + off_afdt) = h.boot_args + sizeof_xnu_boot_arguments) ∧
      rd64 h.mem (h.boot_args + off_afdt) =
        rd64 (memory_at_walk cfg pf m e argv) (h.boot_args + off_phys_end) ∧
      rd32 h.mem (h.boot_args + off_afdt_length) = len ∧
      ((∀ k, k < len → fdt_image_addr pf argv + k < h.boot_args ∨
          h.boot_args + sizeof_xnu_boot_arguments ≤ fdt_image_addr pf argv + k) →
        (∀ k, k < len →
          fdt_image_addr pf argv + k < rd64 h.mem (h.boot_args + off_afdt) ∨
            rd64 h.mem (h.boot_args + off_afdt) + len ≤ fdt_image_addr pf argv + k) →
        ∀ k, k < len →
          h.mem (rd64 h.mem (h.boot_args + off_afdt) + k) =
              memory_at_walk cfg pf m e argv (fdt_image_addr pf argv + k) ∧
            h.mem (rd64 h.mem (h.boot_args + off_afdt) + k) =
              (load_mach_o_image cfg m e (kernel_image_addr pf argv)).1
                (fdt_image_addr pf argv + k)) := by
  obtain ⟨len, hL, hlen, hba, _, hafdt, hal, hcopy⟩ :=
    do_bootxnu_appended cfg pf fuel m e argc argv r h hrun hh
  obtain ⟨_, _, hbeq, _, _⟩ := do_bootxnu_handoff cfg pf fuel m e argc argv r h hrun hh
  refine ⟨len, hL, hafdt, ?_, ?_, hal, ?_⟩
  · intro hfit
    rw [hafdt]
    exact Nat.mod_eq_of_lt hfit
  · rw [hafdt]
    unfold memory_at_walk set_afdt wr64 rd64
    simp only
    rw [← hbeq, rdLE_wrLE_disjoint _ _ _ _ _ _ (by unfold off_afdt off_phys_end; omega)]
    exact (boot_args_init_phys_end _ _ _ _ _).symm
  · intro hblock _ k hk
    have hb := hblock k hk
    unfold sizeof_xnu_boot_arguments at hb
    have h1 : h.mem (rd64 h.mem (h.boot_args + off_afdt) + k) =
        memory_at_walk cfg pf m e argv (fdt_image_addr pf argv + k) := by
      rw [hafdt, hcopy k hk]
      unfold wr32
      rw [wrLE_outside _ _ _ _ _ (by unfold off_afdt_length; omega)]
    refine ⟨h1, ?_⟩
    rw [h1]
    apply memory_at_walk_outside
    rw [← hbeq]
    exact hb

set_option maxRecDepth 100000 in
/-- C9, witness: in the scenario run the block is at `0x80004020`, `afdt` is
`0x80004300`, `afdt_length` is 52, and the 52 bytes at `afdt` are the blob. -/
theorem do_bootxnu_afdt_witness :
    rd64 (scenario_handoff none).mem ((scenario_handoff none).boot_args + off_afdt) =
        0x80004300 ∧
      rd32 (scenario_handoff none).mem ((scenario_handoff none).boot_args + off_afdt_length) =
        52 ∧
      (List.range 52).all (fun k => decide
        ((scenario_handoff none).mem (0x80004300 + k) = scenario_memory (0x2000000 + k))) =
        true ∧
      ∃ len, afdt_length (memory_at_walk board (demo_platform none) scenario_memory 0
          scenario_argv) 1 (fdt_image_addr (demo_platform none) scenario_argv) = some len ∧
        rd32 (scenario_handoff none).mem
          ((scenario_handoff none).boot_args + off_afdt_length) = len := by
  obtain ⟨len, hL, _, _, _, hal, _⟩ :=
    do_bootxnu_afdt board (demo_platform none) 1 scenario_memory 0 3 scenario_argv
      { mem := (scenario_handoff none).mem, handoff := some (scenario_handoff none), ret := none }
      (scenario_handoff none) rfl rfl
  exact ⟨by decide, by decide, by decide, len, hL, hal⟩

/-- C10: in every run of `do_bootxnu` that reaches the entry transfer, for a load
address constant of a C type of at most 64 bits and a memory size that fits 64 bits,
the block handed over has `revision = 2`, `version = 2`, `virt_base` the `base` the
loader returned, `phys_base` the value of `XNU_LOAD_ADDR` as line 132 evaluates it, in
the type of the board constant, which is `CONFIG_SYS_LOAD_ADDR + 0x4000` whenever that
sum fits the type, and `mem_size = CONFIG_SYS_SDRAM_SIZE`; and every byte of
`video_information`, `machine_type`, `boot_flags` and `mem_size_actual` is zero, as is
every byte of `command_line` when no command line is supplied. -/
theorem do_bootxnu_boot_args (cfg : Config) (pf : Platform) (fuel : Nat) (m : Mem) (e : Nat)
    (argc : Int) (argv : List String) (r : Run) (h : Handoff)
    (hrun : do_bootxnu cfg pf fuel m e argc argv = some r) (hh : r.handoff = some h)
    (hwidth : cfg.CONFIG_SYS_LOAD_ADDR_width ≤ 64) (hsize : cfg.CONFIG_SYS_SDRAM_SIZE < 2 ^ 64) :
    rd16 h.mem (h.boot_args + off_revision) = 2 ∧
      rd16 h.mem (h.boot_args + off_version) = 2 ∧
      rd64 h.mem (h.boot_args + off_virt_base) =
        (load_mach_o_image cfg m e (kernel_image_addr pf argv)).2.base ∧
      (rd64 h.mem (h.boot_args + off_phys_base) = XNU_LOAD_ADDR_alone cfg ∧
        (cfg.CONFIG_SYS_LOAD_ADDR + 0x4000 < 2 ^ cfg.CONFIG_SYS_LOAD_ADDR_width →
          rd64 h.mem (h.boot_args + off_phys_base) = cfg.CONFIG_SYS_LOAD_ADDR + 0x4000)) ∧
      rd64 h.mem (h.boot_args + off_mem_size) = cfg.CONFIG_SYS_SDRAM_SIZE ∧
      (∀ k, k < 48 → h.mem (h.boot_args + off_video_information + k) = 0) ∧
      (∀ k, k < 4 → h.mem (h.boot_args + off_machine_type + k) = 0) ∧
      (∀ k, k < 8 → h.mem (h.boot_args + off_boot_flags + k) = 0) ∧
      (∀ k, k < 8 → h.mem (h.boot_args + off_mem_size_actual + k) = 0) ∧
      (pf.bootargs = none →
        ∀ k, k < XNU_CMDLINE_LEN → h.mem (h.boot_args + off_command_line + k) = 0) := by
  have hblk := do_bootxnu_block_byte cfg pf fuel m e argc argv r h hrun hh
  have hbase := load_mach_o_image_base_lt cfg m e (kernel_image_addr pf argv)
  have hcl : ∀ x, x < h.boot_args + 108 ∨ h.boot_args + 716 ≤ x →
      ¬ (h.boot_args + 108 ≤ x ∧ x < h.boot_args + 716 ∧ pf.bootargs.isSome = true) := by
    intro x hx hc
    omega
  unfold off_revision off_version off_virt_base off_phys_base off_mem_size
    off_video_information off_machine_type off_boot_flags off_mem_size_actual off_command_line
    XNU_CMDLINE_LEN
  refine ⟨?_, ?_, ?_, ?_, ?_, ?_, ?_, ?_, ?_, ?_⟩
  · have hb := rdLE_of_bytes h.mem (h.boot_args + 0) 2 2 (fun k hk => by
      rw [hblk _ (by omega) (by omega) (by omega) (by omega), boot_args_init_apply,
        if_neg (hcl _ (by omega))]
      repeat rw [if_neg (by omega)]
      rw [if_pos (by omega), Nat.add_zero, Nat.add_sub_cancel_left])
    exact hb
  · have hb := rdLE_of_bytes h.mem (h.boot_args + 2) 2 2 (fun k hk => by
      rw [hblk _ (by omega) (by omega) (by omega) (by omega), boot_args_init_apply,
        if_neg (hcl _ (by omega))]
      repeat rw [if_neg (by omega)]
      rw [if_pos (by omega), Nat.add_sub_cancel_left])
    exact hb
  · have hb := rdLE_of_bytes h.mem (h.boot_args + 8) 8
      (load_mach_o_image cfg m e (kernel_image_addr pf argv)).2.base (fun k hk => by
      rw [hblk _ (by omega) (by omega) (by omega) (by omega), boot_args_init_apply,
        if_neg (hcl _ (by omega))]
      repeat rw [if_neg (by omega)]
      rw [if_pos (by omega), Nat.add_sub_cancel_left])
    unfold rd64
    rw [hb]
    exact Nat.mod_eq_of_lt hbase
  · have hb := rdLE_of_bytes h.mem (h.boot_args + 16) 8 (XNU_LOAD_ADDR_alone cfg) (fun k hk => by
      rw [hblk _ (by omega) (by omega) (by omega) (by omega), boot_args_init_apply,
        if_neg (hcl _ (by omega))]
      repeat rw [if_neg (by omega)]
      rw [if_pos (by omega), Nat.add_sub_cancel_left])
    have hlt : XNU_LOAD_ADDR_alone cfg < 2 ^ 64 :=
      Nat.lt_of_lt_of_le (Nat.mod_lt _ (Nat.two_pow_pos _))
        (Nat.pow_le_pow_right (by decide) hwidth)
    have hpb : rd64 h.mem (h.boot_args + 16) = XNU_LOAD_ADDR_alone cfg := by
      unfold rd64
      rw [hb]
      exact Nat.mod_eq_of_lt hlt
    refine ⟨hpb, fun hfits => ?_⟩
    rw [hpb]
    unfold XNU_LOAD_ADDR_alone XNU_LOAD_OFFSET
    exact Nat.mod_eq_of_lt hfits
  · have hb := rdLE_of_bytes h.mem (h.boot_args + 24) 8 cfg.CONFIG_SYS_SDRAM_SIZE
      (fun k hk => by
      rw [hblk _ (by omega) (by omega) (by omega) (by omega), boot_args_init_apply,
        if_neg (hcl _ (by omega))]
      repeat rw [if_neg (by omega)]
      rw [if_pos (by omega), Nat.add_sub_cancel_left])
    unfold rd64
    rw [hb]
    exact Nat.mod_eq_of_lt hsize
  · intro k hk
    rw [hblk _ (by omega) (by omega) (by omega) (by omega), boot_args_init_apply,
      if_neg (hcl _ (by omega))]
    repeat rw [if_neg (by omega)]
    rw [if_pos (by omega)]
  · intro k hk
    rw [hblk _ (by omega) (by omega) (by omega) (by omega), boot_args_init_apply,
      if_neg (hcl _ (by omega))]
    repeat rw [if_neg (by omega)]
    rw [if_pos (by omega)]
  · intro k hk
    rw [hblk _ (by omega) (by omega) (by omega) (by omega), boot_args_init_apply,
      if_neg (hcl _ (by omega))]
    repeat rw [if_neg (by omega)]
    rw [if_pos (by omega)]
  · intro k hk
    rw [hblk _ (by omega) (by omega) (by omega) (by omega), boot_args_init_apply,
      if_neg (hcl _ (by omega))]
    repeat rw [if_neg (by omega)]
    rw [if_pos (by omega)]
  · intro hnone k hk
    rw [hblk _ (by omega) (by omega) (by omega) (by omega), boot_args_init_apply, hnone]
    rw [if_neg (by simp)]
    repeat rw [if_neg (by omega)]
    rw [if_pos (by omega)]

set_option maxRecDepth 100000 in
/-- C10, witness: the block of the scenario run, without a command line. -/
theorem do_bootxnu_boot_args_witness :
    rd16 (scenario_handoff none).mem ((scenario_handoff none).boot_args + off_revision) = 2 ∧
      rd16 (scenario_handoff none).mem ((scenario_handoff none).boot_args + off_version) = 2 ∧
      rd64 (scenario_handoff none).mem ((scenario_handoff none).boot_args + off_virt_base) =
        0x1000 ∧
      rd64 (scenario_handoff none).mem ((scenario_handoff none).boot_args + off_phys_base) =
        0x80004000 ∧
      rd64 (scenario_handoff none).mem ((scenario_handoff none).boot_args + off_mem_size) =
        0x40000000 ∧
      (List.range 608).all (fun k => decide
        ((scenario_handoff none).mem
          ((scenario_handoff none).boot_args + off_command_line + k) = 0)) = true := by
  have h := do_bootxnu_boot_args board (demo_platform none) 1 scenario_memory 0 3 scenario_argv
    { mem := (scenario_handoff none).mem, handoff := some (scenario_handoff none), ret := none }
    (scenario_handoff none) rfl rfl (by decide) (by decide)
  obtain ⟨h1, h2, h3, h4, h5, _, _, _, _, h10⟩ := h
  refine ⟨h1, h2, ?_, ?_, h5, ?_⟩
  · rw [h3]
    decide
  · rw [h4.2 (by decide)]
    decide
  · rw [List.all_eq_true]
    intro k hk
    exact decide_eq_true (h10 rfl k (List.mem_range.mp hk))

/-! ## Validity of the result -/

/-- C7, counterexample: an image whose header matches and whose command list is
empty gets `base = 2 ^ 64 - 1` and `end = 0`, an invalid result; so does an image
whose header matches and whose only segment has `dst + dst_len` wrapping to zero. -/
theorem load_mach_o_image_no_segment_invalid :
    (header_magic no_segment_image 0x1000000 = MACH_O_MAGIC board ∧
        header_file_type no_segment_image 0x1000000 = MACH_O_EXEC ∧
        (load_mach_o_image board no_segment_image 0 0x1000000).2.base = 2 ^ 64 - 1 ∧
        (load_mach_o_image board no_segment_image 0 0x1000000).2.end_ = 0 ∧
        ¬ ((load_mach_o_image board no_segment_image 0 0x1000000).2.base >
              (load_mach_o_image board no_segment_image 0 0x1000000).2.end_ ↔
            (header_magic no_segment_image 0x1000000 ≠ MACH_O_MAGIC board ∨
              header_file_type no_segment_image 0x1000000 ≠ MACH_O_EXEC))) ∧
      (header_magic wrapping_segment_image 0x1000000 = MACH_O_MAGIC board ∧
        header_file_type wrapping_segment_image 0x1000000 = MACH_O_EXEC ∧
        segment_commands board wrapping_segment_image 0x1000000 = [0x1000020] ∧
        (load_mach_o_image board wrapping_segment_image 0 0x1000000).2.base =
          0xfffffffffffff000 ∧
        (load_mach_o_image board wrapping_segment_image 0 0x1000000).2.end_ = 0) := by
  decide

/-- C7, amended: when no segment command has `dst + dst_len` overflowing the
pointer width, `load_mach_o_image` returns an invalid result (`base > end`) exactly
when the header's magic or file type does not match or the command list holds no
segment command. -/
theorem load_mach_o_image_invalid_iff (cfg : Config) (m : Mem) (e image : Nat)
    (hov : ∀ sc ∈ segment_commands cfg m image, sc_dst m sc + sc_dst_len m sc < 2 ^ 64) :
    (load_mach_o_image cfg m e image).2.base > (load_mach_o_image cfg m e image).2.end_ ↔
      (header_magic m image ≠ MACH_O_MAGIC cfg ∨ header_file_type m image ≠ MACH_O_EXEC) ∨
        segment_commands cfg m image = [] := by
  by_cases hm : header_magic m image ≠ MACH_O_MAGIC cfg ∨ header_file_type m image ≠ MACH_O_EXEC
  · constructor
    · intro _
      exact Or.inl hm
    · intro _
      simp only [load_mach_o_image, if_pos hm]
      norm_num
  · have hmagic : header_magic m image = MACH_O_MAGIC cfg := by
      by_contra hc
      exact hm (Or.inl hc)
    have htype : header_file_type m image = MACH_O_EXEC := by
      by_contra hc
      exact hm (Or.inr hc)
    obtain ⟨hb, he⟩ := load_mach_o_image_info cfg m e image hmagic htype
    obtain ⟨b1, _, b3⟩ := find_range_base cfg m (header_commands_nb m image)
      (uptr_add image (sizeof_mach_o_header cfg)) { base := 2 ^ 64 - 1, entry := e, end_ := 0 }
    obtain ⟨e1, _, e3⟩ := find_range_end cfg m (header_commands_nb m image)
      (uptr_add image (sizeof_mach_o_header cfg)) { base := 2 ^ 64 - 1, entry := e, end_ := 0 }
    rw [← hb] at b1 b3
    rw [← he] at e1 e3
    constructor
    · intro hinv
      right
      by_contra hne
      obtain ⟨s0, hs0⟩ := List.exists_mem_of_ne_nil _ hne
      have h1 : (load_mach_o_image cfg m e image).2.base ≤ sc_dst m s0 := b3 s0 hs0
      have h2 : uptr_add (sc_dst m s0) (sc_dst_len m s0) ≤
          (load_mach_o_image cfg m e image).2.end_ := e3 s0 hs0
      have h3 : uptr_add (sc_dst m s0) (sc_dst_len m s0) = sc_dst m s0 + sc_dst_len m s0 :=
        Nat.mod_eq_of_lt (hov s0 hs0)
      omega
    · intro hnil
      rcases hnil with hnil | hnil
      · exact absurd hnil hm
      · have hnil2 : (command_addrs m (header_commands_nb m image)
            (uptr_add image (sizeof_mach_o_header cfg))).filter
            (fun lc => decide (lc_command m lc = LOAD_COMMAND_SEGMENT cfg)) = [] := hnil
        rw [hnil2] at b1 e1
        have hb1 : (load_mach_o_image cfg m e image).2.base = 2 ^ 64 - 1 := by
          rcases b1 with b1 | ⟨sc, hsc, _⟩
          · exact b1
          · cases hsc
        have he1 : (load_mach_o_image cfg m e image).2.end_ = 0 := by
          rcases e1 with e1 | ⟨sc, hsc, _⟩
          · exact e1
          · cases hsc
        rw [hb1, he1]
        norm_num

/-- C7, amended, witness: the one-segment image is valid, the image without a
command is not. -/
theorem load_mach_o_image_invalid_iff_witness :
    ((load_mach_o_image board one_segment_image 0 0x1000000).2.base >
          (load_mach_o_image board one_segment_image 0 0x1000000).2.end_ ↔
        (header_magic one_segment_image 0x1000000 ≠ MACH_O_MAGIC board ∨
            header_file_type one_segment_image 0x1000000 ≠ MACH_O_EXEC) ∨
          segment_commands board one_segment_image 0x1000000 = []) ∧
      (load_mach_o_image board one_segment_image 0 0x1000000).2.base ≤
        (load_mach_o_image board one_segment_image 0 0x1000000).2.end_ ∧
      segment_commands board no_segment_image 0x1000000 = [] ∧
      (load_mach_o_image board no_segment_image 0 0x1000000).2.base >
        (load_mach_o_image board no_segment_image 0 0x1000000).2.end_ :=
  ⟨load_mach_o_image_invalid_iff board one_segment_image 0 0x1000000 (by decide),
    by decide, by decide,
    (load_mach_o_image_invalid_iff board no_segment_image 0 0x1000000 (by decide)).mpr
      (Or.inr (by decide))⟩

/-! ## The entry point -/

theorem run_commands_append (cfg : Config) (image base : Nat) (l1 l2 : List Command)
    (st : Mem × Nat) :
    run_commands cfg image base (l1 ++ l2) st =
      run_commands cfg image base l2 (run_commands cfg image base l1 st) := by
  unfold run_commands
  rw [List.foldl_append]

theorem run_commands_entry_kept (cfg : Config) (image base : Nat) (l : List Command)
    (st : Mem × Nat) (h : ∀ c ∈ l, ∀ pc, c ≠ Command.unixthread pc) :
    (run_commands cfg image base l st).2 = st.2 := by
  induction l generalizing st with
  | nil => rfl
  | cons c l ih =>
    have hrest := ih (run_command cfg image base st c)
      (fun c2 h2 => h c2 (List.mem_cons_of_mem _ h2))
    simp only [run_commands, List.foldl_cons] at hrest ⊢
    rw [hrest]
    cases c with
    | segment s => rfl
    | unixthread pc => exact absurd rfl (h _ (List.mem_cons_self _ _) pc)
    | other => rfl

theorem LOAD_COMMAND_SEGMENT_ne (cfg : Config) :
    LOAD_COMMAND_UNIXTHREAD ≠ LOAD_COMMAND_SEGMENT cfg := by
  unfold LOAD_COMMAND_UNIXTHREAD LOAD_COMMAND_SEGMENT
  split <;> decide

/-- C8, counterexample: for the scenario image, whose segment has `dst = 0x1000`
and whose unix-thread command has `pc = 0x1008`, the `entry` member returned by
`load_mach_o_image` is `0x1008`, not `pc - base + XNU_LOAD_ADDR = 0x80004008`. -/
theorem load_mach_o_image_entry_untranslated :
    thread_pc board scenario_memory 0x1000068 = 0x1008 ∧
      (load_mach_o_image board scenario_memory 0 0x1000000).2.base = 0x1000 ∧
      uptr_add (uptr_sub 0x1008 0x1000) (XNU_LOAD_ADDR board) = 0x80004008 ∧
      (load_mach_o_image board scenario_memory 0 0x1000000).2.entry = 0x1008 ∧
      (load_mach_o_image board scenario_memory 0 0x1000000).2.entry ≠
        uptr_add (uptr_sub (thread_pc board scenario_memory 0x1000068)
          (load_mach_o_image board scenario_memory 0 0x1000000).2.base) (XNU_LOAD_ADDR board) := by
  decide

/-- C8, amended: for an image with a matching header whose command list, not
stored over by the load (nor its command count), has the unix-thread command `lc`
as its last one, the
`entry` member returned by `load_mach_o_image` is the saved program counter `pc`
of `lc`, untranslated; `do_bootxnu` translates it, and the entry address it hands
to the entry transfer is `pc - base + XNU_LOAD_ADDR`. -/
theorem load_mach_o_image_entry (cfg : Config) (m : Mem) (e image lc : Nat)
    (pre post : List Nat)
    (hmagic : header_magic m image = MACH_O_MAGIC cfg)
    (htype : header_file_type m image = MACH_O_EXEC)
    (hpres : commands_preserved cfg m image (load_mach_o_image cfg m e image).2.base)
    (hlist : image_commands cfg m image = pre ++ lc :: post)
    (hlc : lc_command m lc = LOAD_COMMAND_UNIXTHREAD)
    (hpost : ∀ c ∈ post, lc_command m c ≠ LOAD_COMMAND_UNIXTHREAD) :
    (load_mach_o_image cfg m e image).2.entry = thread_pc cfg m lc ∧
      ∀ (pf : Platform) (fuel : Nat) (argc : Int) (argv : List String) (r : Run) (h : Handoff),
        kernel_image_addr pf argv = image →
        do_bootxnu cfg pf fuel m e argc argv = some r → r.handoff = some h →
        h.xnu_entry =
          uptr_add (uptr_sub (thread_pc cfg m lc) (load_mach_o_image cfg m e image).2.base)
            (XNU_LOAD_ADDR cfg) := by
  have hentry : (load_mach_o_image cfg m e image).2.entry = thread_pc cfg m lc := by
    rw [(load_mach_o_image_eq cfg m e image hmagic htype hpres).2]
    unfold decoded_commands
    rw [hlist, List.map_append, List.map_cons, run_commands_append]
    have hcmd : command_at cfg m lc = Command.unixthread (thread_pc cfg m lc) := by
      unfold command_at
      rw [if_neg (by rw [hlc]; exact LOAD_COMMAND_SEGMENT_ne cfg), if_pos hlc]
    rw [hcmd]
    simp only [run_commands, List.foldl_cons]
    have hk := run_commands_entry_kept cfg image (load_mach_o_image cfg m e image).2.base
      (post.map (command_at cfg m))
      (run_command cfg image (load_mach_o_image cfg m e image).2.base
        (List.foldl (run_command cfg image (load_mach_o_image cfg m e image).2.base) (m, e)
          (pre.map (command_at cfg m)))
        (Command.unixthread (thread_pc cfg m lc)))
      (by
        intro c hc pc heq
        obtain ⟨a, ha, rfl⟩ := List.mem_map.mp hc
        unfold command_at at heq
        split at heq
        · cases heq
        · rw [if_neg (hpost a ha)] at heq
          cases heq)
    simp only [run_commands] at hk
    rw [hk]
    rfl
  refine ⟨hentry, ?_⟩
  intro pf fuel argc argv r h hk hrun hh
  obtain ⟨_, _, _, hx, _⟩ := do_bootxnu_handoff cfg pf fuel m e argc argv r h hrun hh
  rw [hx, hk, hentry]

/-- Where the loader stores for the segment of `scenario_memory`. -/
theorem scenario_memory_writes (x : Nat)
    (h : segment_writes board (load_mach_o_image board scenario_memory 0 0x1000000).2.base
      (segment_at scenario_memory 0x1000020) x) : 0x80004000 ≤ x ∧ x < 0x80004020 := by
  have hb : (load_mach_o_image board scenario_memory 0 0x1000000).2.base = 0x1000 := by decide
  have hs : segment_at scenario_memory 0x1000020 =
      { dst := 0x1000, dst_len := 0x20, src_offset := 0x40, src_len := 0x10 } := by decide
  rw [hb, hs] at h
  have ht : segment_target board 0x1000
      { dst := 0x1000, dst_len := 0x20, src_offset := 0x40, src_len := 0x10 } = 0x80004000 := by
    decide
  have ha : uptr_add 0x80004000 0x10 = 0x80004010 := by decide
  have hu : uptr_sub 0x20 0x10 = 0x10 := by decide
  unfold segment_writes at h
  simp only [ht, ha, hu] at h
  omega

/-- The load of `scenario_memory` stores nothing over its command count and list. -/
theorem scenario_memory_preserved :
    commands_preserved board scenario_memory 0x1000000
      (load_mach_o_image board scenario_memory 0 0x1000000).2.base := by
  have hcs : segment_commands board scenario_memory 0x1000000 = [0x1000020] := by decide
  have hic : image_commands board scenario_memory 0x1000000 = [0x1000020, 0x1000068] := by
    decide
  have hex1 : command_extent board scenario_memory 0x1000020 = 56 := by decide
  have hex2 : command_extent board scenario_memory 0x1000068 = 280 := by decide
  intro sc hsc x hw hx
  rw [hcs, List.mem_singleton] at hsc
  subst hsc
  have h1 := scenario_memory_writes x hw
  rcases hx with hx | hx
  · omega
  · rw [hic] at hx
    obtain ⟨lc, hlc, h2, h3⟩ := hx
    rcases List.mem_cons.mp hlc with rfl | hlc
    · rw [hex1] at h3
      omega
    · rw [List.mem_singleton] at hlc
      subst hlc
      rw [hex2] at h3
      omega

set_option maxRecDepth 100000 in
/-- C8, amended, witness: the scenario image gives `entry = 0x1008`, and the run
hands `0x80004008` to the entry transfer. -/
theorem load_mach_o_image_entry_witness :
    (load_mach_o_image board scenario_memory 0 0x1000000).2.entry = 0x1008 ∧
      (scenario_handoff none).xnu_entry = 0x80004008 ∧
      (scenario_handoff none).xnu_entry =
        uptr_add (uptr_sub (thread_pc board scenario_memory 0x1000068)
          (load_mach_o_image board scenario_memory 0 0x1000000).2.base) (XNU_LOAD_ADDR board) := by
  have h := load_mach_o_image_entry board scenario_memory 0 0x1000000 0x1000068 [0x1000020] []
    (by decide) (by decide) scenario_memory_preserved (by decide) (by decide)
    (by
      intro c hc
      cases hc)
  have hpc : thread_pc board scenario_memory 0x1000068 = 0x1008 := by decide
  refine ⟨?_, by decide, ?_⟩
  · rw [h.1, hpc]
  · exact h.2 (demo_platform none) 1 3 scenario_argv
      { mem := (scenario_handoff none).mem, handoff := some (scenario_handoff none), ret := none }
      (scenario_handoff none) (by decide) rfl rfl

/-! ## Unbounded recursion of the tree walker -/

/-- C17: there is a finite blob on which `afdt_length` never returns: in
`cyclic_blob` the declared property length makes the 32-bit offset wrap to zero, the
child is the node itself, and the walker exhausts every fuel. -/
theorem afdt_length_cyclic_blob :
    node_properties_nb cyclic_blob 0x2000000 = 1 ∧
      node_children_nb cyclic_blob 0x2000000 = 1 ∧
      afdt_properties cyclic_blob 0x2000000 1 sizeof_afdt_node = 0 ∧
      uptr_add 0x2000000 0 = 0x2000000 ∧
      ∀ fuel, afdt_length cyclic_blob fuel 0x2000000 = none := by
  refine ⟨by decide, by decide, by decide, by decide, ?_⟩
  intro fuel
  induction fuel with
  | zero => rfl
  | succ fuel ih =>
    have h1 : node_properties_nb cyclic_blob 0x2000000 = 1 := by decide
    have h2 : node_children_nb cyclic_blob 0x2000000 = 1 := by decide
    have h3 : afdt_properties cyclic_blob 0x2000000 1 sizeof_afdt_node = 0 := by decide
    have h4 : uptr_add 0x2000000 0 = 0x2000000 := by decide
    rw [afdt_length, h1, h2, h3, afdt_children, h4, ih]

/-! ## Exit codes of the command -/

/-- C12: `do_bootxnu` returns 1 exactly when `argc < 3`, and then leaves memory as
it was whatever the memory holds; with `argc ≥ 3` and an invalid load result it
returns 2 and leaves the memory the loader left, no byte of a boot block written;
and it returns 3 only when the entry transfer was invoked and came back. -/
theorem do_bootxnu_exit_codes (cfg : Config) (pf : Platform) (fuel : Nat) (m : Mem) (e : Nat)
    (argc : Int) (argv : List String) :
    (argc < 3 → ∀ m2 : Mem, do_bootxnu cfg pf fuel m2 e argc argv =
        some { mem := m2, handoff := none, ret := some 1 }) ∧
      (∀ r, do_bootxnu cfg pf fuel m e argc argv = some r → (r.ret = some 1 ↔ argc < 3)) ∧
      (¬ argc < 3 →
        (load_mach_o_image cfg m e (kernel_image_addr pf argv)).2.base >
          (load_mach_o_image cfg m e (kernel_image_addr pf argv)).2.end_ →
        do_bootxnu cfg pf fuel m e argc argv =
          some { mem := (load_mach_o_image cfg m e (kernel_image_addr pf argv)).1,
                 handoff := none, ret := some 2 }) ∧
      (∀ r, do_bootxnu cfg pf fuel m e argc argv = some r → r.ret = some 2 →
        ¬ argc < 3 ∧
          (load_mach_o_image cfg m e (kernel_image_addr pf argv)).2.base >
            (load_mach_o_image cfg m e (kernel_image_addr pf argv)).2.end_ ∧
          r.handoff = none ∧
          r.mem = (load_mach_o_image cfg m e (kernel_image_addr pf argv)).1) ∧
      (∀ r, do_bootxnu cfg pf fuel m e argc argv = some r → r.ret = some 3 →
        ∃ h, r.handoff = some h ∧
          pf.entry_transfer h.mem h.boot_args h.xnu_entry = some r.mem) := by
  have hcases : ∀ r, do_bootxnu cfg pf fuel m e argc argv = some r →
      (argc < 3 ∧ r = { mem := m, handoff := none, ret := some 1 }) ∨
      (¬ argc < 3 ∧
        (load_mach_o_image cfg m e (kernel_image_addr pf argv)).2.base >
          (load_mach_o_image cfg m e (kernel_image_addr pf argv)).2.end_ ∧
        r = { mem := (load_mach_o_image cfg m e (kernel_image_addr pf argv)).1,
              handoff := none, ret := some 2 }) ∨
      (¬ argc < 3 ∧ ∃ h, r.handoff = some h ∧
        ((r.ret = none ∧ pf.entry_transfer h.mem h.boot_args h.xnu_entry = none) ∨
          (r.ret = some 3 ∧ pf.entry_transfer h.mem h.boot_args h.xnu_entry = some r.mem))) := by
    intro r hrun
    unfold do_bootxnu at hrun
    by_cases hc : argc < 3
    · rw [if_pos hc] at hrun
      exact Or.inl ⟨hc, (Option.some.inj hrun).symm⟩
    · rw [if_neg hc] at hrun
      simp only at hrun
      by_cases hv : (load_mach_o_image cfg m e (kernel_image_addr pf argv)).2.base >
          (load_mach_o_image cfg m e (kernel_image_addr pf argv)).2.end_
      · rw [if_pos hv] at hrun
        exact Or.inr (Or.inl ⟨hc, hv, (Option.some.inj hrun).symm⟩)
      · rw [if_neg hv] at hrun
        right
        right
        refine ⟨hc, ?_⟩
        cases ha : append_afdt (boot_args_init cfg
            (load_mach_o_image cfg m e (kernel_image_addr pf argv)).1
            (xnu_end cfg (load_mach_o_image cfg m e (kernel_image_addr pf argv)).2)
            (load_mach_o_image cfg m e (kernel_image_addr pf argv)).2.base pf.bootargs)
            fuel (xnu_end cfg (load_mach_o_image cfg m e (kernel_image_addr pf argv)).2)
            (fdt_image_addr pf argv) with
        | none =>
          rw [ha] at hrun
          cases hrun
        | some m2 =>
          rw [ha] at hrun
          simp only at hrun
          cases ht : pf.entry_transfer m2
              (xnu_end cfg (load_mach_o_image cfg m e (kernel_image_addr pf argv)).2)
              (uptr_add (uptr_sub (load_mach_o_image cfg m e (kernel_image_addr pf argv)).2.entry
                (load_mach_o_image cfg m e (kernel_image_addr pf argv)).2.base)
                (XNU_LOAD_ADDR cfg)) with
          | none =>
            rw [ht] at hrun
            have := Option.some.inj hrun
            subst this
            exact ⟨_, rfl, Or.inl ⟨rfl, ht⟩⟩
          | some m3 =>
            rw [ht] at hrun
            have := Option.some.inj hrun
            subst this
            exact ⟨_, rfl, Or.inr ⟨rfl, ht⟩⟩
  refine ⟨?_, ?_, ?_, ?_, ?_⟩
  · intro hc m2
    unfold do_bootxnu
    rw [if_pos hc]
  · intro r hrun
    rcases hcases r hrun with ⟨hc, rfl⟩ | ⟨hc, _, rfl⟩ | ⟨hc, h, _, ⟨hr, _⟩ | ⟨hr, _⟩⟩
    · exact ⟨fun _ => hc, fun _ => rfl⟩
    · constructor
      · intro h1
        simp at h1
      · intro h1
        exact absurd h1 hc
    · constructor
      · intro h1
        rw [hr] at h1
        cases h1
      · intro h1
        exact absurd h1 hc
    · constructor
      · intro h1
        rw [hr] at h1
        simp at h1
      · intro h1
        exact absurd h1 hc
  · intro hc hv
    unfold do_bootxnu
    rw [if_neg hc]
    simp only
    rw [if_pos hv]
  · intro r hrun hr2
    rcases hcases r hrun with ⟨hc, rfl⟩ | ⟨hc, hv, rfl⟩ | ⟨hc, h, _, ⟨hr, _⟩ | ⟨hr, _⟩⟩
    · simp at hr2
    · exact ⟨hc, hv, rfl, rfl⟩
    · rw [hr] at hr2
      cases hr2
    · rw [hr] at hr2
      simp at hr2
  · intro r hrun hr3
    rcases hcases r hrun with ⟨hc, rfl⟩ | ⟨hc, hv, rfl⟩ | ⟨hc, h, hh, ⟨hr, _⟩ | ⟨hr, ht⟩⟩
    · simp at hr3
    · simp at hr3
    · rw [hr] at hr3
      cases hr3
    · exact ⟨h, hh, ht⟩

set_option maxRecDepth 100000 in
/-- C12, evaluated: one argument gives 1, a wrong magic number gives 2, a transfer
that comes back gives 3, a transfer that does not gives no exit code. -/
theorem do_bootxnu_exit_codes_witness :
    (do_bootxnu board (demo_platform none) 1 scenario_memory 0 2
        ["bootxnu", "1000000"]).map (fun r => r.ret) = some (some 1) ∧
      (do_bootxnu board (demo_platform none) 1 bad_magic_image 0 3 scenario_argv).map
        (fun r => r.ret) = some (some 2) ∧
      (do_bootxnu board returning_platform 1 scenario_memory 0 3 scenario_argv).map
        (fun r => r.ret) = some (some 3) ∧
      (do_bootxnu board (demo_platform none) 1 scenario_memory 0 3 scenario_argv).map
        (fun r => r.ret) = some none := by
  decide

/-! ## The copy and the zero-fill of one segment -/

/-- C13, counterexample: a segment with `src_len = 0x20 > dst_len = 0x10 > 0` is
zero-filled all the same, from the end of the copied bytes on and with the wrapped
length `2 ^ 64 - 0x10`, which clears the byte at `0x80004030`; and the `0x10` source
bytes of a segment with `dst_len = 0` are not copied (source byte 8 is `0x40`, the
target byte stays zero). -/
theorem load_mach_o_image_fill_and_copy_cases :
    (segment_at short_dst_image 0x1000020 =
          { dst := 0x1000, dst_len := 0x10, src_offset := 0x40, src_len := 0x20 } ∧
        uptr_sub 0x10 0x20 = 2 ^ 64 - 0x10 ∧
        short_dst_image 0x80004030 = 0xff ∧
        (load_mach_o_image board short_dst_image 0 0x1000000).1 0x80004030 = 0) ∧
      (segment_at empty_dst_image 0x1000020 =
          { dst := 0x1000, dst_len := 0, src_offset := 0x40, src_len := 0x10 } ∧
        (load_mach_o_image board empty_dst_image 0 0x1000000).2.base ≤
          (load_mach_o_image board empty_dst_image 0 0x1000000).2.end_ ∧
        empty_dst_image (0x1000000 + 0x40 + 8) = 0x40 ∧
        (load_mach_o_image board empty_dst_image 0 0x1000000).1 (0x80004000 + 8) = 0) := by
  decide

/-- C13, amended: for a segment command `sc` whose own members the store does not
reach: when `dst_len = 0` the loader neither copies nor zero-fills; when
`0 < dst_len` and `src_len ≤ dst_len` (the target region inside the address space)
it copies the `src_len` source bytes, zero-fills exactly the `dst_len - src_len`
bytes that follow them, hence none when `dst_len = src_len`, and stores nowhere
else. -/
theorem load_segment_copy_zero_fill (cfg : Config) (image base : Nat) (m : Mem) (sc : Nat)
    (hself : ∀ x, segment_writes cfg base (segment_at m sc) x → ¬ (sc ≤ x ∧ x < sc + 56)) :
    (sc_dst_len m sc = 0 → load_segment cfg image base m sc = m) ∧
      (sc_dst_len m sc ≠ 0 → sc_src_len m sc ≤ sc_dst_len m sc →
        uptr_add (uptr_sub (sc_dst m sc) base) (XNU_LOAD_ADDR cfg) + sc_dst_len m sc ≤ 2 ^ 64 →
        (∀ k, k < sc_src_len m sc →
          load_segment cfg image base m sc
              (uptr_add (uptr_sub (sc_dst m sc) base) (XNU_LOAD_ADDR cfg) + k) =
            m (uptr_add image (sc_src_offset m sc) + k)) ∧
        (∀ k, sc_src_len m sc ≤ k → k < sc_dst_len m sc →
          load_segment cfg image base m sc
              (uptr_add (uptr_sub (sc_dst m sc) base) (XNU_LOAD_ADDR cfg) + k) = 0) ∧
        (∀ x, x < uptr_add (uptr_sub (sc_dst m sc) base) (XNU_LOAD_ADDR cfg) ∨
            uptr_add (uptr_sub (sc_dst m sc) base) (XNU_LOAD_ADDR cfg) + sc_dst_len m sc ≤ x →
          load_segment cfg image base m sc x = m x)) := by
  have heq := load_segment_eq cfg image base m m sc (fun _ _ _ => rfl) hself
  have hd := rd64_lt m (sc + 32)
  have hs := rd64_lt m (sc + 48)
  rw [heq]
  unfold store_segment segment_target segment_source segment_at
  simp only
  unfold sc_dst_len sc_src_len at *
  constructor
  · intro h0
    rw [if_neg (by omega), if_neg (by omega)]
  · intro h0 hle hfit
    have hadd : uptr_add (uptr_add (uptr_sub (sc_dst m sc) base) (XNU_LOAD_ADDR cfg))
        (rd64 m (sc + 48)) =
        uptr_add (uptr_sub (sc_dst m sc) base) (XNU_LOAD_ADDR cfg) + rd64 m (sc + 48) ∨
        rd64 m (sc + 48) = rd64 m (sc + 32) := by
      by_cases he : rd64 m (sc + 48) = rd64 m (sc + 32)
      · exact Or.inr he
      · left
        unfold uptr_add
        apply Nat.mod_eq_of_lt
        unfold uptr_add at hfit
        omega
    have hsub : uptr_sub (rd64 m (sc + 32)) (rd64 m (sc + 48)) =
        rd64 m (sc + 32) - rd64 m (sc + 48) := by
      unfold uptr_sub
      rw [Nat.mod_eq_of_lt hs]
      rw [show rd64 m (sc + 32) + (2 ^ 64 - rd64 m (sc + 48)) =
        (rd64 m (sc + 32) - rd64 m (sc + 48)) + 2 ^ 64 by omega]
      rw [Nat.add_mod_right]
      apply Nat.mod_eq_of_lt
      omega
    refine ⟨?_, ?_, ?_⟩
    · intro k hk
      by_cases hc : rd64 m (sc + 48) ≠ rd64 m (sc + 32) ∧ rd64 m (sc + 32) ≠ 0
      · rcases hadd with hadd | hadd
        · rw [if_pos hc, hadd, hsub, memset_outside _ _ _ _ _ (by omega),
            if_pos ⟨by omega, h0⟩, memcpy_inside _ _ _ _ _ hk]
        · exact absurd hadd hc.1
      · rw [if_neg hc, if_pos ⟨by omega, h0⟩, memcpy_inside _ _ _ _ _ hk]
    · intro k hk1 hk2
      have hne : rd64 m (sc + 48) ≠ rd64 m (sc + 32) := by omega
      rcases hadd with hadd | hadd
      · rw [if_pos ⟨hne, h0⟩, hadd, hsub]
        rw [show uptr_add (uptr_sub (sc_dst m sc) base) (XNU_LOAD_ADDR cfg) + k =
          uptr_add (uptr_sub (sc_dst m sc) base) (XNU_LOAD_ADDR cfg) + rd64 m (sc + 48) +
            (k - rd64 m (sc + 48)) by omega]
        rw [memset_inside _ _ _ _ _ (by omega)]
      · exact absurd hadd hne
    · intro x hx
      have h1 : (if rd64 m (sc + 48) ≠ 0 ∧ rd64 m (sc + 32) ≠ 0 then
          memcpy m (uptr_add (uptr_sub (sc_dst m sc) base) (XNU_LOAD_ADDR cfg))
            (uptr_add image (sc_src_offset m sc)) (rd64 m (sc + 48)) else m) x = m x := by
        split
        · rw [memcpy_outside _ _ _ _ _ (by omega)]
        · rfl
      by_cases hc : rd64 m (sc + 48) ≠ rd64 m (sc + 32) ∧ rd64 m (sc + 32) ≠ 0
      · rcases hadd with hadd | hadd
        · rw [if_pos hc, hadd, hsub, memset_outside _ _ _ _ _ (by omega), h1]
        · exact absurd hadd hc.1
      · rw [if_neg hc, h1]

/-- C13, amended, witness: the segment of `one_segment_image`, with
`src_len = 0x10 < dst_len = 0x20`. -/
theorem load_segment_copy_zero_fill_witness :
    sc_dst_len one_segment_image 0x1000020 ≠ 0 ∧
      sc_src_len one_segment_image 0x1000020 ≤ sc_dst_len one_segment_image 0x1000020 ∧
      (List.range 0x10).all (fun k => decide
        (load_segment board 0x1000000 0x1000 one_segment_image 0x1000020 (0x80004000 + k) =
          one_segment_image (0x1000040 + k))) = true ∧
      (List.range 0x10).all (fun k => decide
        (load_segment board 0x1000000 0x1000 one_segment_image 0x1000020
          (0x80004010 + k) = 0)) = true := by
  have hb : (load_mach_o_image board one_segment_image 0 0x1000000).2.base = 0x1000 := by decide
  have h := load_segment_copy_zero_fill board 0x1000000 0x1000 one_segment_image 0x1000020
    (by
      intro x hw
      have hw2 := one_segment_image_writes x (by rw [hb]; exact hw)
      omega)
  have e1 : uptr_add (uptr_sub (sc_dst one_segment_image 0x1000020) 0x1000)
      (XNU_LOAD_ADDR board) = 0x80004000 := by decide
  have e2 : sc_dst_len one_segment_image 0x1000020 = 0x20 := by decide
  have e3 : sc_src_len one_segment_image 0x1000020 = 0x10 := by decide
  have e4 : uptr_add 0x1000000 (sc_src_offset one_segment_image 0x1000020) = 0x1000040 := by
    decide
  obtain ⟨h1, h2, _⟩ := h.2 (by decide) (by decide) (by decide)
  rw [e1, e3, e4] at h1
  rw [e1, e2, e3] at h2
  refine ⟨by decide, by decide, ?_, ?_⟩
  · rw [List.all_eq_true]
    intro k hk
    exact decide_eq_true (h1 k (List.mem_range.mp hk))
  · rw [List.all_eq_true]
    intro k hk
    have hk2 := List.mem_range.mp hk
    apply decide_eq_true
    have := h2 (0x10 + k) (by omega) (by omega)
    rw [show 0x80004000 + (0x10 + k) = 0x80004010 + k by omega] at this
    exact this

/-! ## Where the image and the boot block are placed -/

/-- A valid result comes from a matching header and a segment command. -/
theorem load_mach_o_image_valid (cfg : Config) (m : Mem) (e image : Nat)
    (hv : (load_mach_o_image cfg m e image).2.base ≤ (load_mach_o_image cfg m e image).2.end_) :
    header_magic m image = MACH_O_MAGIC cfg ∧ header_file_type m image = MACH_O_EXEC ∧
      segment_commands cfg m image ≠ [] := by
  by_cases hm : header_magic m image ≠ MACH_O_MAGIC cfg ∨ header_file_type m image ≠ MACH_O_EXEC
  · exfalso
    simp only [load_mach_o_image, if_pos hm] at hv
    norm_num at hv
  · have hmagic : header_magic m image = MACH_O_MAGIC cfg := by
      by_contra hc
      exact hm (Or.inl hc)
    have htype : header_file_type m image = MACH_O_EXEC := by
      by_contra hc
      exact hm (Or.inr hc)
    refine ⟨hmagic, htype, ?_⟩
    intro hnil
    obtain ⟨hb, he⟩ := load_mach_o_image_info cfg m e image hmagic htype
    obtain ⟨b1, _, _⟩ := find_range_base cfg m (header_commands_nb m image)
      (uptr_add image (sizeof_mach_o_header cfg)) { base := 2 ^ 64 - 1, entry := e, end_ := 0 }
    obtain ⟨e1, _, _⟩ := find_range_end cfg m (header_commands_nb m image)
      (uptr_add image (sizeof_mach_o_header cfg)) { base := 2 ^ 64 - 1, entry := e, end_ := 0 }
    rw [← hb] at b1
    rw [← he] at e1
    have hnil2 : (command_addrs m (header_commands_nb m image)
        (uptr_add image (sizeof_mach_o_header cfg))).filter
        (fun lc => decide (lc_command m lc = LOAD_COMMAND_SEGMENT cfg)) = [] := hnil
    rw [hnil2] at b1 e1
    have hb1 : (load_mach_o_image cfg m e image).2.base = 2 ^ 64 - 1 := by
      rcases b1 with b1 | ⟨sc, hsc, _⟩
      · exact b1
      · cases hsc
    have he1 : (load_mach_o_image cfg m e image).2.end_ = 0 := by
      rcases e1 with e1 | ⟨sc, hsc, _⟩
      · exact e1
      · cases hsc
    rw [hb1, he1] at hv
    norm_num at hv

/-- With a matching header: `base` is below every segment destination, `end` is
some segment end (or zero) and above every segment end taken in pointer width. -/
theorem load_mach_o_image_bounds (cfg : Config) (m : Mem) (e image : Nat)
    (hmagic : header_magic m image = MACH_O_MAGIC cfg)
    (htype : header_file_type m image = MACH_O_EXEC) :
    (∀ sc ∈ segment_commands cfg m image,
        (load_mach_o_image cfg m e image).2.base ≤ sc_dst m sc ∧
          uptr_add (sc_dst m sc) (sc_dst_len m sc) ≤ (load_mach_o_image cfg m e image).2.end_) ∧
      ((load_mach_o_image cfg m e image).2.end_ = 0 ∨
        ∃ sc ∈ segment_commands cfg m image,
          (load_mach_o_image cfg m e image).2.end_ =
            uptr_add (sc_dst m sc) (sc_dst_len m sc)) ∧
      (load_mach_o_image cfg m e image).2.end_ < 2 ^ 64 := by
  obtain ⟨hb, he⟩ := load_mach_o_image_info cfg m e image hmagic htype
  obtain ⟨_, _, b3⟩ := find_range_base cfg m (header_commands_nb m image)
    (uptr_add image (sizeof_mach_o_header cfg)) { base := 2 ^ 64 - 1, entry := e, end_ := 0 }
  obtain ⟨e1, _, e3⟩ := find_range_end cfg m (header_commands_nb m image)
    (uptr_add image (sizeof_mach_o_header cfg)) { base := 2 ^ 64 - 1, entry := e, end_ := 0 }
  rw [← hb] at b3
  rw [← he] at e1 e3
  refine ⟨fun sc hsc => ⟨b3 sc hsc, e3 sc hsc⟩, e1, ?_⟩
  rcases e1 with e1 | ⟨sc, _, e1⟩
  · rw [e1]
    norm_num
  · rw [e1]
    exact uptr_add_lt _ _

/-- Translating an address at or above `b` wraps nowhere when the result fits. -/
theorem uptr_translate (d b x : Nat) (hb : b ≤ d)
    (hfit : d - b + x < 2 ^ 64) : uptr_add (uptr_sub d b) x = d - b + x := by
  unfold uptr_add uptr_sub
  omega

/-- The `virt_base` and `phys_base` members handed over. -/
theorem do_bootxnu_bases (cfg : Config) (pf : Platform) (fuel : Nat) (m : Mem) (e : Nat)
    (argc : Int) (argv : List String) (r : Run) (h : Handoff)
    (hrun : do_bootxnu cfg pf fuel m e argc argv = some r) (hh : r.handoff = some h) :
    rd64 h.mem (h.boot_args + off_virt_base) =
        (load_mach_o_image cfg m e (kernel_image_addr pf argv)).2.base ∧
      rd64 h.mem (h.boot_args + off_phys_base) = XNU_LOAD_ADDR_alone cfg % 2 ^ 64 := by
  have hblk := do_bootxnu_block_byte cfg pf fuel m e argc argv r h hrun hh
  have hbase := load_mach_o_image_base_lt cfg m e (kernel_image_addr pf argv)
  have hcl : ∀ x, x < h.boot_args + 108 ∨ h.boot_args + 716 ≤ x →
      ¬ (h.boot_args + 108 ≤ x ∧ x < h.boot_args + 716 ∧ pf.bootargs.isSome = true) := by
    intro x hx hc
    omega
  unfold off_virt_base off_phys_base
  constructor
  · have hb := rdLE_of_bytes h.mem (h.boot_args + 8) 8
      (load_mach_o_image cfg m e (kernel_image_addr pf argv)).2.base (fun k hk => by
      rw [hblk _ (by omega) (by omega) (by omega) (by omega), boot_args_init_apply,
        if_neg (hcl _ (by omega))]
      repeat rw [if_neg (by omega)]
      rw [if_pos (by omega), Nat.add_sub_cancel_left])
    unfold rd64
    rw [hb]
    exact Nat.mod_eq_of_lt hbase
  · have hb := rdLE_of_bytes h.mem (h.boot_args + 16) 8 (XNU_LOAD_ADDR_alone cfg) (fun k hk => by
      rw [hblk _ (by omega) (by omega) (by omega) (by omega), boot_args_init_apply,
        if_neg (hcl _ (by omega))]
      repeat rw [if_neg (by omega)]
      rw [if_pos (by omega), Nat.add_sub_cancel_left])
    unfold rd64
    rw [hb]
    norm_num

/-- The entry the loader returns when `lc` is the last unix-thread command. -/
theorem load_mach_o_image_last_thread (cfg : Config) (m : Mem) (e image lc : Nat)
    (pre post : List Nat)
    (hmagic : header_magic m image = MACH_O_MAGIC cfg)
    (htype : header_file_type m image = MACH_O_EXEC)
    (hpres : commands_preserved cfg m image (load_mach_o_image cfg m e image).2.base)
    (hlist : image_commands cfg m image = pre ++ lc :: post)
    (hlc : lc_command m lc = LOAD_COMMAND_UNIXTHREAD)
    (hpost : ∀ c ∈ post, lc_command m c ≠ LOAD_COMMAND_UNIXTHREAD) :
    (load_mach_o_image cfg m e image).2.entry = thread_pc cfg m lc := by
  rw [(load_mach_o_image_eq cfg m e image hmagic htype hpres).2]
  unfold decoded_commands
  rw [hlist, List.map_append, List.map_cons, run_commands_append]
  have hcmd : command_at cfg m lc = Command.unixthread (thread_pc cfg m lc) := by
    unfold command_at
    rw [if_neg (by rw [hlc]; exact LOAD_COMMAND_SEGMENT_ne cfg), if_pos hlc]
  rw [hcmd]
  simp only [run_commands, List.foldl_cons]
  have hk := run_commands_entry_kept cfg image (load_mach_o_image cfg m e image).2.base
    (post.map (command_at cfg m))
    (run_command cfg image (load_mach_o_image cfg m e image).2.base
      (List.foldl (run_command cfg image (load_mach_o_image cfg m e image).2.base) (m, e)
        (pre.map (command_at cfg m)))
      (Command.unixthread (thread_pc cfg m lc)))
    (by
      intro c hc pc heq
      obtain ⟨a, ha, rfl⟩ := List.mem_map.mp hc
      unfold command_at at heq
      split at heq
      · cases heq
      · rw [if_neg (hpost a ha)] at heq
        cases heq)
  simp only [run_commands] at hk
  rw [hk]
  rfl

/-- C11: in every run of `do_bootxnu` that reaches the entry transfer for an image
none of whose segments has `dst + dst_len` overflowing and whose translated end
`XNU_LOAD_ADDR + (end - base)` fits the pointer width: the image has a matching header
and a segment command; the block address is `end - base + XNU_LOAD_ADDR`, which is
`translated destination + dst_len` of some segment and at least that of every
segment; every segment's destination range lies inside `[XNU_LOAD_ADDR, block)`;
and no byte of the block or of the appended tree blob (when it ends inside the
address space) lies in a segment's destination range. -/
theorem do_bootxnu_block_after_image (cfg : Config) (pf : Platform) (fuel : Nat) (m : Mem)
    (e : Nat) (argc : Int) (argv : List String) (r : Run) (h : Handoff)
    (hrun : do_bootxnu cfg pf fuel m e argc argv = some r) (hh : r.handoff = some h)
    (hov : ∀ sc ∈ segment_commands cfg m (kernel_image_addr pf argv),
      sc_dst m sc + sc_dst_len m sc < 2 ^ 64)
    (hfit : XNU_LOAD_ADDR cfg +
      ((load_mach_o_image cfg m e (kernel_image_addr pf argv)).2.end_ -
        (load_mach_o_image cfg m e (kernel_image_addr pf argv)).2.base) < 2 ^ 64) :
    header_magic m (kernel_image_addr pf argv) = MACH_O_MAGIC cfg ∧
      header_file_type m (kernel_image_addr pf argv) = MACH_O_EXEC ∧
      segment_commands cfg m (kernel_image_addr pf argv) ≠ [] ∧
      h.boot_args =
        (load_mach_o_image cfg m e (kernel_image_addr pf argv)).2.end_ -
          (load_mach_o_image cfg m e (kernel_image_addr pf argv)).2.base + XNU_LOAD_ADDR cfg ∧
      (∃ sc ∈ segment_commands cfg m (kernel_image_addr pf argv),
        h.boot_args =
          segment_target cfg (load_mach_o_image cfg m e (kernel_image_addr pf argv)).2.base
            (segment_at m sc) + sc_dst_len m sc) ∧
      (∀ sc ∈ segment_commands cfg m (kernel_image_addr pf argv),
        segment_target cfg (load_mach_o_image cfg m e (kernel_image_addr pf argv)).2.base
            (segment_at m sc) =
          sc_dst m sc - (load_mach_o_image cfg m e (kernel_image_addr pf argv)).2.base +
            XNU_LOAD_ADDR cfg ∧
        XNU_LOAD_ADDR cfg ≤
          segment_target cfg (load_mach_o_image cfg m e (kernel_image_addr pf argv)).2.base
            (segment_at m sc) ∧
        segment_target cfg (load_mach_o_image cfg m e (kernel_image_addr pf argv)).2.base
            (segment_at m sc) + sc_dst_len m sc ≤ h.boot_args) ∧
      (∀ x, h.boot_args ≤ x → x < h.boot_args + sizeof_xnu_boot_arguments →
        ∀ sc ∈ segment_commands cfg m (kernel_image_addr pf argv),
          ¬ (segment_target cfg (load_mach_o_image cfg m e (kernel_image_addr pf argv)).2.base
                (segment_at m sc) ≤ x ∧
              x < segment_target cfg
                (load_mach_o_image cfg m e (kernel_image_addr pf argv)).2.base
                (segment_at m sc) + sc_dst_len m sc)) ∧
      (h.boot_args + sizeof_xnu_boot_arguments +
          rd32 h.mem (h.boot_args + off_afdt_length) ≤ 2 ^ 64 →
        ∀ x, rd64 h.mem (h.boot_args + off_afdt) ≤ x →
          x < rd64 h.mem (h.boot_args + off_afdt) + rd32 h.mem (h.boot_args + off_afdt_length) →
          ∀ sc ∈ segment_commands cfg m (kernel_image_addr pf argv),
            ¬ (segment_target cfg (load_mach_o_image cfg m e (kernel_image_addr pf argv)).2.base
                  (segment_at m sc) ≤ x ∧
                x < segment_target cfg
                  (load_mach_o_image cfg m e (kernel_image_addr pf argv)).2.base
                  (segment_at m sc) + sc_dst_len m sc)) := by
  obtain ⟨_, hvalid, hba, _, _⟩ := do_bootxnu_handoff cfg pf fuel m e argc argv r h hrun hh
  obtain ⟨hmagic, htype, hseg⟩ := load_mach_o_image_valid cfg m e _ hvalid
  obtain ⟨hb, he, helt⟩ := load_mach_o_image_bounds cfg m e _ hmagic htype
  obtain ⟨len, _, _, _, _, hafdt, hal, _⟩ :=
    do_bootxnu_appended cfg pf fuel m e argc argv r h hrun hh
  have hadd : ∀ sc ∈ segment_commands cfg m (kernel_image_addr pf argv),
      uptr_add (sc_dst m sc) (sc_dst_len m sc) = sc_dst m sc + sc_dst_len m sc :=
    fun sc hsc => Nat.mod_eq_of_lt (hov sc hsc)
  have hbaeq : h.boot_args =
      (load_mach_o_image cfg m e (kernel_image_addr pf argv)).2.end_ -
        (load_mach_o_image cfg m e (kernel_image_addr pf argv)).2.base + XNU_LOAD_ADDR cfg := by
    rw [hba]
    unfold xnu_end
    exact uptr_translate _ _ _ hvalid (by omega)
  have htarget : ∀ sc ∈ segment_commands cfg m (kernel_image_addr pf argv),
      segment_target cfg (load_mach_o_image cfg m e (kernel_image_addr pf argv)).2.base
          (segment_at m sc) =
        sc_dst m sc - (load_mach_o_image cfg m e (kernel_image_addr pf argv)).2.base +
          XNU_LOAD_ADDR cfg ∧
      XNU_LOAD_ADDR cfg ≤
        segment_target cfg (load_mach_o_image cfg m e (kernel_image_addr pf argv)).2.base
          (segment_at m sc) ∧
      segment_target cfg (load_mach_o_image cfg m e (kernel_image_addr pf argv)).2.base
          (segment_at m sc) + sc_dst_len m sc ≤ h.boot_args := by
    intro sc hsc
    obtain ⟨h1, h2⟩ := hb sc hsc
    rw [hadd sc hsc] at h2
    have ht : segment_target cfg (load_mach_o_image cfg m e (kernel_image_addr pf argv)).2.base
        (segment_at m sc) =
        sc_dst m sc - (load_mach_o_image cfg m e (kernel_image_addr pf argv)).2.base +
          XNU_LOAD_ADDR cfg :=
      uptr_translate (sc_dst m sc) _ (XNU_LOAD_ADDR cfg) h1 (by omega)
    rw [ht, hbaeq]
    omega
  refine ⟨hmagic, htype, hseg, hbaeq, ?_, htarget, ?_, ?_⟩
  · obtain ⟨s0, hs0⟩ := List.exists_mem_of_ne_nil _ hseg
    rcases he with he | ⟨sc, hsc, he⟩
    · refine ⟨s0, hs0, ?_⟩
      obtain ⟨h1, h2⟩ := hb s0 hs0
      rw [hadd s0 hs0] at h2
      rw [(htarget s0 hs0).1, hbaeq]
      omega
    · refine ⟨sc, hsc, ?_⟩
      obtain ⟨h1, h2⟩ := hb sc hsc
      rw [hadd sc hsc] at he
      rw [(htarget sc hsc).1, hbaeq]
      omega
  · intro x hx1 _ sc hsc hc
    have := (htarget sc hsc).2.2
    omega
  · intro hblob x hx1 hx2 sc hsc hc
    have := (htarget sc hsc).2.2
    rw [hafdt] at hx1 hx2
    rw [hal] at hblob hx2
    unfold uptr_add sizeof_xnu_boot_arguments at hx1 hx2
    unfold sizeof_xnu_boot_arguments at hblob
    omega

set_option maxRecDepth 100000 in
/-- C11, witness: in the scenario run the segment occupies
`[0x80004000, 0x80004020)` and the block starts at `0x80004020`. -/
theorem do_bootxnu_block_after_image_witness :
    (scenario_handoff none).boot_args = 0x80004020 ∧
      segment_target board 0x1000 (segment_at scenario_memory 0x1000020) +
        sc_dst_len scenario_memory 0x1000020 = 0x80004020 ∧
      (scenario_handoff none).boot_args =
        (load_mach_o_image board scenario_memory 0
            (kernel_image_addr (demo_platform none) scenario_argv)).2.end_ -
          (load_mach_o_image board scenario_memory 0
            (kernel_image_addr (demo_platform none) scenario_argv)).2.base +
          XNU_LOAD_ADDR board :=
  ⟨by decide, by decide,
    (do_bootxnu_block_after_image board (demo_platform none) 1 scenario_memory 0 3 scenario_argv
      { mem := (scenario_handoff none).mem, handoff := some (scenario_handoff none), ret := none }
      (scenario_handoff none) rfl rfl (by decide) (by decide)).2.2.2.1⟩

/-! ## Segments applied in list order -/

/-- For a segment with `src_len ≤ dst_len` whose target region lies in the address
space, the bytes stored are exactly those of the target region. -/
theorem segment_writes_range (cfg : Config) (base : Nat) (s : Segment) (x : Nat)
    (hlen : s.src_len ≤ s.dst_len) (hlt : s.dst_len < 2 ^ 64)
    (hfit : segment_target cfg base s + s.dst_len ≤ 2 ^ 64) :
    segment_writes cfg base s x ↔
      (segment_target cfg base s ≤ x ∧ x < segment_target cfg base s + s.dst_len) := by
  unfold segment_writes
  by_cases he : s.src_len = s.dst_len
  · constructor
    · rintro (⟨_, _, h1, h2⟩ | ⟨h1, _⟩)
      · omega
      · exact absurd he h1
    · intro hx
      left
      exact ⟨by omega, by omega, hx.1, by omega⟩
  · have hadd : uptr_add (segment_target cfg base s) s.src_len =
        segment_target cfg base s + s.src_len := by
      unfold uptr_add
      exact Nat.mod_eq_of_lt (by omega)
    have hsub : uptr_sub s.dst_len s.src_len = s.dst_len - s.src_len := by
      unfold uptr_sub
      omega
    rw [hadd, hsub]
    constructor
    · rintro (⟨_, _, h1, h2⟩ | ⟨_, _, h1, h2⟩)
      · omega
      · omega
    · intro hx
      by_cases hk : x < segment_target cfg base s + s.src_len
      · left
        exact ⟨by omega, by omega, hx.1, hk⟩
      · right
        exact ⟨he, by omega, by omega, by omega⟩

/-- What one segment stores at byte `k` of its target region. -/
theorem store_segment_value (cfg : Config) (image base : Nat) (s : Segment) (m : Mem) (k : Nat)
    (hlen : s.src_len ≤ s.dst_len) (hlt : s.dst_len < 2 ^ 64)
    (hfit : segment_target cfg base s + s.dst_len ≤ 2 ^ 64) (hk : k < s.dst_len) :
    store_segment cfg image base s m (segment_target cfg base s + k) =
      if k < s.src_len then m (segment_source image s + k) else 0 := by
  unfold store_segment
  have hd0 : s.dst_len ≠ 0 := by omega
  by_cases hks : k < s.src_len
  · have hs0 : s.src_len ≠ 0 := by omega
    rw [if_pos hks]
    have hcp : (if s.src_len ≠ 0 ∧ s.dst_len ≠ 0 then
        memcpy m (segment_target cfg base s) (segment_source image s) s.src_len else m)
        (segment_target cfg base s + k) = m (segment_source image s + k) := by
      rw [if_pos ⟨hs0, hd0⟩, memcpy_inside _ _ _ _ _ hks]
    by_cases hc : s.src_len ≠ s.dst_len ∧ s.dst_len ≠ 0
    · have hadd : uptr_add (segment_target cfg base s) s.src_len =
          segment_target cfg base s + s.src_len := by
        unfold uptr_add
        apply Nat.mod_eq_of_lt
        have := hc.1
        omega
      rw [if_pos hc, memset_outside, hcp]
      rw [hadd]
      omega
    · rw [if_neg hc]
      exact hcp
  · rw [if_neg hks]
    have hne : s.src_len ≠ s.dst_len := by omega
    rw [if_pos ⟨hne, hd0⟩]
    have hadd : uptr_add (segment_target cfg base s) s.src_len =
        segment_target cfg base s + s.src_len := by
      unfold uptr_add
      apply Nat.mod_eq_of_lt
      omega
    have hsub : uptr_sub s.dst_len s.src_len = s.dst_len - s.src_len := by
      unfold uptr_sub
      omega
    rw [hadd, hsub]
    rw [show segment_target cfg base s + k =
      segment_target cfg base s + s.src_len + (k - s.src_len) by omega]
    rw [memset_inside]
    omega

/-- A byte no segment of the list stores to keeps its value. -/
theorem run_commands_frame (cfg : Config) (image base : Nat) (l : List Command) (st : Mem × Nat)
    (x : Nat) (h : ∀ s, Command.segment s ∈ l → ¬ segment_writes cfg base s x) :
    (run_commands cfg image base l st).1 x = st.1 x := by
  induction l generalizing st with
  | nil => rfl
  | cons c l ih =>
    simp only [run_commands, List.foldl_cons]
    have hrest := ih (run_command cfg image base st c)
      (fun s hs => h s (List.mem_cons_of_mem _ hs))
    simp only [run_commands] at hrest
    rw [hrest]
    cases c with
    | segment s =>
      simp only [run_command]
      exact store_segment_outside cfg image base s st.1 x (h s (List.mem_cons_self _ _))
    | unixthread pc => rfl
    | other => rfl

/-- Every decoded segment has members below `2 ^ 64`. -/
theorem decoded_segment_lt (cfg : Config) (m : Mem) (image : Nat) (s : Segment)
    (h : Command.segment s ∈ decoded_commands cfg m image) :
    s.dst_len < 2 ^ 64 ∧ s.src_len < 2 ^ 64 := by
  obtain ⟨sc, _, rfl⟩ := (mem_decoded_commands cfg m image s).mp h
  exact ⟨rd64_lt m (sc + 32), rd64_lt m (sc + 48)⟩

/-- Checked bounds on the commands and on the targets show that no segment is
loaded over the command count or the command list. -/
theorem commands_preserved_of_within (cfg : Config) (m : Mem) (image base n lo hi : Nat)
    (hn : 20 ≤ n) (hhi : hi ≤ 2 ^ 64) (hapart : hi ≤ image ∨ image + n ≤ lo)
    (hc : commands_within cfg m image n = true)
    (ht : targets_within cfg m image base lo hi = true) :
    commands_preserved cfg m image base := by
  unfold commands_within at hc
  unfold targets_within at ht
  rw [List.all_eq_true] at hc ht
  intro sc hsc x hw hr
  have h1 := of_decide_eq_true (ht sc hsc)
  have hx := (segment_writes_range cfg base (segment_at m sc) x h1.1 (rd64_lt m (sc + 32))
    (by
      have := h1.2.2
      unfold segment_at at this ⊢
      simp only at this ⊢
      omega)).mp hw
  have hx2 : lo ≤ x ∧ x < hi := by
    have h2 := h1.2.1
    have h3 := h1.2.2
    have e : (segment_at m sc).dst_len = sc_dst_len m sc := rfl
    rw [e] at hx
    omega
  rcases hr with hr | ⟨lc, hlc, hr1, hr2⟩
  · omega
  · have h4 := of_decide_eq_true (hc lc hlc)
    omega

/-- C14: for an image with a matching header whose command count and list the load
does not store over and whose segments all have `src_len ≤ dst_len` and a target
region inside the address space, the memory `load_mach_o_image` leaves is the one
obtained by applying the copy and zero-fill of each segment in list order; and a
byte of the target region of a segment `s` that no later segment's target region
contains holds what `s` stored there: the source byte as it stood when `s` was
applied, or zero beyond `src_len`. -/
theorem load_mach_o_image_last_write (cfg : Config) (m : Mem) (e image : Nat)
    (pre post : List Command) (s : Segment) (k : Nat)
    (hmagic : header_magic m image = MACH_O_MAGIC cfg)
    (htype : header_file_type m image = MACH_O_EXEC)
    (hpres : commands_preserved cfg m image (load_mach_o_image cfg m e image).2.base)
    (hlist : decoded_commands cfg m image = pre ++ Command.segment s :: post)
    (hlen : ∀ s2, Command.segment s2 ∈ decoded_commands cfg m image →
      s2.src_len ≤ s2.dst_len ∧
        segment_target cfg (load_mach_o_image cfg m e image).2.base s2 + s2.dst_len ≤ 2 ^ 64)
    (hk : k < s.dst_len)
    (hlast : ∀ s2, Command.segment s2 ∈ post →
      ¬ (segment_target cfg (load_mach_o_image cfg m e image).2.base s2 ≤
            segment_target cfg (load_mach_o_image cfg m e image).2.base s + k ∧
          segment_target cfg (load_mach_o_image cfg m e image).2.base s + k <
            segment_target cfg (load_mach_o_image cfg m e image).2.base s2 + s2.dst_len)) :
    (load_mach_o_image cfg m e image).1 =
        (run_commands cfg image (load_mach_o_image cfg m e image).2.base
          (decoded_commands cfg m image) (m, e)).1 ∧
      (load_mach_o_image cfg m e image).1
          (segment_target cfg (load_mach_o_image cfg m e image).2.base s + k) =
        store_segment cfg image (load_mach_o_image cfg m e image).2.base s
          (run_commands cfg image (load_mach_o_image cfg m e image).2.base pre (m, e)).1
          (segment_target cfg (load_mach_o_image cfg m e image).2.base s + k) ∧
      (load_mach_o_image cfg m e image).1
          (segment_target cfg (load_mach_o_image cfg m e image).2.base s + k) =
        if k < s.src_len then
          (run_commands cfg image (load_mach_o_image cfg m e image).2.base pre (m, e)).1
            (segment_source image s + k)
        else 0 := by
  have heq := (load_mach_o_image_eq cfg m e image hmagic htype hpres).1
  have hs : Command.segment s ∈ decoded_commands cfg m image := by
    rw [hlist]
    exact List.mem_append_right _ (List.mem_cons_self _ _)
  have hpost : ∀ s2, Command.segment s2 ∈ post →
      Command.segment s2 ∈ decoded_commands cfg m image := by
    intro s2 h2
    rw [hlist]
    exact List.mem_append_right _ (List.mem_cons_of_mem _ h2)
  have hval : (load_mach_o_image cfg m e image).1
      (segment_target cfg (load_mach_o_image cfg m e image).2.base s + k) =
      store_segment cfg image (load_mach_o_image cfg m e image).2.base s
        (run_commands cfg image (load_mach_o_image cfg m e image).2.base pre (m, e)).1
        (segment_target cfg (load_mach_o_image cfg m e image).2.base s + k) := by
    conv_lhs => rw [heq, hlist, run_commands_append]
    simp only [run_commands, List.foldl_cons]
    have hf := run_commands_frame cfg image (load_mach_o_image cfg m e image).2.base post
      (run_command cfg image (load_mach_o_image cfg m e image).2.base
        (List.foldl (run_command cfg image (load_mach_o_image cfg m e image).2.base) (m, e) pre)
        (Command.segment s))
      (segment_target cfg (load_mach_o_image cfg m e image).2.base s + k)
      (by
        intro s2 h2 hw
        have hl := hlen s2 (hpost s2 h2)
        have hw2 := (segment_writes_range cfg _ s2 _ hl.1
          (decoded_segment_lt cfg m image s2 (hpost s2 h2)).1 hl.2).mp hw
        exact hlast s2 h2 hw2)
    simp only [run_commands] at hf
    rw [hf]
    rfl
  refine ⟨heq, hval, ?_⟩
  rw [hval]
  exact store_segment_value cfg image _ s _ k (hlen s hs).1
    (decoded_segment_lt cfg m image s hs).1 (hlen s hs).2 hk

set_option maxRecDepth 100000 in
/-- C14, witness: `segment_low` then `segment_overlapping`, whose target regions
share `[0x80004010, 0x80004020)`: there the bytes are those of the later segment
(its 8 source bytes `0x81 ..`, then zeros), and below them those of the earlier. -/
theorem load_mach_o_image_last_write_witness :
    (List.range 0x20).all (fun k => decide
        ((load_mach_o_image board (two_segment_image segment_low segment_overlapping) 0
            0x1000000).1 (0x80004010 + k) =
          if k < 0x8 then 0x81 + k else 0)) = true ∧
      (List.range 0x10).all (fun k => decide
        ((load_mach_o_image board (two_segment_image segment_low segment_overlapping) 0
            0x1000000).1 (0x80004000 + k) = 1 + k)) = true := by
  have hb : (load_mach_o_image board (two_segment_image segment_low segment_overlapping) 0
      0x1000000).2.base = 0x1000 := by decide
  have hdec : decoded_commands board (two_segment_image segment_low segment_overlapping)
      0x1000000 = [Command.segment segment_low] ++
        Command.segment segment_overlapping :: [] := by decide
  have hdec2 : decoded_commands board (two_segment_image segment_low segment_overlapping)
      0x1000000 = [] ++ Command.segment segment_low ::
        [Command.segment segment_overlapping] := by decide
  have hpres : commands_preserved board (two_segment_image segment_low segment_overlapping)
      0x1000000 (load_mach_o_image board (two_segment_image segment_low segment_overlapping) 0
        0x1000000).2.base := by
    rw [hb]
    exact commands_preserved_of_within board _ 0x1000000 0x1000 0x200 0x80004000 0x80004030
      (by decide) (by decide) (by decide) (by decide) (by decide)
  have hlen : ∀ s2, Command.segment s2 ∈ decoded_commands board
      (two_segment_image segment_low segment_overlapping) 0x1000000 →
      s2.src_len ≤ s2.dst_len ∧
        segment_target board (load_mach_o_image board
          (two_segment_image segment_low segment_overlapping) 0 0x1000000).2.base s2 +
          s2.dst_len ≤ 2 ^ 64 := by
    intro s2 h2
    rw [hb]
    rw [hdec] at h2
    simp only [List.singleton_append, List.mem_cons, Command.segment.injEq,
      List.mem_singleton, List.not_mem_nil, or_false] at h2
    rcases h2 with rfl | rfl <;> decide
  have ht1 : segment_target board 0x1000 segment_overlapping = 0x80004010 := by decide
  have ht0 : segment_target board 0x1000 segment_low = 0x80004000 := by decide
  have hs1 : segment_source 0x1000000 segment_overlapping = 0x1000280 := by decide
  have hs0 : segment_source 0x1000000 segment_low = 0x1000200 := by decide
  constructor
  · rw [List.all_eq_true]
    intro k hk
    have hk2 := List.mem_range.mp hk
    apply decide_eq_true
    have h := (load_mach_o_image_last_write board _ 0 0x1000000 [Command.segment segment_low] []
      segment_overlapping k (by decide) (by decide) hpres hdec hlen hk2
      (by
        intro s2 h2
        cases h2)).2.2
    rw [hb, ht1, hs1] at h
    rw [h]
    have hsl : segment_overlapping.src_len = 0x8 := rfl
    rw [hsl]
    by_cases hk8 : k < 0x8
    · rw [if_pos hk8, if_pos hk8]
      have hfr := run_commands_frame board 0x1000000 0x1000 [Command.segment segment_low]
        (two_segment_image segment_low segment_overlapping, 0) (0x1000280 + k)
        (by
          intro s2 h2 hw
          simp only [List.mem_singleton, Command.segment.injEq] at h2
          subst h2
          have := (segment_writes_range board 0x1000 segment_low _ (by decide) (by decide)
            (by decide)).mp hw
          rw [ht0] at this
          have hd : segment_low.dst_len = 0x20 := rfl
          rw [hd] at this
          omega)
      rw [hfr]
      have hall : (List.range 0x8).all (fun j => decide
          (two_segment_image segment_low segment_overlapping (0x1000280 + j) = 0x81 + j)) =
          true := by decide
      rw [List.all_eq_true] at hall
      exact of_decide_eq_true (hall k (List.mem_range.mpr hk8))
    · rw [if_neg hk8, if_neg hk8]
  · rw [List.all_eq_true]
    intro k hk
    have hk2 := List.mem_range.mp hk
    apply decide_eq_true
    have h := (load_mach_o_image_last_write board _ 0 0x1000000 []
      [Command.segment segment_overlapping] segment_low k (by decide) (by decide) hpres hdec2
      hlen (by
        have hd : segment_low.dst_len = 0x20 := rfl
        rw [hd]
        omega)
      (by
        intro s2 h2
        simp only [List.mem_singleton, Command.segment.injEq] at h2
        subst h2
        rw [hb, ht0, ht1]
        omega)).2.2
    rw [hb, ht0, hs0] at h
    rw [h]
    have hsl : segment_low.src_len = 0x10 := rfl
    rw [hsl, if_pos hk2]
    have hall : (List.range 0x10).all (fun j => decide
        (two_segment_image segment_low segment_overlapping (0x1000200 + j) = 1 + j)) =
        true := by decide
    rw [List.all_eq_true] at hall
    exact of_decide_eq_true (hall k (List.mem_range.mpr hk2))

/-! ## The bytes the tree walker reads -/

theorem afdt_properties_exact_ge (m : Mem) (afdt n off : Nat) :
    off ≤ afdt_properties_exact m afdt n off := by
  induction n generalizing off with
  | zero => exact Nat.le_refl _
  | succ n ih =>
    rw [afdt_properties_exact]
    exact le_trans (Nat.le_add_right _ _) (ih _)

theorem afdt_children_exact_ge (child : Nat → Option Nat) (afdt n off len : Nat)
    (h : afdt_children_exact child afdt n off = some len) : off ≤ len := by
  induction n generalizing off with
  | zero =>
    rw [afdt_children_exact] at h
    cases h
    exact Nat.le_refl _
  | succ n ih =>
    rw [afdt_children_exact] at h
    split at h
    · cases h
    · exact le_trans (Nat.le_add_right _ _) (ih _ h)

theorem afdt_length_exact_ge (m : Mem) (fuel afdt len : Nat)
    (h : afdt_length_exact m fuel afdt = some len) : 8 ≤ len := by
  cases fuel with
  | zero =>
    rw [afdt_length_exact] at h
    cases h
  | succ fuel =>
    rw [afdt_length_exact] at h
    exact le_trans (afdt_properties_exact_ge m afdt _ 8) (afdt_children_exact_ge _ _ _ _ _ h)

theorem rdLE_shift (m1 m2 : Mem) (b1 b2 n : Nat) (h : ∀ k, k < n → m2 (b2 + k) = m1 (b1 + k)) :
    rdLE m2 b2 n = rdLE m1 b1 n := by
  induction n generalizing b1 b2 with
  | zero => rfl
  | succ n ih =>
    have h0 : m2 b2 = m1 b1 := by simpa using h 0 (Nat.succ_pos n)
    have hs : rdLE m2 (b2 + 1) n = rdLE m1 (b1 + 1) n :=
      ih (b1 + 1) (b2 + 1) (fun k hk => by
        have := h (k + 1) (by omega)
        rw [Nat.add_assoc, Nat.add_assoc, Nat.add_comm 1 k]
        exact this)
    rw [rdLE, rdLE, hs]
    unfold rd8
    rw [h0]

theorem rd32_shift (m1 m2 : Mem) (a1 a2 off len : Nat) (hoff : off + 4 ≤ len)
    (hagree : ∀ k, k < len → m2 (a2 + k) = m1 (a1 + k)) :
    rd32 m2 (a2 + off) = rd32 m1 (a1 + off) := by
  unfold rd32
  apply rdLE_shift
  intro k hk
  rw [Nat.add_assoc, Nat.add_assoc]
  exact hagree (off + k) (by omega)

/-- The first loop on a second buffer that agrees with the first on the bytes the
unbounded loop covers there. -/
theorem afdt_properties_of_exact (m1 m2 : Mem) (a1 a2 n off len : Nat)
    (hr : afdt_properties_exact m1 a1 n off ≤ len) (h32 : len < 2 ^ 32)
    (h2 : a2 + len ≤ 2 ^ 64)
    (hagree : ∀ k, k < len → m2 (a2 + k) = m1 (a1 + k)) :
    afdt_properties m2 a2 n off = afdt_properties_exact m1 a1 n off := by
  induction n generalizing off with
  | zero => rfl
  | succ n ih =>
    rw [afdt_properties_exact] at hr
    have hge := afdt_properties_exact_ge m1 a1 n
      (off + (sizeof_afdt_property + padded (property_length m1 (a1 + off))))
    have hpad := padded_ge (property_length m1 (a1 + off))
    unfold sizeof_afdt_property at hr hge
    have hadd : uptr_add a2 off = a2 + off := by
      unfold uptr_add
      exact Nat.mod_eq_of_lt (by omega)
    have hfield : property_length m2 (a2 + off) = property_length m1 (a1 + off) := by
      unfold property_length
      rw [Nat.add_assoc, Nat.add_assoc]
      exact rd32_shift m1 m2 a1 a2 (off + 32) len (by omega) hagree
    rw [afdt_properties, afdt_properties_exact]
    rw [hadd, hfield, roundup_four _ (by omega)]
    unfold sizeof_afdt_property
    rw [Nat.mod_eq_of_lt (by omega)]
    exact ih _ hr

/-- The second loop on a second buffer, when the recursive call there returns what
the unbounded call returns on the first buffer. -/
theorem afdt_children_of_exact (child1 child2 : Nat → Option Nat) (a1 a2 n off len : Nat)
    (hr : afdt_children_exact child1 a1 n off = some len) (h32 : len < 2 ^ 32)
    (h2 : a2 + len ≤ 2 ^ 64)
    (hchild : ∀ o l, child1 (a1 + o) = some l → o + l ≤ len → child2 (a2 + o) = some l ∧ 8 ≤ l) :
    afdt_children child2 a2 n off = some len := by
  induction n generalizing off with
  | zero =>
    rw [afdt_children_exact] at hr
    rw [afdt_children]
    exact hr
  | succ n ih =>
    rw [afdt_children_exact] at hr
    cases hc : child1 (a1 + off) with
    | none =>
      rw [hc] at hr
      cases hr
    | some l =>
      rw [hc] at hr
      simp only at hr
      have hge := afdt_children_exact_ge _ _ _ _ _ hr
      obtain ⟨h2c, hl8⟩ := hchild off l hc hge
      have hadd : uptr_add a2 off = a2 + off := by
        unfold uptr_add
        exact Nat.mod_eq_of_lt (by omega)
      rw [afdt_children, hadd, h2c]
      simp only
      rw [Nat.mod_eq_of_lt (by omega)]
      exact ih _ hr

/-- The walker on a second buffer that agrees with the first on the extent the
unbounded walk reports there. -/
theorem afdt_length_of_exact (m1 m2 : Mem) (fuel a1 a2 len : Nat)
    (hr : afdt_length_exact m1 fuel a1 = some len) (h32 : len < 2 ^ 32)
    (h2 : a2 + len ≤ 2 ^ 64)
    (hagree : ∀ k, k < len → m2 (a2 + k) = m1 (a1 + k)) :
    afdt_length m2 fuel a2 = some len := by
  induction fuel generalizing a1 a2 len with
  | zero =>
    rw [afdt_length_exact] at hr
    cases hr
  | succ fuel ih =>
    rw [afdt_length_exact] at hr
    have hge1 := afdt_properties_exact_ge m1 a1 (node_properties_nb m1 a1) sizeof_afdt_node
    have hge2 := afdt_children_exact_ge _ _ _ _ _ hr
    unfold sizeof_afdt_node at hge1 hge2
    have hnp : node_properties_nb m2 a2 = node_properties_nb m1 a1 := by
      unfold node_properties_nb
      have := rd32_shift m1 m2 a1 a2 0 len (by omega) hagree
      simpa using this
    have hnc : node_children_nb m2 a2 = node_children_nb m1 a1 := by
      unfold node_children_nb
      exact rd32_shift m1 m2 a1 a2 4 len (by omega) hagree
    have hprops := afdt_properties_of_exact m1 m2 a1 a2 (node_properties_nb m1 a1)
      sizeof_afdt_node len (by unfold sizeof_afdt_node; omega) h32 h2 hagree
    rw [afdt_length, hnp, hnc, hprops]
    apply afdt_children_of_exact (afdt_length_exact m1 fuel) (afdt_length m2 fuel) a1 a2 _ _ len
      hr h32 h2
    intro o l hc hol
    refine ⟨?_, afdt_length_exact_ge m1 fuel _ l hc⟩
    apply ih (a1 + o) (a2 + o) l hc (by omega) (by omega)
    intro k hk
    rw [Nat.add_assoc, Nat.add_assoc]
    exact hagree (o + k) (by omega)

/-- C19: when the walk of a first buffer, taken without wrap-around, ends after
`len < 2 ^ 32` bytes inside the address space, `afdt_length` returns `len` on it and
on every second buffer, inside the address space, whose first `len` bytes are the
same: it reads only bytes of the extent it reports. So in a run of `do_bootxnu` that
reaches the entry transfer, the copy of the tree blob at `afdt`, the first `len` bytes
of a blob that lies outside the block, is a tree whose walked length is the
`afdt_length` member. -/
theorem afdt_length_reads_extent (m1 m2 : Mem) (fuel a1 a2 len : Nat)
    (hwalk : afdt_length_exact m1 fuel a1 = some len) (h32 : len < 2 ^ 32)
    (h1 : a1 + len ≤ 2 ^ 64) (h2 : a2 + len ≤ 2 ^ 64)
    (hagree : ∀ k, k < len → m2 (a2 + k) = m1 (a1 + k)) :
    afdt_length m1 fuel a1 = some len ∧ afdt_length m2 fuel a2 = some len ∧
      ∀ (cfg : Config) (pf : Platform) (m : Mem) (e : Nat) (argc : Int) (argv : List String)
        (r : Run) (h : Handoff),
        do_bootxnu cfg pf fuel m e argc argv = some r → r.handoff = some h →
        memory_at_walk cfg pf m e argv = m1 → fdt_image_addr pf argv = a1 →
        h.boot_args + sizeof_xnu_boot_arguments + len ≤ 2 ^ 64 →
        (∀ k, k < len → a1 + k < h.boot_args ∨
          h.boot_args + sizeof_xnu_boot_arguments ≤ a1 + k) →
        rd32 h.mem (h.boot_args + off_afdt_length) = len ∧
          afdt_length h.mem fuel (rd64 h.mem (h.boot_args + off_afdt)) = some len := by
  refine ⟨afdt_length_of_exact m1 m1 fuel a1 a1 len hwalk h32 h1 (fun _ _ => rfl),
    afdt_length_of_exact m1 m2 fuel a1 a2 len hwalk h32 h2 hagree, ?_⟩
  intro cfg pf m e argc argv r h hrun hh hm1 ha1 hfit hout
  obtain ⟨len2, hL, _, _, _, hafdt, hal, hcopy⟩ :=
    do_bootxnu_appended cfg pf fuel m e argc argv r h hrun hh
  have hb := afdt_length_of_exact m1 m1 fuel a1 a1 len hwalk h32 h1 (fun _ _ => rfl)
  rw [hm1, ha1, hb] at hL
  have hlen : len2 = len := (Option.some.inj hL).symm
  subst hlen
  refine ⟨hal, ?_⟩
  unfold sizeof_xnu_boot_arguments at hfit hout
  have hP : uptr_add h.boot_args sizeof_xnu_boot_arguments = h.boot_args + 736 := by
    unfold uptr_add sizeof_xnu_boot_arguments
    have := afdt_length_exact_ge m1 fuel a1 len2 hwalk
    exact Nat.mod_eq_of_lt (by omega)
  rw [hafdt, hP]
  apply afdt_length_of_exact m1 h.mem fuel a1 (h.boot_args + 736) len2 hwalk h32 (by omega)
  intro k hk
  have hc := hcopy k hk
  rw [hP, hm1, ha1] at hc
  rw [hc]
  unfold wr32
  rw [wrLE_outside _ _ _ _ _ (by
    have := hout k hk
    unfold off_afdt_length
    omega)]

set_option maxRecDepth 100000 in
/-- C19, witness: the blob of the scenario, 52 bytes long, and its copy in the run. -/
theorem afdt_length_reads_extent_witness :
    afdt_length_exact scenario_memory 1 0x2000000 = some 52 ∧
      afdt_length scenario_memory 1 0x2000000 = some 52 ∧
      afdt_length (scenario_handoff none).mem 1 0x80004300 = some 52 ∧
      rd32 (scenario_handoff none).mem ((scenario_handoff none).boot_args + off_afdt_length) =
        52 := by
  have h := afdt_length_reads_extent scenario_memory (scenario_handoff none).mem 1 0x2000000
    0x80004300 52 (by decide) (by decide) (by decide) (by decide)
    (by
      intro k hk
      have hall : (List.range 52).all (fun j => decide
          ((scenario_handoff none).mem (0x80004300 + j) = scenario_memory (0x2000000 + j))) =
          true := by decide
      rw [List.all_eq_true] at hall
      exact of_decide_eq_true (hall k (List.mem_range.mpr hk)))
  exact ⟨by decide, h.1, h.2.1, by decide⟩

/-! ## The two loops on decoded commands, and runs on two memories -/

/-- The first loop is the fold of `range_command` over the decoded commands. -/
theorem find_range_eq (cfg : Config) (m : Mem) (n lc : Nat) (ret : mach_o_load_info) :
    find_range cfg m n lc ret =
      range_commands ((command_addrs m n lc).map (command_at cfg m)) ret := by
  induction n generalizing lc ret with
  | zero => rfl
  | succ n ih =>
    simp only [find_range, command_addrs, List.map_cons, range_commands, List.foldl_cons]
    rw [ih]
    unfold range_commands
    congr 1
    unfold command_at
    by_cases hc : lc_command m lc = LOAD_COMMAND_SEGMENT cfg
    · rw [if_pos hc, if_pos hc]
      rfl
    · rw [if_neg hc, if_neg hc]
      split <;> rfl

theorem command_addrs_length (m : Mem) (n lc : Nat) : (command_addrs m n lc).length = n := by
  induction n generalizing lc with
  | zero => rfl
  | succ n ih =>
    rw [command_addrs, List.length_cons, ih]

theorem range_commands_append (l1 l2 : List Command) (ret : mach_o_load_info) :
    range_commands (l1 ++ l2) ret = range_commands l2 (range_commands l1 ret) := by
  unfold range_commands
  rw [List.foldl_append]

/-- What `load_mach_o_image` returns as `base` and `end`, over the decoded commands. -/
theorem load_mach_o_image_range_commands (cfg : Config) (m : Mem) (e image : Nat)
    (hmagic : header_magic m image = MACH_O_MAGIC cfg)
    (htype : header_file_type m image = MACH_O_EXEC) :
    (load_mach_o_image cfg m e image).2.base =
        (range_commands (decoded_commands cfg m image)
          { base := 2 ^ 64 - 1, entry := e, end_ := 0 }).base ∧
      (load_mach_o_image cfg m e image).2.end_ =
        (range_commands (decoded_commands cfg m image)
          { base := 2 ^ 64 - 1, entry := e, end_ := 0 }).end_ := by
  obtain ⟨hb, he⟩ := load_mach_o_image_info cfg m e image hmagic htype
  rw [hb, he, find_range_eq]
  exact ⟨rfl, rfl⟩

/-- The stores of one segment on two memories that agree on its source bytes agree
at every address the segment stores to, and wherever the memories agreed. -/
theorem store_segment_congr (cfg : Config) (image base : Nat) (s : Segment) (ma mb : Mem)
    (x : Nat)
    (hsrc : ∀ j, j < s.src_len → mb (segment_source image s + j) = ma (segment_source image s + j))
    (hx : mb x = ma x ∨ segment_writes cfg base s x) :
    store_segment cfg image base s mb x = store_segment cfg image base s ma x := by
  have hcopy : ∀ (c : Prop) [Decidable c] (y : Nat),
      (mb y = ma y ∨ (c ∧ segment_target cfg base s ≤ y ∧
        y < segment_target cfg base s + s.src_len)) →
      (if c then memcpy mb (segment_target cfg base s) (segment_source image s) s.src_len
        else mb) y =
      (if c then memcpy ma (segment_target cfg base s) (segment_source image s) s.src_len
        else ma) y := by
    intro c _ y hy
    by_cases hc : c
    · rw [if_pos hc, if_pos hc]
      unfold memcpy
      by_cases hr : segment_target cfg base s ≤ y ∧ y < segment_target cfg base s + s.src_len
      · rw [if_pos hr, if_pos hr]
        exact hsrc _ (by omega)
      · rw [if_neg hr, if_neg hr]
        rcases hy with hy | hy
        · exact hy
        · exact absurd hy.2 hr
    · rw [if_neg hc, if_neg hc]
      rcases hy with hy | hy
      · exact hy
      · exact absurd hy.1 hc
  unfold store_segment
  by_cases hz : s.src_len ≠ s.dst_len ∧ s.dst_len ≠ 0
  · rw [if_pos hz, if_pos hz]
    unfold memset
    by_cases hr : uptr_add (segment_target cfg base s) s.src_len ≤ x ∧
        x < uptr_add (segment_target cfg base s) s.src_len + uptr_sub s.dst_len s.src_len
    · rw [if_pos hr, if_pos hr]
    · rw [if_neg hr, if_neg hr]
      apply hcopy
      rcases hx with hx | hx
      · exact Or.inl hx
      · unfold segment_writes at hx
        rcases hx with ⟨h1, h2, h3, h4⟩ | ⟨_, _, h3, h4⟩
        · exact Or.inr ⟨⟨h1, h2⟩, h3, h4⟩
        · exact absurd ⟨h3, h4⟩ hr
  · rw [if_neg hz, if_neg hz]
    apply hcopy
    rcases hx with hx | hx
    · exact Or.inl hx
    · unfold segment_writes at hx
      rcases hx with ⟨h1, h2, h3, h4⟩ | ⟨h1, h2, _, _⟩
      · exact Or.inr ⟨⟨h1, h2⟩, h3, h4⟩
      · exact absurd ⟨h1, h2⟩ hz

/-- The second loop on two memories that agree on the source bytes of every segment
of the list: the memories it leaves agree at every address a segment of the list
stores to, and wherever the two memories agreed. -/
theorem run_commands_congr (cfg : Config) (image base : Nat) (l : List Command)
    (st1 st2 : Mem × Nat)
    (hsrc : ∀ s, Command.segment s ∈ l → ∀ j, j < s.src_len →
      st2.1 (segment_source image s + j) = st1.1 (segment_source image s + j))
    (x : Nat)
    (hx : st2.1 x = st1.1 x ∨ ∃ s, Command.segment s ∈ l ∧ segment_writes cfg base s x) :
    (run_commands cfg image base l st2).1 x = (run_commands cfg image base l st1).1 x := by
  induction l generalizing st1 st2 with
  | nil =>
    rcases hx with hx | ⟨s, hs, _⟩
    · exact hx
    · cases hs
  | cons c l ih =>
    simp only [run_commands, List.foldl_cons]
    have hstep : ∀ y, (st2.1 y = st1.1 y ∨
        ∃ s, c = Command.segment s ∧ segment_writes cfg base s y) →
        (run_command cfg image base st2 c).1 y = (run_command cfg image base st1 c).1 y := by
      intro y hy
      cases c with
      | segment s =>
        simp only [run_command]
        apply store_segment_congr cfg image base s st1.1 st2.1 y
          (hsrc s (List.mem_cons_self _ _))
        rcases hy with hy | ⟨s2, h2, hw⟩
        · exact Or.inl hy
        · cases h2
          exact Or.inr hw
      | unixthread pc =>
        rcases hy with hy | ⟨s2, h2, _⟩
        · exact hy
        · cases h2
      | other =>
        rcases hy with hy | ⟨s2, h2, _⟩
        · exact hy
        · cases h2
    have hrest := ih (run_command cfg image base st1 c) (run_command cfg image base st2 c)
      (fun s hs j hj => hstep _ (Or.inl (hsrc s (List.mem_cons_of_mem _ hs) j hj)))
      (by
        rcases hx with hx | ⟨s, hs, hw⟩
        · exact Or.inl (hstep x (Or.inl hx))
        · rcases List.mem_cons.mp hs with hs | hs
          · exact Or.inl (hstep x (Or.inr ⟨s, hs.symm, hw⟩))
          · exact Or.inr ⟨s, hs, hw⟩)
    simp only [run_commands] at hrest
    exact hrest

/-- The entry the second loop leaves depends on the command list and on the entry
it starts with, not on the memory. -/
theorem run_commands_entry_congr (cfg : Config) (image base1 base2 : Nat) (l : List Command)
    (st1 st2 : Mem × Nat) (h : st2.2 = st1.2) :
    (run_commands cfg image base2 l st2).2 = (run_commands cfg image base1 l st1).2 := by
  induction l generalizing st1 st2 with
  | nil => exact h
  | cons c l ih =>
    simp only [run_commands, List.foldl_cons]
    have hrest := ih (run_command cfg image base1 st1 c) (run_command cfg image base2 st2 c)
      (by
        cases c with
        | segment s => exact h
        | unixthread pc => rfl
        | other => exact h)
    simp only [run_commands] at hrest
    exact hrest

/-- A command that is neither a segment nor a thread command leaves both loops
where they stood. -/
theorem run_commands_skip (cfg : Config) (image base : Nat) (l1 l2 : List Command)
    (st : Mem × Nat) :
    run_commands cfg image base (l1 ++ Command.other :: l2) st =
      run_commands cfg image base (l1 ++ l2) st := by
  rw [run_commands_append, run_commands_append]
  rfl

theorem range_commands_skip (l1 l2 : List Command) (ret : mach_o_load_info) :
    range_commands (l1 ++ Command.other :: l2) ret = range_commands (l1 ++ l2) ret := by
  rw [range_commands_append, range_commands_append]
  rfl

theorem range_commands_entry (l : List Command) (ret : mach_o_load_info) (e2 : Nat) :
    (range_commands l { ret with entry := e2 }).base = (range_commands l ret).base ∧
      (range_commands l { ret with entry := e2 }).end_ = (range_commands l ret).end_ := by
  induction l generalizing ret with
  | nil => exact ⟨rfl, rfl⟩
  | cons c l ih =>
    have hstep : range_command { ret with entry := e2 } c =
        { range_command ret c with entry := e2 } := by
      cases c <;> rfl
    simp only [range_commands, List.foldl_cons] at ih ⊢
    rw [hstep]
    exact ih (range_command ret c)

/-- The entry the second loop leaves does not depend on the entry it starts with
when the list holds a thread command. -/
theorem run_commands_entry_determined (cfg : Config) (image base1 base2 : Nat)
    (l : List Command) (st1 st2 : Mem × Nat)
    (h : st2.2 = st1.2 ∨ ∃ pc, Command.unixthread pc ∈ l) :
    (run_commands cfg image base2 l st2).2 = (run_commands cfg image base1 l st1).2 := by
  induction l generalizing st1 st2 with
  | nil =>
    rcases h with h | ⟨pc, hpc⟩
    · exact h
    · cases hpc
  | cons c l ih =>
    simp only [run_commands, List.foldl_cons]
    have hrest := ih (run_command cfg image base1 st1 c) (run_command cfg image base2 st2 c)
      (by
        cases c with
        | segment s =>
          rcases h with h | ⟨pc, hpc⟩
          · exact Or.inl h
          · rcases List.mem_cons.mp hpc with hpc | hpc
            · cases hpc
            · exact Or.inr ⟨pc, hpc⟩
        | unixthread pc => exact Or.inl rfl
        | other =>
          rcases h with h | ⟨pc, hpc⟩
          · exact Or.inl h
          · rcases List.mem_cons.mp hpc with hpc | hpc
            · cases hpc
            · exact Or.inr ⟨pc, hpc⟩)
    simp only [run_commands] at hrest
    exact hrest

/-- C15: two memories hold an image at the same address, both with a matching header
and with a command count and list that the load does not store over. The command list
of the second is `pre ++ lc :: post`, where the tag of `lc` is neither the segment tag
nor the unix-thread tag, and the commands of the first are those of `pre ++ post`;
the source bytes of each segment are the same in both. Then `load_mach_o_image`
returns the same `base` and `end` for both, and the same `(base, entry, end)` when
the uninitialised `entry` is the same or a thread command sets it; it stores to the
same addresses and leaves the same byte at each of them (and wherever the memories
agreed); the second image announces one more command. -/
theorem load_mach_o_image_skips_unrecognized (cfg : Config) (m1 m2 : Mem) (e e2 image lc : Nat)
    (pre post : List Nat)
    (hmagic1 : header_magic m1 image = MACH_O_MAGIC cfg)
    (htype1 : header_file_type m1 image = MACH_O_EXEC)
    (hmagic2 : header_magic m2 image = MACH_O_MAGIC cfg)
    (htype2 : header_file_type m2 image = MACH_O_EXEC)
    (hpres1 : commands_preserved cfg m1 image (load_mach_o_image cfg m1 e image).2.base)
    (hpres2 : commands_preserved cfg m2 image (load_mach_o_image cfg m2 e2 image).2.base)
    (hlist : image_commands cfg m2 image = pre ++ lc :: post)
    (htag : lc_command m2 lc ≠ LOAD_COMMAND_SEGMENT cfg ∧
      lc_command m2 lc ≠ LOAD_COMMAND_UNIXTHREAD)
    (hsame : decoded_commands cfg m1 image = (pre ++ post).map (command_at cfg m2))
    (hsrc : ∀ s, Command.segment s ∈ decoded_commands cfg m1 image → ∀ j, j < s.src_len →
      m2 (segment_source image s + j) = m1 (segment_source image s + j)) :
    (load_mach_o_image cfg m2 e2 image).2.base = (load_mach_o_image cfg m1 e image).2.base ∧
      (load_mach_o_image cfg m2 e2 image).2.end_ = (load_mach_o_image cfg m1 e image).2.end_ ∧
      ((e2 = e ∨ ∃ pc, Command.unixthread pc ∈ decoded_commands cfg m1 image) →
        (load_mach_o_image cfg m2 e2 image).2 = (load_mach_o_image cfg m1 e image).2) ∧
      header_commands_nb m2 image = header_commands_nb m1 image + 1 ∧
      (∀ s, Command.segment s ∈ decoded_commands cfg m2 image ↔
        Command.segment s ∈ decoded_commands cfg m1 image) ∧
      ∀ x, (m2 x = m1 x ∨ ∃ s, Command.segment s ∈ decoded_commands cfg m1 image ∧
          segment_writes cfg (load_mach_o_image cfg m1 e image).2.base s x) →
        (load_mach_o_image cfg m2 e2 image).1 x = (load_mach_o_image cfg m1 e image).1 x := by
  have hother : command_at cfg m2 lc = Command.other := by
    unfold command_at
    rw [if_neg htag.1, if_neg htag.2]
  have hdec2 : decoded_commands cfg m2 image =
      pre.map (command_at cfg m2) ++ Command.other :: post.map (command_at cfg m2) := by
    unfold decoded_commands
    rw [hlist, List.map_append, List.map_cons, hother]
  have hdec1 : decoded_commands cfg m1 image =
      pre.map (command_at cfg m2) ++ post.map (command_at cfg m2) := by
    rw [hsame, List.map_append]
  obtain ⟨hb1, he1⟩ := load_mach_o_image_range_commands cfg m1 e image hmagic1 htype1
  obtain ⟨hb2, he2⟩ := load_mach_o_image_range_commands cfg m2 e2 image hmagic2 htype2
  rw [hdec2, range_commands_skip, ← hdec1] at hb2 he2
  have hre := range_commands_entry (decoded_commands cfg m1 image)
    { base := 2 ^ 64 - 1, entry := e, end_ := 0 } e2
  have hbase : (load_mach_o_image cfg m2 e2 image).2.base =
      (load_mach_o_image cfg m1 e image).2.base := by
    rw [hb1, hb2]
    exact hre.1
  have hend : (load_mach_o_image cfg m2 e2 image).2.end_ =
      (load_mach_o_image cfg m1 e image).2.end_ := by
    rw [he1, he2]
    exact hre.2
  obtain ⟨hm1, hen1⟩ := load_mach_o_image_eq cfg m1 e image hmagic1 htype1 hpres1
  obtain ⟨hm2, hen2⟩ := load_mach_o_image_eq cfg m2 e2 image hmagic2 htype2 hpres2
  rw [hdec2, run_commands_skip, ← hdec1] at hm2 hen2
  refine ⟨hbase, hend, ?_, ?_, ?_, ?_⟩
  · intro hc
    have hentry : (load_mach_o_image cfg m2 e2 image).2.entry =
        (load_mach_o_image cfg m1 e image).2.entry := by
      rw [hen1, hen2]
      exact run_commands_entry_determined cfg image _ _ _ (m1, e) (m2, e2) hc
    cases h2 : (load_mach_o_image cfg m2 e2 image).2
    cases h1 : (load_mach_o_image cfg m1 e image).2
    rw [h2, h1] at hbase hentry hend
    simp only at hbase hentry hend
    rw [hbase, hentry, hend]
  · have hl2 : (image_commands cfg m2 image).length = header_commands_nb m2 image := by
      unfold image_commands
      exact command_addrs_length _ _ _
    have hl1 : (decoded_commands cfg m1 image).length = header_commands_nb m1 image := by
      unfold decoded_commands image_commands
      rw [List.length_map]
      exact command_addrs_length _ _ _
    rw [hlist] at hl2
    rw [hsame] at hl1
    simp only [List.length_append, List.length_cons, List.length_map] at hl1 hl2
    omega
  · intro s
    rw [hdec2, hdec1]
    simp only [List.mem_append, List.mem_cons]
    constructor
    · rintro (h | h | h)
      · exact Or.inl h
      · cases h
      · exact Or.inr h
    · rintro (h | h)
      · exact Or.inl h
      · exact Or.inr (Or.inr h)
  · intro x hx
    rw [hm1, hm2, hbase]
    exact run_commands_congr cfg image _ _ (m1, e) (m2, e2) hsrc x hx

set_option maxRecDepth 100000 in
/-- C15, witness: `scenario_memory_inserted` against `scenario_memory`: the same
`(base, entry, end) = (0x1000, 0x1008, 0x1020)` and the same 32 bytes stored at
`0x80004000`. -/
theorem load_mach_o_image_skips_unrecognized_witness :
    (load_mach_o_image board scenario_memory_inserted 7 0x1000000).2 =
        { base := 0x1000, entry := 0x1008, end_ := 0x1020 } ∧
      (load_mach_o_image board scenario_memory_inserted 7 0x1000000).2 =
        (load_mach_o_image board scenario_memory 0 0x1000000).2 ∧
      header_commands_nb scenario_memory_inserted 0x1000000 = 3 ∧
      (List.range 0x20).all (fun k => decide
        ((load_mach_o_image board scenario_memory_inserted 7 0x1000000).1 (0x80004000 + k) =
          (load_mach_o_image board scenario_memory 0 0x1000000).1 (0x80004000 + k))) = true := by
  have hb1 : (load_mach_o_image board scenario_memory 0 0x1000000).2.base = 0x1000 := by decide
  have hb2 : (load_mach_o_image board scenario_memory_inserted 7 0x1000000).2.base = 0x1000 := by
    decide
  have hdec : decoded_commands board scenario_memory 0x1000000 =
      [Command.segment { dst := 0x1000, dst_len := 0x20, src_offset := 0x40, src_len := 0x10 },
        Command.unixthread 0x1008] := by decide
  have hpres2 : commands_preserved board scenario_memory_inserted 0x1000000
      (load_mach_o_image board scenario_memory_inserted 7 0x1000000).2.base := by
    rw [hb2]
    exact commands_preserved_of_within board _ 0x1000000 0x1000 0x200 0x80004000 0x80004020
      (by decide) (by decide) (by decide) (by decide) (by decide)
  have hmem : ∀ s, Command.segment s ∈ decoded_commands board scenario_memory 0x1000000 →
      s = { dst := 0x1000, dst_len := 0x20, src_offset := 0x40, src_len := 0x10 } := by
    intro s hs
    rw [hdec] at hs
    simp only [List.mem_cons, Command.segment.injEq, List.mem_singleton, List.not_mem_nil,
      or_false] at hs
    rcases hs with hs | hs
    · exact hs
    · cases hs
  have h := load_mach_o_image_skips_unrecognized board scenario_memory scenario_memory_inserted 0
    7 0x1000000 0x1000068 [0x1000020] [0x1000080] (by decide) (by decide) (by decide) (by decide)
    scenario_memory_preserved hpres2 (by decide) (by decide) (by decide)
    (by
      intro s hs j hj
      rw [hmem s hs] at hj ⊢
      have hsrc : segment_source 0x1000000
          { dst := 0x1000, dst_len := 0x20, src_offset := 0x40, src_len := 0x10 } =
          0x1000040 := by decide
      rw [hsrc]
      have hall : (List.range 0x10).all (fun i => decide
          (scenario_memory_inserted (0x1000040 + i) = scenario_memory (0x1000040 + i))) =
          true := by decide
      rw [List.all_eq_true] at hall
      exact of_decide_eq_true (hall j (List.mem_range.mpr hj)))
  refine ⟨by decide, h.2.2.1 (Or.inr ⟨0x1008, by rw [hdec]; decide⟩), by decide, ?_⟩
  rw [List.all_eq_true]
  intro k hk
  have hk2 := List.mem_range.mp hk
  apply decide_eq_true
  apply h.2.2.2.2.2
  right
  refine ⟨{ dst := 0x1000, dst_len := 0x20, src_offset := 0x40, src_len := 0x10 }, ?_, ?_⟩
  · rw [hdec]
    exact List.mem_cons_self _ _
  · rw [hb1]
    apply (segment_writes_range board 0x1000 _ _ (by decide) (by decide) (by decide)).mpr
    have ht : segment_target board 0x1000
        { dst := 0x1000, dst_len := 0x20, src_offset := 0x40, src_len := 0x10 } =
        0x80004000 := by decide
    rw [ht]
    constructor
    · omega
    · show 0x80004000 + k < 0x80004000 + 0x20
      omega

/-! ## The order of the commands -/

theorem range_command_comm (ret : mach_o_load_info) (c1 c2 : Command) :
    range_command (range_command ret c1) c2 = range_command (range_command ret c2) c1 := by
  cases c1 <;> cases c2 <;> try rfl
  rename_i s1 s2
  simp only [range_command, mach_o_load_info.mk.injEq, true_and]
  constructor
  · rw [Nat.min_left_comm]
  · rw [Nat.max_left_comm]

/-- The first loop gives the same result on two lists with the same commands. -/
theorem range_commands_perm (l1 l2 : List Command) (h : l1.Perm l2) (ret : mach_o_load_info) :
    range_commands l1 ret = range_commands l2 ret := by
  unfold range_commands
  exact h.foldl_eq' (fun x _ y _ z => range_command_comm z x y) ret

/-- C16: two memories hold an image at the same address, both with a matching header
and with a command count and list that the load does not store over, and the decoded
command list of the second is a permutation of the one of the first. Every segment has
`src_len ≤ dst_len` and a target region inside the address space, the target regions
of different segments do not overlap, no segment is stored over source bytes of a
segment, and the source bytes of each segment are the same in both memories. Then
`load_mach_o_image` returns the same `base` and `end` for both, and leaves the same
byte at every address of a target region (and wherever the memories agreed): there the
copied source byte, or zero beyond `src_len`. -/
theorem load_mach_o_image_order_independent (cfg : Config) (m1 m2 : Mem) (e image : Nat)
    (hmagic1 : header_magic m1 image = MACH_O_MAGIC cfg)
    (htype1 : header_file_type m1 image = MACH_O_EXEC)
    (hmagic2 : header_magic m2 image = MACH_O_MAGIC cfg)
    (htype2 : header_file_type m2 image = MACH_O_EXEC)
    (hpres1 : commands_preserved cfg m1 image (load_mach_o_image cfg m1 e image).2.base)
    (hpres2 : commands_preserved cfg m2 image (load_mach_o_image cfg m2 e image).2.base)
    (hperm : (decoded_commands cfg m2 image).Perm (decoded_commands cfg m1 image))
    (hlen : ∀ s, Command.segment s ∈ decoded_commands cfg m1 image →
      s.src_len ≤ s.dst_len ∧
        segment_target cfg (load_mach_o_image cfg m1 e image).2.base s + s.dst_len ≤ 2 ^ 64)
    (hapart : ∀ s s2, Command.segment s ∈ decoded_commands cfg m1 image →
      Command.segment s2 ∈ decoded_commands cfg m1 image → s2 ≠ s →
      segment_target cfg (load_mach_o_image cfg m1 e image).2.base s + s.dst_len ≤
          segment_target cfg (load_mach_o_image cfg m1 e image).2.base s2 ∨
        segment_target cfg (load_mach_o_image cfg m1 e image).2.base s2 + s2.dst_len ≤
          segment_target cfg (load_mach_o_image cfg m1 e image).2.base s)
    (hkeep : ∀ s s2, Command.segment s ∈ decoded_commands cfg m1 image →
      Command.segment s2 ∈ decoded_commands cfg m1 image →
      segment_source image s + s.src_len ≤
          segment_target cfg (load_mach_o_image cfg m1 e image).2.base s2 ∨
        segment_target cfg (load_mach_o_image cfg m1 e image).2.base s2 + s2.dst_len ≤
          segment_source image s)
    (hsrc : ∀ s, Command.segment s ∈ decoded_commands cfg m1 image → ∀ j, j < s.src_len →
      m2 (segment_source image s + j) = m1 (segment_source image s + j)) :
    (load_mach_o_image cfg m2 e image).2.base = (load_mach_o_image cfg m1 e image).2.base ∧
      (load_mach_o_image cfg m2 e image).2.end_ = (load_mach_o_image cfg m1 e image).2.end_ ∧
      (∀ s, Command.segment s ∈ decoded_commands cfg m1 image → ∀ k, k < s.dst_len →
        (load_mach_o_image cfg m1 e image).1
            (segment_target cfg (load_mach_o_image cfg m1 e image).2.base s + k) =
          if k < s.src_len then m1 (segment_source image s + k) else 0) ∧
      ∀ x, (m2 x = m1 x ∨ ∃ s, Command.segment s ∈ decoded_commands cfg m1 image ∧
          segment_target cfg (load_mach_o_image cfg m1 e image).2.base s ≤ x ∧
          x < segment_target cfg (load_mach_o_image cfg m1 e image).2.base s + s.dst_len) →
        (load_mach_o_image cfg m2 e image).1 x = (load_mach_o_image cfg m1 e image).1 x := by
  obtain ⟨hb1, he1⟩ := load_mach_o_image_range_commands cfg m1 e image hmagic1 htype1
  obtain ⟨hb2, he2⟩ := load_mach_o_image_range_commands cfg m2 e image hmagic2 htype2
  rw [range_commands_perm _ _ hperm] at hb2 he2
  have hbase : (load_mach_o_image cfg m2 e image).2.base =
      (load_mach_o_image cfg m1 e image).2.base := by rw [hb1, hb2]
  have hm1 := (load_mach_o_image_eq cfg m1 e image hmagic1 htype1 hpres1).1
  have hm2 := (load_mach_o_image_eq cfg m2 e image hmagic2 htype2 hpres2).1
  rw [hbase] at hm2
  have hrange : ∀ s, Command.segment s ∈ decoded_commands cfg m1 image → ∀ x,
      (segment_writes cfg (load_mach_o_image cfg m1 e image).2.base s x ↔
        (segment_target cfg (load_mach_o_image cfg m1 e image).2.base s ≤ x ∧
          x < segment_target cfg (load_mach_o_image cfg m1 e image).2.base s + s.dst_len)) :=
    fun s hs x => segment_writes_range cfg _ s x (hlen s hs).1
      (decoded_segment_lt cfg m1 image s hs).1 (hlen s hs).2
  have hbytes : ∀ (m : Mem) (l : List Command),
      (∀ s, Command.segment s ∈ l ↔ Command.segment s ∈ decoded_commands cfg m1 image) →
      ∀ s, Command.segment s ∈ decoded_commands cfg m1 image → ∀ k, k < s.dst_len →
        (run_commands cfg image (load_mach_o_image cfg m1 e image).2.base l (m, e)).1
            (segment_target cfg (load_mach_o_image cfg m1 e image).2.base s + k) =
          if k < s.src_len then m (segment_source image s + k) else 0 := by
    intro m l hl s hs k hk
    apply run_commands_segment_bytes cfg image _ s m l m e (hlen s hs).1
      (decoded_segment_lt cfg m1 image s hs).1 (hlen s hs).2
    · intro s2 h2 hne x hw hx
      have h2m := (hl s2).mp h2
      have hw2 := (hrange s2 h2m x).mp hw
      have := hapart s s2 hs h2m hne
      omega
    · intro s2 h2 x hw hx
      have h2m := (hl s2).mp h2
      have hw2 := (hrange s2 h2m x).mp hw
      have := hkeep s s2 hs h2m
      omega
    · intro _ _
      rfl
    · exact Or.inl ((hl s).mpr hs)
    · exact hk
  have hmem : ∀ s, Command.segment s ∈ decoded_commands cfg m2 image ↔
      Command.segment s ∈ decoded_commands cfg m1 image := fun s => hperm.mem_iff
  refine ⟨hbase, by rw [he1, he2], ?_, ?_⟩
  · intro s hs k hk
    rw [hm1]
    exact hbytes m1 _ (fun _ => Iff.rfl) s hs k hk
  · intro x hx
    by_cases hin : ∃ s, Command.segment s ∈ decoded_commands cfg m1 image ∧
        segment_target cfg (load_mach_o_image cfg m1 e image).2.base s ≤ x ∧
        x < segment_target cfg (load_mach_o_image cfg m1 e image).2.base s + s.dst_len
    · obtain ⟨s, hs, hx1, hx2⟩ := hin
      obtain ⟨k, rfl⟩ := Nat.exists_eq_add_of_le hx1
      have hk : k < s.dst_len := by omega
      rw [hm1, hm2, hbytes m1 _ (fun _ => Iff.rfl) s hs k hk, hbytes m2 _ hmem s hs k hk]
      by_cases hks : k < s.src_len
      · rw [if_pos hks, if_pos hks]
        exact hsrc s hs k hks
      · rw [if_neg hks, if_neg hks]
    · have hagree : m2 x = m1 x := by
        rcases hx with hx | hx
        · exact hx
        · exact absurd hx hin
      rw [hm1, hm2, run_commands_frame cfg image _ _ (m1, e) x (fun s hs hw =>
          hin ⟨s, hs, (hrange s hs x).mp hw⟩),
        run_commands_frame cfg image _ _ (m2, e) x (fun s hs hw =>
          hin ⟨s, (hmem s).mp hs, (hrange s ((hmem s).mp hs) x).mp hw⟩)]
      exact hagree

set_option maxRecDepth 100000 in
/-- C16, witness: `segment_low` and `segment_apart` in the two orders: the same
`base = 0x1000` and `end = 0x1060`, and the same bytes in the two target regions
`[0x80004000, 0x80004020)` and `[0x80004040, 0x80004060)`. -/
theorem load_mach_o_image_order_independent_witness :
    (load_mach_o_image board (two_segment_image segment_apart segment_low) 0 0x1000000).2.base =
        0x1000 ∧
      (load_mach_o_image board (two_segment_image segment_low segment_apart) 0 0x1000000).2.base =
        0x1000 ∧
      (load_mach_o_image board (two_segment_image segment_apart segment_low) 0 0x1000000).2.end_ =
        (load_mach_o_image board (two_segment_image segment_low segment_apart) 0
          0x1000000).2.end_ ∧
      (List.range 0x20).all (fun k => decide
        ((load_mach_o_image board (two_segment_image segment_apart segment_low) 0 0x1000000).1
            (0x80004000 + k) =
          (load_mach_o_image board (two_segment_image segment_low segment_apart) 0 0x1000000).1
            (0x80004000 + k))) = true ∧
      (List.range 0x20).all (fun k => decide
        ((load_mach_o_image board (two_segment_image segment_apart segment_low) 0 0x1000000).1
            (0x80004040 + k) =
          (load_mach_o_image board (two_segment_image segment_low segment_apart) 0 0x1000000).1
            (0x80004040 + k))) = true := by
  have hb1 : (load_mach_o_image board (two_segment_image segment_low segment_apart) 0
      0x1000000).2.base = 0x1000 := by decide
  have hb2 : (load_mach_o_image board (two_segment_image segment_apart segment_low) 0
      0x1000000).2.base = 0x1000 := by decide
  have hd1 : decoded_commands board (two_segment_image segment_low segment_apart) 0x1000000 =
      [Command.segment segment_low, Command.segment segment_apart] := by decide
  have hd2 : decoded_commands board (two_segment_image segment_apart segment_low) 0x1000000 =
      [Command.segment segment_apart, Command.segment segment_low] := by decide
  have hpres1 : commands_preserved board (two_segment_image segment_low segment_apart) 0x1000000
      (load_mach_o_image board (two_segment_image segment_low segment_apart) 0
        0x1000000).2.base := by
    rw [hb1]
    exact commands_preserved_of_within board _ 0x1000000 0x1000 0x200 0x80004000 0x80004060
      (by decide) (by decide) (by decide) (by decide) (by decide)
  have hpres2 : commands_preserved board (two_segment_image segment_apart segment_low) 0x1000000
      (load_mach_o_image board (two_segment_image segment_apart segment_low) 0
        0x1000000).2.base := by
    rw [hb2]
    exact commands_preserved_of_within board _ 0x1000000 0x1000 0x200 0x80004000 0x80004060
      (by decide) (by decide) (by decide) (by decide) (by decide)
  have hmem : ∀ s, Command.segment s ∈
      decoded_commands board (two_segment_image segment_low segment_apart) 0x1000000 →
      s = segment_low ∨ s = segment_apart := by
    intro s hs
    rw [hd1] at hs
    simpa using hs
  have ht0 : segment_target board 0x1000 segment_low = 0x80004000 := by decide
  have ht1 : segment_target board 0x1000 segment_apart = 0x80004040 := by decide
  have hs0 : segment_source 0x1000000 segment_low = 0x1000200 := by decide
  have hs1 : segment_source 0x1000000 segment_apart = 0x1000280 := by decide
  have hl0 : segment_low.dst_len = 0x20 ∧ segment_low.src_len = 0x10 := ⟨rfl, rfl⟩
  have hl1 : segment_apart.dst_len = 0x20 ∧ segment_apart.src_len = 0x8 := ⟨rfl, rfl⟩
  have h := load_mach_o_image_order_independent board
    (two_segment_image segment_low segment_apart) (two_segment_image segment_apart segment_low)
    0 0x1000000 (by decide) (by decide) (by decide) (by decide) hpres1 hpres2
    (by
      rw [hd1, hd2]
      exact List.Perm.swap _ _ [])
    (by
      intro s hs
      rw [hb1]
      rcases hmem s hs with rfl | rfl
      · rw [ht0, hl0.1, hl0.2]
        omega
      · rw [ht1, hl1.1, hl1.2]
        omega)
    (by
      intro s s2 hs h2 hne
      rw [hb1]
      rcases hmem s hs with rfl | rfl <;> rcases hmem s2 h2 with rfl | rfl
      · exact absurd rfl hne
      · rw [ht0, ht1, hl0.1, hl1.1]
        omega
      · rw [ht0, ht1, hl0.1, hl1.1]
        omega
      · exact absurd rfl hne)
    (by
      intro s s2 hs h2
      rw [hb1]
      rcases hmem s hs with rfl | rfl <;> rcases hmem s2 h2 with rfl | rfl
      · rw [ht0, hs0, hl0.1, hl0.2]
        omega
      · rw [ht1, hs0, hl0.2, hl1.1]
        omega
      · rw [ht0, hs1, hl0.1, hl1.2]
        omega
      · rw [ht1, hs1, hl1.1, hl1.2]
        omega)
    (by
      intro s hs j hj
      rcases hmem s hs with rfl | rfl
      · rw [hs0]
        rw [hl0.2] at hj
        have hall : (List.range 0x10).all (fun i => decide
            (two_segment_image segment_apart segment_low (0x1000200 + i) =
              two_segment_image segment_low segment_apart (0x1000200 + i))) = true := by decide
        rw [List.all_eq_true] at hall
        exact of_decide_eq_true (hall j (List.mem_range.mpr hj))
      · rw [hs1]
        rw [hl1.2] at hj
        have hall : (List.range 0x8).all (fun i => decide
            (two_segment_image segment_apart segment_low (0x1000280 + i) =
              two_segment_image segment_low segment_apart (0x1000280 + i))) = true := by decide
        rw [List.all_eq_true] at hall
        exact of_decide_eq_true (hall j (List.mem_range.mpr hj)))
  refine ⟨hb2, hb1, h.2.1, ?_, ?_⟩
  · rw [List.all_eq_true]
    intro k hk
    have hk2 := List.mem_range.mp hk
    apply decide_eq_true
    apply h.2.2.2
    right
    refine ⟨segment_low, ?_, ?_⟩
    · rw [hd1]
      exact List.mem_cons_self _ _
    · rw [hb1, ht0, hl0.1]
      omega
  · rw [List.all_eq_true]
    intro k hk
    have hk2 := List.mem_range.mp hk
    apply decide_eq_true
    apply h.2.2.2
    right
    refine ⟨segment_apart, ?_, ?_⟩
    · rw [hd1]
      exact List.mem_cons_of_mem _ (List.mem_cons_self _ _)
    · rw [hb1, ht1, hl1.1]
      omega

/-! ## The load on a second memory with the same inputs -/

/-- A command read from a second memory that holds the same bytes of it. -/
theorem command_at_congr (cfg : Config) (m mb : Mem) (lc : Nat)
    (h : ∀ x, lc ≤ x → x < lc + command_extent cfg m lc → mb x = m x) :
    lc_command mb lc = lc_command m lc ∧ lc_command_size mb lc = lc_command_size m lc ∧
      command_at cfg mb lc = command_at cfg m lc ∧
      command_extent cfg mb lc = command_extent cfg m lc := by
  have hext := command_extent_ge cfg m lc
  have hrd : ∀ off n, off + n ≤ command_extent cfg m lc →
      rdLE mb (lc + off) n = rdLE m (lc + off) n := by
    intro off n hn
    apply rdLE_congr
    intro k hk
    exact h _ (by omega) (by omega)
  have htag : lc_command mb lc = lc_command m lc := by
    unfold lc_command rd32
    exact hrd 0 4 (by omega)
  have hsize : lc_command_size mb lc = lc_command_size m lc := by
    unfold lc_command_size rd32
    exact hrd 4 4 (by omega)
  refine ⟨htag, hsize, ?_, ?_⟩
  · unfold command_at
    rw [htag]
    by_cases hs : lc_command m lc = LOAD_COMMAND_SEGMENT cfg
    · rw [if_pos hs, if_pos hs]
      have he : command_extent cfg m lc = 56 := by
        unfold command_extent
        rw [if_pos hs]
      rw [he] at hrd
      unfold segment_at sc_dst sc_dst_len sc_src_offset sc_src_len rd64
      rw [hrd 24 8 (by omega), hrd 32 8 (by omega), hrd 40 8 (by omega), hrd 48 8 (by omega)]
    · rw [if_neg hs, if_neg hs]
      by_cases ht : lc_command m lc = LOAD_COMMAND_UNIXTHREAD
      · rw [if_pos ht, if_pos ht]
        have he : command_extent cfg m lc = thread_pc_offset cfg + 8 := by
          unfold command_extent
          rw [if_neg hs, if_pos ht]
        rw [he] at hrd
        unfold thread_pc rd64
        rw [hrd (thread_pc_offset cfg) 8 (by omega)]
      · rw [if_neg ht, if_neg ht]
  · unfold command_extent
    rw [htag]

/-- The walk of the command list in a second memory that holds the same command
bytes. -/
theorem command_addrs_congr (cfg : Config) (m mb : Mem) (n lc : Nat)
    (h : ∀ x, command_bytes cfg m (command_addrs m n lc) x → mb x = m x) :
    command_addrs mb n lc = command_addrs m n lc := by
  induction n generalizing lc with
  | zero => rfl
  | succ n ih =>
    have hc := command_at_congr cfg m mb lc (fun x h1 h2 =>
      h x ⟨lc, by rw [command_addrs]; exact List.mem_cons_self _ _, h1, h2⟩)
    rw [command_addrs, command_addrs, hc.2.1]
    rw [ih _ (fun x hx => h x (by
      rw [command_addrs]
      exact command_bytes_cons cfg m lc _ x hx))]

/-- The load of an image from a second memory that holds the same header members,
command bytes and segment source bytes: the same command list, the same `base` and
`end`, the same `entry` when a thread command sets it, and the same stored bytes. -/
theorem load_mach_o_image_congr (cfg : Config) (m mb : Mem) (e e2 image : Nat)
    (hmagic : header_magic m image = MACH_O_MAGIC cfg)
    (htype : header_file_type m image = MACH_O_EXEC)
    (hpres : commands_preserved cfg m image (load_mach_o_image cfg m e image).2.base)
    (hhdr : ∀ x, (image ≤ x ∧ x < image + 4) ∨ (image + 12 ≤ x ∧ x < image + 20) → mb x = m x)
    (hcmd : ∀ x, command_bytes cfg m (image_commands cfg m image) x → mb x = m x)
    (hsrc : ∀ s, Command.segment s ∈ decoded_commands cfg m image → ∀ j, j < s.src_len →
      mb (segment_source image s + j) = m (segment_source image s + j)) :
    decoded_commands cfg mb image = decoded_commands cfg m image ∧
      (load_mach_o_image cfg mb e2 image).2.base = (load_mach_o_image cfg m e image).2.base ∧
      (load_mach_o_image cfg mb e2 image).2.end_ = (load_mach_o_image cfg m e image).2.end_ ∧
      ((e2 = e ∨ ∃ pc, Command.unixthread pc ∈ decoded_commands cfg m image) →
        (load_mach_o_image cfg mb e2 image).2.entry =
          (load_mach_o_image cfg m e image).2.entry) ∧
      ∀ x, (mb x = m x ∨ ∃ s, Command.segment s ∈ decoded_commands cfg m image ∧
          segment_writes cfg (load_mach_o_image cfg m e image).2.base s x) →
        (load_mach_o_image cfg mb e2 image).1 x = (load_mach_o_image cfg m e image).1 x := by
  have hrd : ∀ off, (off = 0 ∨ off = 12 ∨ off = 16) →
      rd32 mb (image + off) = rd32 m (image + off) := by
    intro off hoff
    unfold rd32
    apply rdLE_congr
    intro k hk
    exact hhdr _ (by omega)
  have hmagic2 : header_magic mb image = MACH_O_MAGIC cfg := by
    rw [← hmagic]
    exact hrd 0 (Or.inl rfl)
  have htype2 : header_file_type mb image = MACH_O_EXEC := by
    rw [← htype]
    exact hrd 12 (Or.inr (Or.inl rfl))
  have hnb : header_commands_nb mb image = header_commands_nb m image :=
    hrd 16 (Or.inr (Or.inr rfl))
  have haddrs : image_commands cfg mb image = image_commands cfg m image := by
    unfold image_commands
    rw [hnb]
    exact command_addrs_congr cfg m mb _ _ hcmd
  have hat : ∀ lc ∈ image_commands cfg m image,
      lc_command mb lc = lc_command m lc ∧ lc_command_size mb lc = lc_command_size m lc ∧
        command_at cfg mb lc = command_at cfg m lc ∧
        command_extent cfg mb lc = command_extent cfg m lc :=
    fun lc hlc => command_at_congr cfg m mb lc (fun x h1 h2 => hcmd x ⟨lc, hlc, h1, h2⟩)
  have hdec : decoded_commands cfg mb image = decoded_commands cfg m image := by
    unfold decoded_commands
    rw [haddrs]
    exact List.map_congr_left (fun lc hlc => (hat lc hlc).2.2.1)
  obtain ⟨hb1, he1⟩ := load_mach_o_image_range_commands cfg m e image hmagic htype
  obtain ⟨hb2, he2⟩ := load_mach_o_image_range_commands cfg mb e2 image hmagic2 htype2
  rw [hdec] at hb2 he2
  have hre := range_commands_entry (decoded_commands cfg m image)
    { base := 2 ^ 64 - 1, entry := e, end_ := 0 } e2
  have hbase : (load_mach_o_image cfg mb e2 image).2.base =
      (load_mach_o_image cfg m e image).2.base := by
    rw [hb1, hb2]
    exact hre.1
  have hend : (load_mach_o_image cfg mb e2 image).2.end_ =
      (load_mach_o_image cfg m e image).2.end_ := by
    rw [he1, he2]
    exact hre.2
  have hpres2 : commands_preserved cfg mb image (load_mach_o_image cfg mb e2 image).2.base := by
    rw [hbase]
    intro sc hsc x hw hr
    obtain ⟨hsc1, hsc2⟩ := (mem_segment_commands cfg mb image sc).mp hsc
    rw [haddrs] at hsc1
    have hsc3 := hat sc hsc1
    rw [hsc3.1] at hsc2
    have hseg : segment_at mb sc = segment_at m sc := by
      have h3 := hsc3.2.2.1
      unfold command_at at h3
      rw [hsc3.1, if_pos hsc2, if_pos hsc2] at h3
      exact Command.segment.inj h3
    rw [hseg] at hw
    apply hpres sc ((mem_segment_commands cfg m image sc).mpr ⟨hsc1, hsc2⟩) x hw
    rcases hr with hr | ⟨lc, hlc, h1, h2⟩
    · exact Or.inl hr
    · rw [haddrs] at hlc
      rw [(hat lc hlc).2.2.2] at h2
      exact Or.inr ⟨lc, hlc, h1, h2⟩
  obtain ⟨hm1, hen1⟩ := load_mach_o_image_eq cfg m e image hmagic htype hpres
  obtain ⟨hm2, hen2⟩ := load_mach_o_image_eq cfg mb e2 image hmagic2 htype2 hpres2
  rw [hdec] at hm2 hen2
  refine ⟨hdec, hbase, hend, ?_, ?_⟩
  · intro h
    rw [hen1, hen2]
    exact run_commands_entry_determined cfg image _ _ _ (m, e) (mb, e2) h
  · intro x hx
    rw [hm1, hm2, hbase]
    exact run_commands_congr cfg image _ _ (m, e) (mb, e2) hsrc x hx

/-! ## The whole sequence on a second memory with the same inputs -/

/-- A run with two arguments, a valid load result and a tree walk that returns
reaches the entry transfer. -/
theorem do_bootxnu_reaches (cfg : Config) (pf : Platform) (fuel : Nat) (m : Mem) (e : Nat)
    (argc : Int) (argv : List String) (len : Nat) (hargc : ¬ argc < 3)
    (hv : (load_mach_o_image cfg m e (kernel_image_addr pf argv)).2.base ≤
      (load_mach_o_image cfg m e (kernel_image_addr pf argv)).2.end_)
    (hL : afdt_length (memory_at_walk cfg pf m e argv) fuel (fdt_image_addr pf argv) =
      some len) :
    ∃ r h, do_bootxnu cfg pf fuel m e argc argv = some r ∧ r.handoff = some h := by
  unfold memory_at_walk at hL
  simp only at hL
  unfold do_bootxnu
  rw [if_neg hargc]
  simp only
  rw [if_neg (Nat.not_lt.mpr hv)]
  unfold append_afdt
  simp only
  rw [hL]
  simp only
  split
  · exact ⟨_, _, rfl, rfl⟩
  · exact ⟨_, _, rfl, rfl⟩

/-- The initialised block does not depend on what the memory held there. -/
theorem boot_args_init_congr (cfg : Config) (ma mb : Mem) (ba base : Nat)
    (cl : Option (List Nat)) (x : Nat) (h : (ba ≤ x ∧ x < ba + 736) ∨ mb x = ma x) :
    boot_args_init cfg mb ba base cl x = boot_args_init cfg ma ba base cl x := by
  rw [boot_args_init_apply, boot_args_init_apply]
  split_ifs <;> first
    | rfl
    | (rcases h with h | h
       · omega
       · exact h)

theorem set_afdt_init_congr (cfg : Config) (ma mb : Mem) (ba base : Nat)
    (cl : Option (List Nat)) (x : Nat) (h : (ba ≤ x ∧ x < ba + 736) ∨ mb x = ma x) :
    set_afdt (boot_args_init cfg mb ba base cl) ba x =
      set_afdt (boot_args_init cfg ma ba base cl) ba x := by
  unfold set_afdt
  rw [boot_args_init_phys_end, boot_args_init_phys_end]
  unfold wr64 wrLE
  split
  · rfl
  · exact boot_args_init_congr cfg ma mb ba base cl x h

/-- What the sequence leaves outside the addresses it stores to is what was there. -/
theorem do_bootxnu_frame (cfg : Config) (pf : Platform) (fuel : Nat) (m : Mem) (e : Nat)
    (argc : Int) (argv : List String) (r : Run) (h : Handoff) (len : Nat)
    (hrun : do_bootxnu cfg pf fuel m e argc argv = some r) (hh : r.handoff = some h)
    (hL : afdt_length (memory_at_walk cfg pf m e argv) fuel (fdt_image_addr pf argv) =
      some len)
    (hpres : commands_preserved cfg m (kernel_image_addr pf argv)
      (load_mach_o_image cfg m e (kernel_image_addr pf argv)).2.base)
    (x : Nat)
    (hx : ¬ sequence_writes cfg m (kernel_image_addr pf argv)
      (load_mach_o_image cfg m e (kernel_image_addr pf argv)).2.base h.boot_args len x) :
    h.mem x = m x := by
  obtain ⟨_, hv, _, _, _⟩ := do_bootxnu_handoff cfg pf fuel m e argc argv r h hrun hh
  obtain ⟨hmagic, htype, _⟩ := load_mach_o_image_valid cfg m e _ hv
  obtain ⟨len1, hL1, _, _, hf⟩ := do_bootxnu_assembled cfg pf fuel m e argc argv r h hrun hh
  rw [hL] at hL1
  have hlen : len1 = len := (Option.some.inj hL1).symm
  subst hlen
  unfold sequence_writes sizeof_xnu_boot_arguments at hx
  have hblock : ¬ (h.boot_args ≤ x ∧ x < h.boot_args + 736) := fun hb => hx (Or.inr (Or.inl hb))
  have hcopy : ¬ (uptr_add h.boot_args 736 ≤ x ∧ x < uptr_add h.boot_args 736 + len1) :=
    fun hb => hx (Or.inr (Or.inr hb))
  rw [hf x, if_neg (by omega), if_neg hcopy, if_neg (by omega), if_neg (by omega),
    boot_args_init_outside _ _ _ _ _ _ (by omega),
    (load_mach_o_image_eq cfg m e _ hmagic htype hpres).1]
  exact run_commands_frame cfg _ _ _ (m, e) x (fun s hs hw => hx (Or.inl ⟨s, hs, hw⟩))

/-- The sequence on a second memory that holds the same input bytes: it reaches the
entry transfer too, with the same `base`, `end` and block address, the same entry when
a thread command sets it, and the same byte at every address it stores to. -/
theorem do_bootxnu_congr (cfg : Config) (pf : Platform) (fuel : Nat) (m mb : Mem) (e e2 : Nat)
    (argc : Int) (argv : List String) (r1 : Run) (h1 : Handoff) (len : Nat)
    (hrun : do_bootxnu cfg pf fuel m e argc argv = some r1) (hh : r1.handoff = some h1)
    (hwalk : afdt_length_exact (memory_at_walk cfg pf m e argv) fuel (fdt_image_addr pf argv) =
      some len)
    (h32 : len < 2 ^ 32) (hfit : fdt_image_addr pf argv + len ≤ 2 ^ 64)
    (hdisj : ∀ x, sequence_writes cfg m (kernel_image_addr pf argv)
        (load_mach_o_image cfg m e (kernel_image_addr pf argv)).2.base h1.boot_args len x →
      ¬ sequence_reads cfg m (kernel_image_addr pf argv) (fdt_image_addr pf argv) len x)
    (hin : ∀ x, sequence_reads cfg m (kernel_image_addr pf argv) (fdt_image_addr pf argv)
      len x → mb x = m x) :
    ∃ r2 h2, do_bootxnu cfg pf fuel mb e2 argc argv = some r2 ∧ r2.handoff = some h2 ∧
      (load_mach_o_image cfg mb e2 (kernel_image_addr pf argv)).2.base =
        (load_mach_o_image cfg m e (kernel_image_addr pf argv)).2.base ∧
      (load_mach_o_image cfg mb e2 (kernel_image_addr pf argv)).2.end_ =
        (load_mach_o_image cfg m e (kernel_image_addr pf argv)).2.end_ ∧
      ((e2 = e ∨ ∃ pc, Command.unixthread pc ∈
          decoded_commands cfg m (kernel_image_addr pf argv)) →
        (load_mach_o_image cfg mb e2 (kernel_image_addr pf argv)).2.entry =
            (load_mach_o_image cfg m e (kernel_image_addr pf argv)).2.entry ∧
          h2.xnu_entry = h1.xnu_entry) ∧
      h2.boot_args = h1.boot_args ∧
      ∀ x, (mb x = m x ∨ sequence_writes cfg m (kernel_image_addr pf argv)
          (load_mach_o_image cfg m e (kernel_image_addr pf argv)).2.base h1.boot_args len x) →
        h2.mem x = h1.mem x := by
  obtain ⟨hargc, hv, hba1, hxe1, _⟩ := do_bootxnu_handoff cfg pf fuel m e argc argv r1 h1 hrun hh
  obtain ⟨hmagic, htype, _⟩ := load_mach_o_image_valid cfg m e _ hv
  have hpres : commands_preserved cfg m (kernel_image_addr pf argv)
      (load_mach_o_image cfg m e (kernel_image_addr pf argv)).2.base := by
    intro sc hsc x hw hr
    apply hdisj x (Or.inl ⟨segment_at m sc,
      (mem_decoded_commands cfg m _ _).mpr ⟨sc, hsc, rfl⟩, hw⟩)
    rcases hr with hr | hr
    · exact Or.inr (Or.inl ⟨by omega, hr.2⟩)
    · exact Or.inr (Or.inr (Or.inl hr))
  obtain ⟨hdec, hbase, hend, hentry, hmem⟩ := load_mach_o_image_congr cfg m mb e e2
    (kernel_image_addr pf argv) hmagic htype hpres
    (fun x hx => hin x (by
      rcases hx with hx | hx
      · exact Or.inl hx
      · exact Or.inr (Or.inl hx)))
    (fun x hx => hin x (Or.inr (Or.inr (Or.inl hx))))
    (fun s hs j hj => hin _ (Or.inr (Or.inr (Or.inr (Or.inl ⟨s, hs, by omega, by omega⟩)))))
  have hxe : xnu_end cfg (load_mach_o_image cfg mb e2 (kernel_image_addr pf argv)).2 =
      xnu_end cfg (load_mach_o_image cfg m e (kernel_image_addr pf argv)).2 := by
    unfold xnu_end
    rw [hbase, hend]
  have hmaw : ∀ x, ((h1.boot_args ≤ x ∧ x < h1.boot_args + 736) ∨
      (load_mach_o_image cfg mb e2 (kernel_image_addr pf argv)).1 x =
        (load_mach_o_image cfg m e (kernel_image_addr pf argv)).1 x) →
      memory_at_walk cfg pf mb e2 argv x = memory_at_walk cfg pf m e argv x := by
    intro x hx
    unfold memory_at_walk
    rw [hxe, hbase, ← hba1]
    exact set_afdt_init_congr cfg _ _ _ _ _ x hx
  have hblob : ∀ k, k < len → memory_at_walk cfg pf mb e2 argv (fdt_image_addr pf argv + k) =
      memory_at_walk cfg pf m e argv (fdt_image_addr pf argv + k) := by
    intro k hk
    apply hmaw
    right
    apply hmem
    left
    exact hin _ (Or.inr (Or.inr (Or.inr (Or.inr ⟨by omega, by omega⟩))))
  have hL1 := afdt_length_of_exact _ (memory_at_walk cfg pf m e argv) fuel _ _ len hwalk h32 hfit
    (fun _ _ => rfl)
  have hL2 := afdt_length_of_exact _ (memory_at_walk cfg pf mb e2 argv) fuel _ _ len hwalk h32
    hfit hblob
  obtain ⟨r2, h2, hrun2, hh2⟩ := do_bootxnu_reaches cfg pf fuel mb e2 argc argv len hargc
    (by rw [hbase, hend]; exact hv) hL2
  obtain ⟨_, _, hba2, hxe2, _⟩ := do_bootxnu_handoff cfg pf fuel mb e2 argc argv r2 h2 hrun2 hh2
  have hba : h2.boot_args = h1.boot_args := by rw [hba1, hba2, hxe]
  refine ⟨r2, h2, hrun2, hh2, hbase, hend, ?_, hba, ?_⟩
  · intro hc
    have he := hentry hc
    refine ⟨he, ?_⟩
    rw [hxe1, hxe2, he, hbase]
  · intro x hx
    obtain ⟨la, hLa, _, _, hfa⟩ := do_bootxnu_assembled cfg pf fuel m e argc argv r1 h1 hrun hh
    obtain ⟨lb, hLb, _, _, hfb⟩ := do_bootxnu_assembled cfg pf fuel mb e2 argc argv r2 h2 hrun2
      hh2
    rw [hL1] at hLa
    rw [hL2] at hLb
    have hla : la = len := (Option.some.inj hLa).symm
    have hlb : lb = len := (Option.some.inj hLb).symm
    rw [hla] at hfa
    rw [hlb] at hfb
    rw [hfa x, hfb x, hba, hbase]
    by_cases c1 : h1.boot_args + 32 ≤ x ∧ x < h1.boot_args + 40
    · rw [if_pos c1, if_pos c1]
    · rw [if_neg c1, if_neg c1]
      by_cases c2 : uptr_add h1.boot_args 736 ≤ x ∧ x < uptr_add h1.boot_args 736 + len
      · rw [if_pos c2, if_pos c2]
        unfold wr32 wrLE
        split
        · rfl
        · exact hblob _ (by omega)
      · rw [if_neg c2, if_neg c2]
        by_cases c3 : h1.boot_args + 104 ≤ x ∧ x < h1.boot_args + 108
        · rw [if_pos c3, if_pos c3]
        · rw [if_neg c3, if_neg c3]
          by_cases c4 : h1.boot_args + 96 ≤ x ∧ x < h1.boot_args + 104
          · rw [if_pos c4, if_pos c4]
          · rw [if_neg c4, if_neg c4]
            apply boot_args_init_congr
            rcases hx with hx | hx | hx | hx
            · exact Or.inr (hmem x (Or.inl hx))
            · exact Or.inr (hmem x (Or.inr hx))
            · exact Or.inl hx
            · exact absurd hx c2

/-- C18: take a run of `do_bootxnu` that reaches the entry transfer, whose tree walk,
taken without wrap-around, ends after `len < 2 ^ 32` bytes, and in which no address the
sequence stores to (segment targets, boot block, tree copy) is one it reads as input
(header members, command bytes, segment source bytes, blob bytes). Then on every
memory that holds the same input bytes, whatever else it holds and whatever the
uninitialised `entry` is, the sequence reaches the entry transfer with the same `base`,
`end` and block address, the same `entry` and entry address when the image has a thread
command (or the uninitialised `entry` is the same), and the same byte at every address
it stores to. In particular, run again on the memory the first run handed over, it
returns the same and hands over that very memory. -/
theorem do_bootxnu_idempotent (cfg : Config) (pf : Platform) (fuel : Nat) (m : Mem) (e : Nat)
    (argc : Int) (argv : List String) (r1 : Run) (h1 : Handoff) (len : Nat)
    (hrun : do_bootxnu cfg pf fuel m e argc argv = some r1) (hh : r1.handoff = some h1)
    (hwalk : afdt_length_exact (memory_at_walk cfg pf m e argv) fuel (fdt_image_addr pf argv) =
      some len)
    (h32 : len < 2 ^ 32) (hfit : fdt_image_addr pf argv + len ≤ 2 ^ 64)
    (hdisj : ∀ x, sequence_writes cfg m (kernel_image_addr pf argv)
        (load_mach_o_image cfg m e (kernel_image_addr pf argv)).2.base h1.boot_args len x →
      ¬ sequence_reads cfg m (kernel_image_addr pf argv) (fdt_image_addr pf argv) len x) :
    (∀ (mb : Mem) (e2 : Nat),
        (∀ x, sequence_reads cfg m (kernel_image_addr pf argv) (fdt_image_addr pf argv)
          len x → mb x = m x) →
        ∃ r2 h2, do_bootxnu cfg pf fuel mb e2 argc argv = some r2 ∧ r2.handoff = some h2 ∧
          (load_mach_o_image cfg mb e2 (kernel_image_addr pf argv)).2.base =
            (load_mach_o_image cfg m e (kernel_image_addr pf argv)).2.base ∧
          (load_mach_o_image cfg mb e2 (kernel_image_addr pf argv)).2.end_ =
            (load_mach_o_image cfg m e (kernel_image_addr pf argv)).2.end_ ∧
          ((e2 = e ∨ ∃ pc, Command.unixthread pc ∈
              decoded_commands cfg m (kernel_image_addr pf argv)) →
            (load_mach_o_image cfg mb e2 (kernel_image_addr pf argv)).2.entry =
                (load_mach_o_image cfg m e (kernel_image_addr pf argv)).2.entry ∧
              h2.xnu_entry = h1.xnu_entry) ∧
          h2.boot_args = h1.boot_args ∧
          ∀ x, sequence_writes cfg m (kernel_image_addr pf argv)
              (load_mach_o_image cfg m e (kernel_image_addr pf argv)).2.base h1.boot_args
              len x → h2.mem x = h1.mem x) ∧
      ∀ e2 : Nat, ∃ r2 h2, do_bootxnu cfg pf fuel h1.mem e2 argc argv = some r2 ∧
        r2.handoff = some h2 ∧
        (load_mach_o_image cfg h1.mem e2 (kernel_image_addr pf argv)).2.base =
          (load_mach_o_image cfg m e (kernel_image_addr pf argv)).2.base ∧
        (load_mach_o_image cfg h1.mem e2 (kernel_image_addr pf argv)).2.end_ =
          (load_mach_o_image cfg m e (kernel_image_addr pf argv)).2.end_ ∧
        ((e2 = e ∨ ∃ pc, Command.unixthread pc ∈
            decoded_commands cfg m (kernel_image_addr pf argv)) →
          (load_mach_o_image cfg h1.mem e2 (kernel_image_addr pf argv)).2.entry =
              (load_mach_o_image cfg m e (kernel_image_addr pf argv)).2.entry ∧
            h2.xnu_entry = h1.xnu_entry) ∧
        h2.boot_args = h1.boot_args ∧ h2.mem = h1.mem := by
  constructor
  · intro mb e2 hin
    obtain ⟨r2, h2, g1, g2, g3, g4, g5, g6, g7⟩ := do_bootxnu_congr cfg pf fuel m mb e e2 argc
      argv r1 h1 len hrun hh hwalk h32 hfit hdisj hin
    exact ⟨r2, h2, g1, g2, g3, g4, g5, g6, fun x hx => g7 x (Or.inr hx)⟩
  · intro e2
    have hpres : commands_preserved cfg m (kernel_image_addr pf argv)
        (load_mach_o_image cfg m e (kernel_image_addr pf argv)).2.base := by
      intro sc hsc x hw hr
      apply hdisj x (Or.inl ⟨segment_at m sc,
        (mem_decoded_commands cfg m _ _).mpr ⟨sc, hsc, rfl⟩, hw⟩)
      rcases hr with hr | hr
      · exact Or.inr (Or.inl ⟨by omega, hr.2⟩)
      · exact Or.inr (Or.inr (Or.inl hr))
    have hL := afdt_length_of_exact _ (memory_at_walk cfg pf m e argv) fuel _ _ len hwalk h32
      hfit (fun _ _ => rfl)
    have hframe : ∀ x, ¬ sequence_writes cfg m (kernel_image_addr pf argv)
        (load_mach_o_image cfg m e (kernel_image_addr pf argv)).2.base h1.boot_args len x →
        h1.mem x = m x :=
      fun x hx => do_bootxnu_frame cfg pf fuel m e argc argv r1 h1 len hrun hh hL hpres x hx
    obtain ⟨r2, h2, g1, g2, g3, g4, g5, g6, g7⟩ := do_bootxnu_congr cfg pf fuel m h1.mem e e2
      argc argv r1 h1 len hrun hh hwalk h32 hfit hdisj
      (fun x hx => hframe x (fun hw => hdisj x hw hx))
    refine ⟨r2, h2, g1, g2, g3, g4, g5, g6, ?_⟩
    funext x
    by_cases hw : sequence_writes cfg m (kernel_image_addr pf argv)
        (load_mach_o_image cfg m e (kernel_image_addr pf argv)).2.base h1.boot_args len x
    · exact g7 x (Or.inr hw)
    · exact g7 x (Or.inl (hframe x hw))

/-- In the scenario the sequence stores to `[0x80004000, 0x80004334)` and reads its
inputs below `0x2000034`. -/
theorem scenario_reads_writes_apart (x : Nat)
    (hw : sequence_writes board scenario_memory 0x1000000 0x1000 0x80004020 52 x) :
    ¬ sequence_reads board scenario_memory 0x1000000 0x2000000 52 x := by
  have hdec : decoded_commands board scenario_memory 0x1000000 =
      [Command.segment { dst := 0x1000, dst_len := 0x20, src_offset := 0x40, src_len := 0x10 },
        Command.unixthread 0x1008] := by decide
  have hic : image_commands board scenario_memory 0x1000000 = [0x1000020, 0x1000068] := by
    decide
  have hex1 : command_extent board scenario_memory 0x1000020 = 56 := by decide
  have hex2 : command_extent board scenario_memory 0x1000068 = 280 := by decide
  have hmem : ∀ s, Command.segment s ∈ decoded_commands board scenario_memory 0x1000000 →
      s = { dst := 0x1000, dst_len := 0x20, src_offset := 0x40, src_len := 0x10 } := by
    intro s hs
    rw [hdec] at hs
    simp only [List.mem_cons, Command.segment.injEq, List.mem_singleton, List.not_mem_nil,
      or_false] at hs
    rcases hs with hs | hs
    · exact hs
    · cases hs
  have ht : segment_target board 0x1000
      { dst := 0x1000, dst_len := 0x20, src_offset := 0x40, src_len := 0x10 } =
      0x80004000 := by decide
  have hsrc : segment_source 0x1000000
      { dst := 0x1000, dst_len := 0x20, src_offset := 0x40, src_len := 0x10 } =
      0x1000040 := by decide
  have hP : uptr_add 0x80004020 sizeof_xnu_boot_arguments = 0x80004300 := by decide
  have hlow : 0x80004000 ≤ x := by
    rcases hw with ⟨s, hs, hw⟩ | hw | hw
    · rw [hmem s hs] at hw
      have := (segment_writes_range board 0x1000 _ x (by decide) (by decide) (by decide)).mp hw
      rw [ht] at this
      omega
    · omega
    · rw [hP] at hw
      omega
  intro hr
  rcases hr with hr | hr | ⟨lc, hlc, h1, h2⟩ | ⟨s, hs, h1, h2⟩ | hr
  · omega
  · omega
  · rw [hic] at hlc
    rcases List.mem_cons.mp hlc with rfl | hlc
    · rw [hex1] at h2
      omega
    · rw [List.mem_singleton] at hlc
      subst hlc
      rw [hex2] at h2
      omega
  · rw [hmem s hs, hsrc] at h1 h2
    have : ({ dst := 0x1000, dst_len := 0x20, src_offset := 0x40, src_len := 0x10 } :
        Segment).src_len = 0x10 := rfl
    rw [this] at h2
    omega
  · omega

set_option maxRecDepth 100000 in
/-- C18, witness: the scenario run, repeated on the memory it handed over: the same
block address `0x80004020`, the same entry address `0x80004008` and the same memory. -/
theorem do_bootxnu_idempotent_witness :
    ∃ r2 h2, do_bootxnu board (demo_platform none) 1 (scenario_handoff none).mem 7 3
        scenario_argv = some r2 ∧ r2.handoff = some h2 ∧
      (load_mach_o_image board (scenario_handoff none).mem 7 0x1000000).2 =
        { base := 0x1000, entry := 0x1008, end_ := 0x1020 } ∧
      h2.xnu_entry = 0x80004008 ∧ h2.boot_args = 0x80004020 ∧
      h2.mem = (scenario_handoff none).mem := by
  have hb : (load_mach_o_image board scenario_memory 0
      (kernel_image_addr (demo_platform none) scenario_argv)).2 =
      { base := 0x1000, entry := 0x1008, end_ := 0x1020 } := by decide
  have hk : kernel_image_addr (demo_platform none) scenario_argv = 0x1000000 := by decide
  have hf : fdt_image_addr (demo_platform none) scenario_argv = 0x2000000 := by decide
  have hba : (scenario_handoff none).boot_args = 0x80004020 := by decide
  have hxe : (scenario_handoff none).xnu_entry = 0x80004008 := by decide
  obtain ⟨r2, h2, g1, g2, g3, g4, g5, g6, g7⟩ := (do_bootxnu_idempotent board
    (demo_platform none) 1 scenario_memory 0 3 scenario_argv
    { mem := (scenario_handoff none).mem, handoff := some (scenario_handoff none), ret := none }
    (scenario_handoff none) 52 rfl rfl (by decide) (by decide) (by decide)
    (by
      intro x hw
      rw [hb, hk, hba] at hw
      rw [hk, hf]
      exact scenario_reads_writes_apart x hw)).2 7
  have hthread : ∃ pc, Command.unixthread pc ∈
      decoded_commands board scenario_memory
        (kernel_image_addr (demo_platform none) scenario_argv) := ⟨0x1008, by decide⟩
  obtain ⟨g51, g52⟩ := g5 (Or.inr hthread)
  rw [hk] at g3 g4 g51
  rw [hk] at hb
  refine ⟨r2, h2, g1, g2, ?_, by rw [g52, hxe], by rw [g6, hba], g7⟩
  cases hl : (load_mach_o_image board (scenario_handoff none).mem 7 0x1000000).2
  rw [hl, hb] at g3 g4 g51
  simp only at g3 g4 g51
  rw [g3, g4, g51]

/-! ## The address mapping of the block and the loaded bytes -/

/-- The memory handed over holds a segment at its target, below the block, when the
addresses involved do not wrap and no store goes over the segment or its source. -/
theorem do_bootxnu_segment_bytes (cfg : Config) (pf : Platform) (fuel : Nat) (m : Mem)
    (e : Nat) (argc : Int) (argv : List String) (r : Run) (h : Handoff) (sc : Nat)
    (hrun : do_bootxnu cfg pf fuel m e argc argv = some r) (hh : r.handoff = some h)
    (hsc : sc ∈ segment_commands cfg m (kernel_image_addr pf argv))
    (hpres : commands_preserved cfg m (kernel_image_addr pf argv)
      (load_mach_o_image cfg m e (kernel_image_addr pf argv)).2.base)
    (hlen : sc_src_len m sc ≤ sc_dst_len m sc)
    (hno : sc_dst m sc + sc_dst_len m sc < 2 ^ 64)
    (hfit : XNU_LOAD_ADDR cfg +
      ((load_mach_o_image cfg m e (kernel_image_addr pf argv)).2.end_ -
        (load_mach_o_image cfg m e (kernel_image_addr pf argv)).2.base) +
      sizeof_xnu_boot_arguments < 2 ^ 64)
    (hother : ∀ sc2 ∈ segment_commands cfg m (kernel_image_addr pf argv),
      segment_at m sc2 ≠ segment_at m sc →
      ∀ x, segment_writes cfg (load_mach_o_image cfg m e (kernel_image_addr pf argv)).2.base
          (segment_at m sc2) x →
        ¬ (sc_dst m sc - (load_mach_o_image cfg m e (kernel_image_addr pf argv)).2.base +
              XNU_LOAD_ADDR cfg ≤ x ∧
            x < sc_dst m sc - (load_mach_o_image cfg m e (kernel_image_addr pf argv)).2.base +
              XNU_LOAD_ADDR cfg + sc_dst_len m sc))
    (hsrc : ∀ sc2 ∈ segment_commands cfg m (kernel_image_addr pf argv),
      ∀ x, segment_writes cfg (load_mach_o_image cfg m e (kernel_image_addr pf argv)).2.base
          (segment_at m sc2) x →
        ¬ (uptr_add (kernel_image_addr pf argv) (sc_src_offset m sc) ≤ x ∧
            x < uptr_add (kernel_image_addr pf argv) (sc_src_offset m sc) + sc_src_len m sc)) :
    segment_target cfg (load_mach_o_image cfg m e (kernel_image_addr pf argv)).2.base
        (segment_at m sc) =
      sc_dst m sc - (load_mach_o_image cfg m e (kernel_image_addr pf argv)).2.base +
        XNU_LOAD_ADDR cfg ∧
    sc_dst m sc - (load_mach_o_image cfg m e (kernel_image_addr pf argv)).2.base +
        XNU_LOAD_ADDR cfg + sc_dst_len m sc ≤ h.boot_args ∧
    ∀ k, k < sc_dst_len m sc →
      h.mem (sc_dst m sc - (load_mach_o_image cfg m e (kernel_image_addr pf argv)).2.base +
          XNU_LOAD_ADDR cfg + k) =
        if k < sc_src_len m sc then
          m (uptr_add (kernel_image_addr pf argv) (sc_src_offset m sc) + k)
        else 0 := by
  obtain ⟨_, hv, hba, _, _⟩ := do_bootxnu_handoff cfg pf fuel m e argc argv r h hrun hh
  obtain ⟨hmagic, htype, _⟩ := load_mach_o_image_valid cfg m e _ hv
  obtain ⟨hle, hend⟩ := (load_mach_o_image_bounds cfg m e _ hmagic htype).1 sc hsc
  unfold sizeof_xnu_boot_arguments at hfit
  have hadd : uptr_add (sc_dst m sc) (sc_dst_len m sc) = sc_dst m sc + sc_dst_len m sc := by
    unfold uptr_add
    exact Nat.mod_eq_of_lt hno
  rw [hadd] at hend
  have ht : segment_target cfg (load_mach_o_image cfg m e (kernel_image_addr pf argv)).2.base
      (segment_at m sc) =
      sc_dst m sc - (load_mach_o_image cfg m e (kernel_image_addr pf argv)).2.base +
        XNU_LOAD_ADDR cfg :=
    uptr_translate (sc_dst m sc) _ (XNU_LOAD_ADDR cfg) hle (by omega)
  have hblock : h.boot_args =
      (load_mach_o_image cfg m e (kernel_image_addr pf argv)).2.end_ -
        (load_mach_o_image cfg m e (kernel_image_addr pf argv)).2.base + XNU_LOAD_ADDR cfg := by
    rw [hba]
    exact uptr_translate _ _ (XNU_LOAD_ADDR cfg) hv (by omega)
  have hbelow : sc_dst m sc - (load_mach_o_image cfg m e (kernel_image_addr pf argv)).2.base +
      XNU_LOAD_ADDR cfg + sc_dst_len m sc ≤ h.boot_args := by
    rw [hblock]
    omega
  refine ⟨ht, hbelow, ?_⟩
  intro k hk
  obtain ⟨len, _, _, _, hf⟩ := do_bootxnu_assembled cfg pf fuel m e argc argv r h hrun hh
  have hP : uptr_add h.boot_args 736 = h.boot_args + 736 := by
    unfold uptr_add
    exact Nat.mod_eq_of_lt (by omega)
  rw [hf, hP, if_neg (by omega), if_neg (by omega), if_neg (by omega), if_neg (by omega),
    boot_args_init_outside _ _ _ _ _ _ (by omega),
    (load_mach_o_image_eq cfg m e _ hmagic htype hpres).1, ← ht]
  have hfit2 : segment_target cfg (load_mach_o_image cfg m e (kernel_image_addr pf argv)).2.base
      (segment_at m sc) + (segment_at m sc).dst_len ≤ 2 ^ 64 := by
    rw [ht]
    show _ + sc_dst_len m sc ≤ 2 ^ 64
    omega
  refine run_commands_segment_bytes cfg _ _ (segment_at m sc) m
    (decoded_commands cfg m (kernel_image_addr pf argv)) m e hlen (rd64_lt m (sc + 32)) hfit2
    ?_ ?_ (fun _ _ => rfl)
    (Or.inl ((mem_decoded_commands cfg m _ _).mpr ⟨sc, hsc, rfl⟩)) k hk
  · intro s2 hs2 hne x hw
    obtain ⟨sc2, hsc2, rfl⟩ := (mem_decoded_commands cfg m _ s2).mp hs2
    rw [ht]
    exact hother sc2 hsc2 hne x hw
  · intro s2 hs2 x hw
    obtain ⟨sc2, hsc2, rfl⟩ := (mem_decoded_commands cfg m _ s2).mp hs2
    exact hsrc sc2 hsc2 x hw

set_option maxRecDepth 100000 in
/-- C20, counterexample: on `high_board` the load address `0xffffd000` is an
`unsigned int` and line 132 stores `0xffffd000 + 0x4000` wrapped to 32 bits, so the
block handed over has `phys_base = 0x1000`, while the loader, adding in pointer width,
puts the segment with `dst = virt_base = 0x1000` at `0x100001000`: its bytes are there
and not at `dst - virt_base + phys_base = 0x1000`, and the entry address handed over
is `0x100001008`, not `pc - virt_base + phys_base = 0x1008`. -/
theorem do_bootxnu_phys_base_wrapped :
    do_bootxnu high_board (demo_platform none) 1 scenario_memory 0 3 scenario_argv =
        some { mem := high_handoff.mem, handoff := some high_handoff, ret := none } ∧
      rd64 high_handoff.mem (high_handoff.boot_args + off_virt_base) = 0x1000 ∧
      rd64 high_handoff.mem (high_handoff.boot_args + off_phys_base) = 0x1000 ∧
      segment_commands high_board scenario_memory 0x1000000 = [0x1000020] ∧
      sc_dst scenario_memory 0x1000020 = 0x1000 ∧
      (List.range 0x20).all (fun k => decide
        (high_handoff.mem (0x100001000 + k) =
          if k < 0x10 then scenario_memory (0x1000040 + k) else 0)) = true ∧
      scenario_memory 0x1000040 = 0x20 ∧
      high_handoff.mem (0x1000 - 0x1000 + 0x1000) = 0 ∧
      thread_pc high_board scenario_memory 0x1000068 = 0x1008 ∧
      high_handoff.xnu_entry = 0x100001008 ∧
      ¬ (high_handoff.xnu_entry =
        uptr_add (uptr_sub 0x1008
            (rd64 high_handoff.mem (high_handoff.boot_args + off_virt_base)))
          (rd64 high_handoff.mem (high_handoff.boot_args + off_phys_base))) :=
  ⟨rfl, by decide, by decide, by decide, by decide, by decide, by decide, by decide, by decide,
    by decide, by decide⟩

/-- C20, amended: in every run of `do_bootxnu` that reaches the entry transfer, when
`CONFIG_SYS_LOAD_ADDR + XNU_LOAD_OFFSET` does not wrap in the C type of the board
constant, the `virt_base` and `phys_base` members handed over are `base` and that sum,
and they map addresses the way the loader placed the image: the loader's target of
every segment command is `dst - virt_base + phys_base`; the memory handed over holds
the segment there, its source bytes followed by zeros, when the addresses do not wrap
and no store goes over the command list, the segment or its source; the entry address
given to the transfer is `entry - virt_base + phys_base`, which is
`pc - virt_base + phys_base` for the last unix-thread command of a command list the
load does not store over; and a segment whose `dst` is `base` is loaded exactly at
`phys_base`. -/
theorem do_bootxnu_address_mapping (cfg : Config) (pf : Platform) (fuel : Nat) (m : Mem)
    (e : Nat) (argc : Int) (argv : List String) (r : Run) (h : Handoff)
    (hrun : do_bootxnu cfg pf fuel m e argc argv = some r) (hh : r.handoff = some h)
    (hwidth : cfg.CONFIG_SYS_LOAD_ADDR_width ≤ 64)
    (hnowrap : cfg.CONFIG_SYS_LOAD_ADDR + XNU_LOAD_OFFSET <
      2 ^ cfg.CONFIG_SYS_LOAD_ADDR_width) :
    rd64 h.mem (h.boot_args + off_virt_base) =
        (load_mach_o_image cfg m e (kernel_image_addr pf argv)).2.base ∧
      rd64 h.mem (h.boot_args + off_phys_base) = cfg.CONFIG_SYS_LOAD_ADDR + XNU_LOAD_OFFSET ∧
      (∀ sc, segment_target cfg (load_mach_o_image cfg m e (kernel_image_addr pf argv)).2.base
          (segment_at m sc) =
        uptr_add (uptr_sub (sc_dst m sc) (rd64 h.mem (h.boot_args + off_virt_base)))
          (rd64 h.mem (h.boot_args + off_phys_base))) ∧
      (∀ sc ∈ segment_commands cfg m (kernel_image_addr pf argv),
        sc_dst m sc - rd64 h.mem (h.boot_args + off_virt_base) +
            rd64 h.mem (h.boot_args + off_phys_base) < 2 ^ 64 →
        rd64 h.mem (h.boot_args + off_virt_base) ≤ sc_dst m sc ∧
          segment_target cfg (load_mach_o_image cfg m e (kernel_image_addr pf argv)).2.base
              (segment_at m sc) =
            sc_dst m sc - rd64 h.mem (h.boot_args + off_virt_base) +
              rd64 h.mem (h.boot_args + off_phys_base)) ∧
      (∀ sc ∈ segment_commands cfg m (kernel_image_addr pf argv),
        commands_preserved cfg m (kernel_image_addr pf argv)
          (load_mach_o_image cfg m e (kernel_image_addr pf argv)).2.base →
        sc_src_len m sc ≤ sc_dst_len m sc →
        sc_dst m sc + sc_dst_len m sc < 2 ^ 64 →
        rd64 h.mem (h.boot_args + off_phys_base) +
            ((load_mach_o_image cfg m e (kernel_image_addr pf argv)).2.end_ -
              rd64 h.mem (h.boot_args + off_virt_base)) +
            sizeof_xnu_boot_arguments < 2 ^ 64 →
        (∀ sc2 ∈ segment_commands cfg m (kernel_image_addr pf argv),
          segment_at m sc2 ≠ segment_at m sc →
          ∀ x, segment_writes cfg (load_mach_o_image cfg m e (kernel_image_addr pf argv)).2.base
              (segment_at m sc2) x →
            ¬ (sc_dst m sc - rd64 h.mem (h.boot_args + off_virt_base) +
                  rd64 h.mem (h.boot_args + off_phys_base) ≤ x ∧
                x < sc_dst m sc - rd64 h.mem (h.boot_args + off_virt_base) +
                  rd64 h.mem (h.boot_args + off_phys_base) + sc_dst_len m sc)) →
        (∀ sc2 ∈ segment_commands cfg m (kernel_image_addr pf argv),
          ∀ x, segment_writes cfg (load_mach_o_image cfg m e (kernel_image_addr pf argv)).2.base
              (segment_at m sc2) x →
            ¬ (uptr_add (kernel_image_addr pf argv) (sc_src_offset m sc) ≤ x ∧
                x < uptr_add (kernel_image_addr pf argv) (sc_src_offset m sc) +
                  sc_src_len m sc)) →
        ∀ k, k < sc_dst_len m sc →
          h.mem (sc_dst m sc - rd64 h.mem (h.boot_args + off_virt_base) +
              rd64 h.mem (h.boot_args + off_phys_base) + k) =
            if k < sc_src_len m sc then
              m (uptr_add (kernel_image_addr pf argv) (sc_src_offset m sc) + k)
            else 0) ∧
      h.xnu_entry =
        uptr_add (uptr_sub (load_mach_o_image cfg m e (kernel_image_addr pf argv)).2.entry
            (rd64 h.mem (h.boot_args + off_virt_base)))
          (rd64 h.mem (h.boot_args + off_phys_base)) ∧
      (∀ (lc : Nat) (pre post : List Nat),
        commands_preserved cfg m (kernel_image_addr pf argv)
          (load_mach_o_image cfg m e (kernel_image_addr pf argv)).2.base →
        image_commands cfg m (kernel_image_addr pf argv) = pre ++ lc :: post →
        lc_command m lc = LOAD_COMMAND_UNIXTHREAD →
        (∀ c ∈ post, lc_command m c ≠ LOAD_COMMAND_UNIXTHREAD) →
        h.xnu_entry =
          uptr_add (uptr_sub (thread_pc cfg m lc) (rd64 h.mem (h.boot_args + off_virt_base)))
            (rd64 h.mem (h.boot_args + off_phys_base))) ∧
      (∀ sc, sc_dst m sc = (load_mach_o_image cfg m e (kernel_image_addr pf argv)).2.base →
        segment_target cfg (load_mach_o_image cfg m e (kernel_image_addr pf argv)).2.base
            (segment_at m sc) = rd64 h.mem (h.boot_args + off_phys_base)) := by
  obtain ⟨hvb, hpb⟩ := do_bootxnu_bases cfg pf fuel m e argc argv r h hrun hh
  have hload : XNU_LOAD_ADDR cfg < 2 ^ 64 :=
    Nat.lt_of_lt_of_le hnowrap (Nat.pow_le_pow_right (by decide) hwidth)
  have halone : XNU_LOAD_ADDR_alone cfg = XNU_LOAD_ADDR cfg := Nat.mod_eq_of_lt hnowrap
  rw [halone, Nat.mod_eq_of_lt hload] at hpb
  obtain ⟨_, hvalid, _, hentry, _⟩ := do_bootxnu_handoff cfg pf fuel m e argc argv r h hrun hh
  obtain ⟨hmagic, htype, _⟩ := load_mach_o_image_valid cfg m e _ hvalid
  have hbase := load_mach_o_image_base_lt cfg m e (kernel_image_addr pf argv)
  rw [hvb, hpb]
  refine ⟨rfl, rfl, fun _ => rfl, ?_, ?_, hentry, ?_, ?_⟩
  · intro sc hsc hfit
    have hle := ((load_mach_o_image_bounds cfg m e _ hmagic htype).1 sc hsc).1
    exact ⟨hle, uptr_translate _ _ _ hle hfit⟩
  · intro sc hsc hpres hlen hno hfit hother hsrc
    exact (do_bootxnu_segment_bytes cfg pf fuel m e argc argv r h sc hrun hh hsc hpres hlen hno
      hfit hother hsrc).2.2
  · intro lc pre post hpres hlist hlc hpost
    rw [hentry, load_mach_o_image_last_thread cfg m e _ lc pre post hmagic htype hpres hlist hlc
      hpost]
  · intro sc hsc
    have := uptr_translate (sc_dst m sc) _ (XNU_LOAD_ADDR cfg) (Nat.le_of_eq hsc.symm)
      (by omega)
    unfold segment_target segment_at
    simp only
    rw [this]
    omega

set_option maxRecDepth 100000 in
/-- C20, amended, witness: in the scenario run `virt_base = 0x1000`,
`phys_base = 0x80004000`, the segment with `dst = 0x1000` is loaded at `0x80004000`,
where the memory handed over holds its 16 source bytes and 16 zeros, and the transfer
gets `0x1008 - 0x1000 + 0x80004000`. -/
theorem do_bootxnu_address_mapping_witness :
    rd64 (scenario_handoff none).mem ((scenario_handoff none).boot_args + off_virt_base) =
        0x1000 ∧
      rd64 (scenario_handoff none).mem ((scenario_handoff none).boot_args + off_phys_base) =
        0x80004000 ∧
      segment_target board 0x1000 (segment_at scenario_memory 0x1000020) = 0x80004000 ∧
      (scenario_handoff none).xnu_entry = 0x1008 - 0x1000 + 0x80004000 ∧
      (List.range 0x20).all (fun k => decide
        ((scenario_handoff none).mem (0x1000 - 0x1000 + 0x80004000 + k) =
          if k < 0x10 then scenario_memory (0x1000040 + k) else 0)) = true ∧
      segment_target board
          (load_mach_o_image board scenario_memory 0
            (kernel_image_addr (demo_platform none) scenario_argv)).2.base
          (segment_at scenario_memory 0x1000020) =
        rd64 (scenario_handoff none).mem ((scenario_handoff none).boot_args + off_phys_base) := by
  have h := do_bootxnu_address_mapping board (demo_platform none) 1 scenario_memory 0 3
    scenario_argv
    { mem := (scenario_handoff none).mem, handoff := some (scenario_handoff none), ret := none }
    (scenario_handoff none) rfl rfl (by decide) (by decide)
  have hk : kernel_image_addr (demo_platform none) scenario_argv = 0x1000000 := by decide
  have hsegs : segment_commands board scenario_memory 0x1000000 = [0x1000020] := by decide
  have hvb : rd64 (scenario_handoff none).mem
      ((scenario_handoff none).boot_args + off_virt_base) = 0x1000 := by decide
  have hpb : rd64 (scenario_handoff none).mem
      ((scenario_handoff none).boot_args + off_phys_base) = 0x80004000 := by decide
  have hb : (load_mach_o_image board scenario_memory 0 0x1000000).2.base = 0x1000 := by decide
  have hbytes := h.2.2.2.2.1 0x1000020 (by rw [hk, hsegs]; exact List.mem_singleton.mpr rfl)
    (by rw [hk]; exact scenario_memory_preserved) (by decide) (by decide) (by decide)
    (by
      intro sc2 hsc2 hne
      rw [hk, hsegs, List.mem_singleton] at hsc2
      subst hsc2
      exact absurd rfl hne)
    (by
      intro sc2 hsc2 x hw
      rw [hk, hsegs, List.mem_singleton] at hsc2
      subst hsc2
      rw [hk] at hw ⊢
      have hwr := scenario_memory_writes x hw
      have h1 : uptr_add 0x1000000 (sc_src_offset scenario_memory 0x1000020) = 0x1000040 := by
        decide
      have h2 : sc_src_len scenario_memory 0x1000020 = 0x10 := by decide
      rw [h1, h2]
      omega)
  refine ⟨hvb, hpb, by decide, by decide, ?_, h.2.2.2.2.2.2.2 0x1000020 (by decide)⟩
  rw [List.all_eq_true]
  intro k hk2
  have hk3 := List.mem_range.mp hk2
  apply decide_eq_true
  have hd : sc_dst scenario_memory 0x1000020 = 0x1000 := by decide
  have hdl : sc_dst_len scenario_memory 0x1000020 = 0x20 := by decide
  have hsl : sc_src_len scenario_memory 0x1000020 = 0x10 := by decide
  have hso : uptr_add (kernel_image_addr (demo_platform none) scenario_argv)
      (sc_src_offset scenario_memory 0x1000020) = 0x1000040 := by decide
  have hkk := hbytes k (by rw [hdl]; exact hk3)
  rw [hd, hvb, hpb, hsl, hso] at hkk
  exact hkk

set_option maxRecDepth 100000 in
/-- C16, counterexample: the segments `segment_low` and `segment_fed` have the target
regions `[0x80004000, 0x80004020)` and `[0x80004040, 0x80004050)`, which do not
overlap, `src_len ≤ dst_len`, and in both orders a matching header, the same `base`
and `end` and a command list that no store reaches; but the source of `segment_fed` is
the target of `segment_low`, so with `segment_low` first the byte at `0x80004040` is
the byte `1` that `segment_low` has just stored, and with `segment_fed` first it is the
`0` the memory held before. -/
theorem load_mach_o_image_order_matters :
    decoded_commands board (two_segment_image segment_low segment_fed) 0x1000000 =
        [Command.segment segment_low, Command.segment segment_fed] ∧
      decoded_commands board (two_segment_image segment_fed segment_low) 0x1000000 =
        [Command.segment segment_fed, Command.segment segment_low] ∧
      segment_target board 0x1000 segment_low = 0x80004000 ∧ segment_low.dst_len = 0x20 ∧
      segment_target board 0x1000 segment_fed = 0x80004040 ∧ segment_fed.dst_len = 0x10 ∧
      segment_low.src_len ≤ segment_low.dst_len ∧ segment_fed.src_len ≤ segment_fed.dst_len ∧
      segment_source 0x1000000 segment_fed = 0x80004000 ∧
      (load_mach_o_image board (two_segment_image segment_low segment_fed) 0 0x1000000).2 =
        { base := 0x1000, entry := 0, end_ := 0x1050 } ∧
      (load_mach_o_image board (two_segment_image segment_fed segment_low) 0 0x1000000).2 =
        { base := 0x1000, entry := 0, end_ := 0x1050 } ∧
      commands_preserved board (two_segment_image segment_low segment_fed) 0x1000000 0x1000 ∧
      commands_preserved board (two_segment_image segment_fed segment_low) 0x1000000 0x1000 ∧
      (load_mach_o_image board (two_segment_image segment_low segment_fed) 0 0x1000000).1
          0x80004040 = 1 ∧
      (load_mach_o_image board (two_segment_image segment_fed segment_low) 0 0x1000000).1
          0x80004040 = 0 ∧
      (decoded_commands board (two_segment_image segment_fed segment_low) 0x1000000).Perm
        (decoded_commands board (two_segment_image segment_low segment_fed) 0x1000000) ∧
      ¬ ((load_mach_o_image board (two_segment_image segment_fed segment_low) 0 0x1000000).1
          0x80004040 =
        (load_mach_o_image board (two_segment_image segment_low segment_fed) 0 0x1000000).1
          0x80004040) :=
  ⟨by decide, by decide, by decide, rfl, by decide, rfl, by decide, by decide, by decide,
    by decide, by decide,
    commands_preserved_of_within board _ 0x1000000 0x1000 0x200 0x80004000 0x80004050
      (by decide) (by decide) (by decide) (by decide) (by decide),
    commands_preserved_of_within board _ 0x1000000 0x1000 0x200 0x80004000 0x80004050
      (by decide) (by decide) (by decide) (by decide) (by decide),
    by decide, by decide,
    (by
      have h1 : decoded_commands board (two_segment_image segment_fed segment_low) 0x1000000 =
          [Command.segment segment_fed, Command.segment segment_low] := by decide
      have h2 : decoded_commands board (two_segment_image segment_low segment_fed) 0x1000000 =
          [Command.segment segment_low, Command.segment segment_fed] := by decide
      rw [h1, h2]
      exact List.Perm.swap _ _ []),
    by decide⟩

end BootXnu
